import Mathlib

set_option linter.unusedSectionVars false

/-!
Adaptive Replacement Cache (`fengge::ARC`)

A shallow embedding of `src/include/fengge/arc.h` and a verification of its
specification.

Representation.  Every `B` (ghost list) and `T` (resident list) of the source
is a `std::list` in least-recent-first order paired with a
`std::unordered_map` from keys to list positions.  The pair is modelled by
the list alone: a `B` is a `List K`, a `T` is a `List (K × V)`, the front of
the list is the least recently used end.  An iterator obtained from `Find` is
modelled by the key it was looked up with and designates the first entry
carrying that key; `Count()` (the size of the map) is the length of the list.
The two views agree as long as keys are not repeated inside a list, which is
what the `assert`s of the two `Insert` functions demand and what the
exclusivity theorem below establishes for every state the cache can reach.

Integers.  `cached_bytes_` is a `size_t` that is fed by user supplied sizing
functions, so its arithmetic is modelled modulo `2 ^ 64`.  List lengths, the
capacity `c_`, the target `p_` and the two 64 bit event counters are natural
numbers: they count objects held in memory, respectively calls made, and stay
far below `2 ^ 64`.

Eviction callback.  `EvictionCB` is `std::function<void(const K&, V&&)>`.  The
callee receives the stored value by rvalue reference, so the call is modelled
by the value it leaves behind in the slot; the calls made by one `Put` are
returned as a list of `(key, value)` pairs, oldest first.
-/

namespace fengge

/-- Modulus of `size_t` arithmetic. -/
def sizeMod : Nat := 2 ^ 64

/-- The type `EvictionCB`: `none` is an empty `std::function`; `some f` is a
callable, `f k v` being the content of the value slot when the call
`evict_cb(k, std::move(v))` returns. -/
abbrev EvictionCB (K V : Type) := Option (K → V → V)

/-- The enumeration `ARCQId`. -/
inductive ARCQId where
  | B1
  | T1
  | B2
  | T2
  deriving DecidableEq, Repr

/-- The structure `ARCSizeInfo`. -/
structure ARCSizeInfo where
  b1 : Nat
  t1 : Nat
  b2 : Nat
  t2 : Nat
  deriving DecidableEq, Repr

/-- The method `ARCSizeInfo::BSize`. -/
def ARCSizeInfo.BSize (i : ARCSizeInfo) : Nat := i.b1 + i.b2

/-- The method `ARCSizeInfo::TSize`. -/
def ARCSizeInfo.TSize (i : ARCSizeInfo) : Nat := i.t1 + i.t2

/-- The data members of `class ARC`. -/
structure ARC (K V : Type) where
  c_ : Nat
  p_ : Nat
  b1_ : List K
  b2_ : List K
  t1_ : List (K × V)
  t2_ : List (K × V)
  cached_bytes_ : Nat
  cache_hit_ : Nat
  cache_miss_ : Nat

/-- The constructor `ARC(size_t max_count)`. -/
def ARC.new {K V : Type} (max_count : Nat) : ARC K V :=
  { c_ := max_count, p_ := 0, b1_ := [], b2_ := [], t1_ := [], t2_ := [],
    cached_bytes_ := 0, cache_hit_ := 0, cache_miss_ := 0 }

section Model

variable {K V : Type} [DecidableEq K]

/-- The function `UpdateRemoveFromCacheBytes`, on the counter:
`cached_bytes_ -= bytes` in `size_t`. -/
def UpdateRemoveFromCacheBytes (bytes cached : Nat) : Nat :=
  (cached + (sizeMod - bytes % sizeMod)) % sizeMod

/-- The function `UpdateAddToCacheBytes`, on the counter:
`cached_bytes_ += bytes` in `size_t`. -/
def UpdateAddToCacheBytes (bytes cached : Nat) : Nat :=
  (cached + bytes) % sizeMod

/-- The function `OnCacheHit`. -/
def OnCacheHit (s : ARC K V) : ARC K V :=
  { s with cache_hit_ := s.cache_hit_ + 1 }

/-- The function `OnCacheMiss`. -/
def OnCacheMiss (s : ARC K V) : ARC K V :=
  { s with cache_miss_ := s.cache_miss_ + 1 }

/-- The method `B::Find`: is the key in the ghost list. -/
def B.Find (b : List K) (k : K) : Bool := b.contains k

/-- The method `B::Insert`: append at the most recent end. -/
def B.Insert (b : List K) (k : K) : List K := b ++ [k]

/-- The method `B::Remove`: erase the designated record; with a cache pointer
the key bytes leave the counter. -/
def B.Remove (kb : K → Nat) (b : List K) (k : K) (cache : Bool) (bytes : Nat) :
    List K × Nat :=
  (b.erase k, if cache then UpdateRemoveFromCacheBytes (kb k) bytes else bytes)

/-- The method `B::RemoveLRU`: drop the front record, nothing on an empty
list. -/
def B.RemoveLRU (kb : K → Nat) (b : List K) (cache : Bool) (bytes : Nat) :
    List K × Nat :=
  match b with
  | [] => ([], bytes)
  | k :: rest =>
    (rest, if cache then UpdateRemoveFromCacheBytes (kb k) bytes else bytes)

/-- The method `T::Find`: the entry stored under the key, if any. -/
def T.Find (t : List (K × V)) (k : K) : Option (K × V) :=
  t.find? (fun e => e.1 == k)

/-- The method `T::Insert`: append at the most recent end; with a cache
pointer key and value bytes enter the counter. -/
def T.Insert (kb : K → Nat) (vb : V → Nat) (t : List (K × V)) (k : K) (v : V)
    (cache : Bool) (bytes : Nat) : List (K × V) × Nat :=
  (t ++ [(k, v)],
    if cache then UpdateAddToCacheBytes ((kb k + vb v) % sizeMod) bytes else bytes)

/-- The byte adjustment shared by `T::Move` and `T::Touch` when a replacement
value is supplied. -/
def resize (vb : V → Nat) (old new : V) (bytes : Nat) : Nat :=
  if vb old ≠ vb new then
    UpdateAddToCacheBytes (vb new) (UpdateRemoveFromCacheBytes (vb old) bytes)
  else bytes

/-- The method `T::Move`, called on the list `this`: splice the entry of
`other` designated by `k` to the most recent end of `this`, with the
replacement value `v` when one is given.  Result: `this`, `other`,
counter. -/
def T.Move (vb : V → Nat) (this other : List (K × V)) (k : K) (v : Option V)
    (cache : Bool) (bytes : Nat) : List (K × V) × List (K × V) × Nat :=
  match T.Find other k with
  | none => (this, other, bytes)
  | some e =>
    let rest := other.eraseP (fun x => x.1 == k)
    match v with
    | none => (this ++ [e], rest, bytes)
    | some nv =>
      (this ++ [(e.1, nv)], rest, if cache then resize vb e.2 nv bytes else bytes)

/-- The method `T::Remove`: erase the designated entry; with a cache pointer
key and value bytes leave the counter. -/
def T.Remove (kb : K → Nat) (vb : V → Nat) (t : List (K × V)) (k : K)
    (cache : Bool) (bytes : Nat) : List (K × V) × Nat :=
  match T.Find t k with
  | none => (t, bytes)
  | some e =>
    (t.eraseP (fun x => x.1 == k),
      if cache then UpdateRemoveFromCacheBytes ((kb e.1 + vb e.2) % sizeMod) bytes
      else bytes)

/-- The method `T::RemoveLRU`: drop the front entry.  The callback runs
first, the bytes are read from the slot afterwards.  Result: list, counter,
callback calls. -/
def T.RemoveLRU (kb : K → Nat) (vb : V → Nat) (t : List (K × V))
    (evict_cb : EvictionCB K V) (cache : Bool) (bytes : Nat) :
    List (K × V) × Nat × List (K × V) :=
  match t with
  | [] => ([], bytes, [])
  | (k, v) :: rest =>
    let slot := match evict_cb with
      | none => v
      | some f => f k v
    let calls := match evict_cb with
      | none => []
      | some _ => [(k, v)]
    (rest,
      if cache then UpdateRemoveFromCacheBytes ((kb k + vb slot) % sizeMod) bytes
      else bytes,
      calls)

/-- The test `newest_iter == map_iter->second.list_iter` of `T::Touch`: is the
designated entry the last one of the list. -/
def T.isNewest (t : List (K × V)) (k : K) : Bool :=
  match t.getLast? with
  | none => false
  | some l => l.1 == k

/-- The method `T::Touch`: relocate the designated entry to the most recent
end, with the replacement value when one is given; an entry that is already
the newest stays where it is. -/
def T.Touch (vb : V → Nat) (t : List (K × V)) (k : K) (v : Option V)
    (cache : Bool) (bytes : Nat) : List (K × V) × Nat :=
  match T.Find t k with
  | none => (t, bytes)
  | some e =>
    let bytes1 := match v with
      | none => bytes
      | some nv => if cache then resize vb e.2 nv bytes else bytes
    let val := match v with
      | none => e.2
      | some nv => nv
    if T.isNewest t k then (t.dropLast ++ [(e.1, val)], bytes1)
    else (t.eraseP (fun x => x.1 == k) ++ [(e.1, val)], bytes1)

/-- The method `IsCacheFull`. -/
def IsCacheFull (s : ARC K V) : Bool :=
  s.t1_.length + s.t2_.length == s.c_

/-- The method `IncreaseP`.  The difference `c_ - p_` does not wrap: `p_`
starts at zero and is only set by this method and by `DecreaseP`, which keep
it at most `c_`. -/
def IncreaseP (s : ARC K V) (delta : Nat) : ARC K V :=
  if !IsCacheFull s then s
  else if delta > s.c_ - s.p_ then { s with p_ := s.c_ }
  else { s with p_ := s.p_ + delta }

/-- The method `DecreaseP`. -/
def DecreaseP (s : ARC K V) (delta : Nat) : ARC K V :=
  if !IsCacheFull s then s
  else if delta > s.p_ then { s with p_ := 0 }
  else { s with p_ := s.p_ - delta }

/-- The method `Move_T_B` for the pair `(t1_, b1_)` when `first` is true and
for `(t2_, b2_)` otherwise: the least recent entry of the resident list
becomes the most recent record of the ghost list.  The value bytes leave the
counter before the callback runs.  Result: state and callback calls. -/
def Move_T_B (kb : K → Nat) (vb : V → Nat) (s : ARC K V) (first : Bool)
    (evict_cb : EvictionCB K V) : ARC K V × List (K × V) :=
  let t := if first then s.t1_ else s.t2_
  let b := if first then s.b1_ else s.b2_
  match t with
  | [] => (s, [])
  | e :: _ =>
    let bytes := UpdateRemoveFromCacheBytes (vb e.2) s.cached_bytes_
    let calls := match evict_cb with
      | none => []
      | some _ => [e]
    let b1 := B.Insert b e.1
    let t1 := (T.Remove kb vb t e.1 false bytes).1
    if first then ({ s with t1_ := t1, b1_ := b1, cached_bytes_ := bytes }, calls)
    else ({ s with t2_ := t1, b2_ := b1, cached_bytes_ := bytes }, calls)

/-- The method `Replace`. -/
def Replace (kb : K → Nat) (vb : V → Nat) (s : ARC K V) (k : K)
    (evict_cb : EvictionCB K V) :
    ARC K V × List (K × V) :=
  if !IsCacheFull s then (s, [])
  else if s.t1_.length != 0 &&
      (decide (s.t1_.length > s.p_) || (B.Find s.b2_ k && s.t1_.length == s.p_)) then
    Move_T_B kb vb s true evict_cb
  else if decide (s.t2_.length > 0) then
    Move_T_B kb vb s false evict_cb
  else
    Move_T_B kb vb s true evict_cb

/-- The method `Get`: the new state and the value written through the out
parameter (`none` when the call returns `false`). -/
def Get (vb : V → Nat) (s : ARC K V) (key : K) : ARC K V × Option V :=
  match T.Find s.t1_ key with
  | some e =>
    let r := T.Move vb s.t2_ s.t1_ key none true s.cached_bytes_
    (OnCacheHit { s with t2_ := r.1, t1_ := r.2.1, cached_bytes_ := r.2.2 }, some e.2)
  | none =>
    match T.Find s.t2_ key with
    | some e =>
      let r := T.Touch vb s.t2_ key none false s.cached_bytes_
      (OnCacheHit { s with t2_ := r.1 }, some e.2)
    | none => (OnCacheMiss s, none)

/-- The capacity management of `Put` on a key found in none of the lists,
before the insertion into `t1_`.  The product `2 * c_` is compared only when
the lists hold at least `c_` entries, so it does not wrap for any capacity
whose lists fit in memory. -/
def makeRoom (kb : K → Nat) (vb : V → Nat) (s : ARC K V) (key : K)
    (evict_cb : EvictionCB K V) : ARC K V × List (K × V) :=
  if IsCacheFull s && s.t1_.length + s.b1_.length == s.c_ then
    if s.t1_.length < s.c_ then
      let r := B.RemoveLRU kb s.b1_ true s.cached_bytes_
      Replace kb vb { s with b1_ := r.1, cached_bytes_ := r.2 } key evict_cb
    else
      let r := T.RemoveLRU kb vb s.t1_ evict_cb true s.cached_bytes_
      ({ s with t1_ := r.1, cached_bytes_ := r.2.1 }, r.2.2)
  else if s.t1_.length + s.b1_.length < s.c_ then
    let total := s.t1_.length + s.b1_.length + s.t2_.length + s.b2_.length
    if total ≥ s.c_ then
      let s1 :=
        if total = 2 * s.c_ then
          if s.b2_.length > 0 then
            let r := B.RemoveLRU kb s.b2_ true s.cached_bytes_
            { s with b2_ := r.1, cached_bytes_ := r.2 }
          else
            let r := B.RemoveLRU kb s.b1_ true s.cached_bytes_
            { s with b1_ := r.1, cached_bytes_ := r.2 }
        else s
      Replace kb vb s1 key evict_cb
    else (s, [])
  else (s, [])

/-- The three argument method `Put`: the new state and the callback calls it
made.  The two argument `Put(key, value)` is this one with the empty
callback `none`. -/
def Put (kb : K → Nat) (vb : V → Nat) (s : ARC K V) (key : K) (value : V)
    (evict_cb : EvictionCB K V) : ARC K V × List (K × V) :=
  if (T.Find s.t1_ key).isSome then
    let r := T.Move vb s.t2_ s.t1_ key (some value) true s.cached_bytes_
    (OnCacheHit { s with t2_ := r.1, t1_ := r.2.1, cached_bytes_ := r.2.2 }, [])
  else if (T.Find s.t2_ key).isSome then
    let r := T.Touch vb s.t2_ key (some value) true s.cached_bytes_
    (OnCacheHit { s with t2_ := r.1, cached_bytes_ := r.2 }, [])
  else if B.Find s.b1_ key then
    let delta := min 1 (s.b2_.length / s.b1_.length)
    let r := Replace kb vb (IncreaseP s delta) key evict_cb
    let rb := B.Remove kb r.1.b1_ key true r.1.cached_bytes_
    let rt := T.Insert kb vb r.1.t2_ key value true rb.2
    ({ r.1 with b1_ := rb.1, t2_ := rt.1, cached_bytes_ := rt.2 }, r.2)
  else if B.Find s.b2_ key then
    let delta := max 1 (s.b1_.length / s.b2_.length)
    let r := Replace kb vb (DecreaseP s delta) key evict_cb
    let rb := B.Remove kb r.1.b2_ key true r.1.cached_bytes_
    let rt := T.Insert kb vb r.1.t2_ key value true rb.2
    ({ r.1 with b2_ := rb.1, t2_ := rt.1, cached_bytes_ := rt.2 }, r.2)
  else
    let r := makeRoom kb vb s key evict_cb
    let rt := T.Insert kb vb r.1.t1_ key value true r.1.cached_bytes_
    ({ r.1 with t1_ := rt.1, cached_bytes_ := rt.2 }, r.2)

/-- The method `Remove`. -/
def Remove (kb : K → Nat) (vb : V → Nat) (s : ARC K V) (key : K) : ARC K V :=
  if (T.Find s.t1_ key).isSome then
    let r := T.Remove kb vb s.t1_ key true s.cached_bytes_
    { s with t1_ := r.1, cached_bytes_ := r.2 }
  else if (T.Find s.t2_ key).isSome then
    let r := T.Remove kb vb s.t2_ key true s.cached_bytes_
    { s with t2_ := r.1, cached_bytes_ := r.2 }
  else if B.Find s.b1_ key then
    let r := B.Remove kb s.b1_ key true s.cached_bytes_
    { s with b1_ := r.1, cached_bytes_ := r.2 }
  else if B.Find s.b2_ key then
    let r := B.Remove kb s.b2_ key true s.cached_bytes_
    { s with b2_ := r.1, cached_bytes_ := r.2 }
  else s

/-- The method `Clear`.  Its body spells the four member calls `clear()`,
a name the nested structures `B` and `T` do not have: they declare
`Clear()`.  The definition is the body with the four calls resolved to the
declared members. -/
def Clear (s : ARC K V) : ARC K V :=
  { s with b1_ := [], t1_ := [], b2_ := [], t2_ := [], p_ := 0,
           cached_bytes_ := 0, cache_hit_ := 0, cache_miss_ := 0 }

/-- The method `Size`. -/
def Size (s : ARC K V) : Nat := s.t1_.length + s.t2_.length

/-- The method `Capacity`. -/
def Capacity (s : ARC K V) : Nat := s.c_

/-- The method `ARCSize`. -/
def ARCSize (s : ARC K V) : ARCSizeInfo :=
  { b1 := s.b1_.length, t1 := s.t1_.length, b2 := s.b2_.length, t2 := s.t2_.length }

/-- The method `CachedByteCount`. -/
def CachedByteCount (s : ARC K V) : Nat := s.cached_bytes_

/-- The method `HitCount`. -/
def HitCount (s : ARC K V) : Nat := s.cache_hit_

/-- The method `MissCount`. -/
def MissCount (s : ARC K V) : Nat := s.cache_miss_

/-- The method `GetKeysOfQ`. -/
def GetKeysOfQ (s : ARC K V) (q : ARCQId) : List K :=
  match q with
  | ARCQId.B1 => s.b1_
  | ARCQId.B2 => s.b2_
  | ARCQId.T1 => s.t1_.map Prod.fst
  | ARCQId.T2 => s.t2_.map Prod.fst

/-- The method `GetValuesOfQ`. -/
def GetValuesOfQ (s : ARC K V) (q : ARCQId) : List V :=
  match q with
  | ARCQId.B1 => []
  | ARCQId.B2 => []
  | ARCQId.T1 => s.t1_.map Prod.snd
  | ARCQId.T2 => s.t2_.map Prod.snd

/-- A call of the public interface. -/
inductive Op (K V : Type) where
  | put (key : K) (value : V) (evict_cb : EvictionCB K V)
  | get (key : K)
  | remove (key : K)
  | clear

/-- One call: the next state and the callback calls made. -/
def step (kb : K → Nat) (vb : V → Nat) (s : ARC K V) : Op K V → ARC K V × List (K × V)
  | Op.put k v cb => Put kb vb s k v cb
  | Op.get k => ((Get vb s k).1, [])
  | Op.remove k => (Remove kb vb s k, [])
  | Op.clear => (Clear s, [])

/-- A sequence of calls, first call first: the final state. -/
def run (kb : K → Nat) (vb : V → Nat) (s : ARC K V) : List (Op K V) → ARC K V
  | [] => s
  | op :: ops => run kb vb (step kb vb s op).1 ops

/-- The keys of a resident list, least recent first. -/
def keys (t : List (K × V)) : List K := t.map Prod.fst

/-- How often a key occurs in the four lists together. -/
def keyCount (s : ARC K V) (a : K) : Nat :=
  (keys s.t1_).count a + (keys s.t2_).count a + s.b1_.count a + s.b2_.count a

/-- What a present callback is told about an entry. -/
def cbCalls (evict_cb : EvictionCB K V) (e : K × V) : List (K × V) :=
  match evict_cb with
  | none => []
  | some _ => [e]

/-- The size bounds kept by `Put`: residents within capacity, `t1_` and `b1_`
together within capacity, all four lists within twice the capacity, and no
ghosts while the cache is not full. -/
def SizeInv (s : ARC K V) : Prop :=
  s.t1_.length + s.t2_.length ≤ s.c_ ∧
  s.t1_.length + s.b1_.length ≤ s.c_ ∧
  s.t1_.length + s.t2_.length + s.b1_.length + s.b2_.length ≤ 2 * s.c_ ∧
  (s.t1_.length + s.t2_.length < s.c_ → s.b1_.length + s.b2_.length = 0)

/-- A sequence of three argument `Put` calls, first call first. -/
def runPuts (kb : K → Nat) (vb : V → Nat) (s : ARC K V) :
    List (K × V × EvictionCB K V) → ARC K V
  | [] => s
  | a :: rest => runPuts kb vb (Put kb vb s a.1 a.2.1 a.2.2).1 rest

/-- The byte footprint of the lists: the key bytes of every ghost record and
the key and value bytes of every resident entry. -/
def byteSum (kb : K → Nat) (vb : V → Nat) (s : ARC K V) : Nat :=
  (s.b1_.map kb).sum + (s.b2_.map kb).sum +
  (s.t1_.map (fun e => kb e.1 + vb e.2)).sum + (s.t2_.map (fun e => kb e.1 + vb e.2)).sum

/-- Byte accounting: the counter is the byte footprint of the lists in
`size_t` arithmetic. -/
def BytesOk (kb : K → Nat) (vb : V → Nat) (s : ARC K V) : Prop :=
  s.cached_bytes_ = byteSum kb vb s % sizeMod

/-- A call whose callback, if it has one, leaves the size of the value it is
handed as it is. -/
def sizeKeeping (vb : V → Nat) : Op K V → Prop
  | Op.put _ _ (some f) => ∀ k v, vb (f k v) = vb v
  | _ => True

/-- Exclusivity: no key occurs twice in the concatenation of the four key
lists, that is, a key is in at most one list and at most once there. -/
def Exclusive (s : ARC K V) : Prop :=
  (keys s.t1_ ++ keys s.t2_ ++ s.b1_ ++ s.b2_).Nodup

/-- The states of a cache: what a new cache of some capacity becomes under
some sequence of calls. -/
def Reachable (kb : K → Nat) (vb : V → Nat) (s : ARC K V) : Prop :=
  ∃ (c : Nat) (ops : List (Op K V)), s = run kb vb (ARC.new c) ops

/-- The callback calls made by a sequence of three argument `Put` calls,
oldest first. -/
def runPutsCalls (kb : K → Nat) (vb : V → Nat) (s : ARC K V) :
    List (K × V × EvictionCB K V) → List (K × V)
  | [] => []
  | a :: rest =>
    (Put kb vb s a.1 a.2.1 a.2.2).2 ++ runPutsCalls kb vb (Put kb vb s a.1 a.2.1 a.2.2).1 rest

/-- The callback calls made by a sequence of calls, oldest first. -/
def runCalls (kb : K → Nat) (vb : V → Nat) (s : ARC K V) : List (Op K V) → List (K × V)
  | [] => []
  | op :: ops => (step kb vb s op).2 ++ runCalls kb vb (step kb vb s op).1 ops

/-- The resident lists `t1` and `t2` and the callback calls `calls` come from
the state `s` by evicting at most one entry: nothing happened, or the cache
was full and the least recent entry of `t1_` or of `t2_` left and was told
to the callback. -/
def Evicts (cb : EvictionCB K V) (s : ARC K V) (t1 t2 calls : List (K × V)) : Prop :=
  (t1 = s.t1_ ∧ t2 = s.t2_ ∧ calls = []) ∨
  (IsCacheFull s = true ∧ ∃ e rest, s.t1_ = e :: rest ∧ t1 = rest ∧ t2 = s.t2_ ∧
    calls = cbCalls cb e) ∨
  (IsCacheFull s = true ∧ ∃ e rest, s.t2_ = e :: rest ∧ t1 = s.t1_ ∧ t2 = rest ∧
    calls = cbCalls cb e)

/-- The division of two `size_t` operands: it has no value when the divisor
is zero. -/
def divSize (a b : Nat) : Option Nat :=
  if b = 0 then none else some (a / b)

/-- The method `Put` with its two divisions checked: the result is `none`
when the call evaluates a quotient whose divisor is zero, and the new state
with the callback calls otherwise. -/
def PutChecked (kb : K → Nat) (vb : V → Nat) (s : ARC K V) (key : K) (value : V)
    (evict_cb : EvictionCB K V) : Option (ARC K V × List (K × V)) :=
  if (T.Find s.t1_ key).isSome then
    let r := T.Move vb s.t2_ s.t1_ key (some value) true s.cached_bytes_
    some (OnCacheHit { s with t2_ := r.1, t1_ := r.2.1, cached_bytes_ := r.2.2 }, [])
  else if (T.Find s.t2_ key).isSome then
    let r := T.Touch vb s.t2_ key (some value) true s.cached_bytes_
    some (OnCacheHit { s with t2_ := r.1, cached_bytes_ := r.2 }, [])
  else if B.Find s.b1_ key then
    (divSize s.b2_.length s.b1_.length).map (fun q =>
      let delta := min 1 q
      let r := Replace kb vb (IncreaseP s delta) key evict_cb
      let rb := B.Remove kb r.1.b1_ key true r.1.cached_bytes_
      let rt := T.Insert kb vb r.1.t2_ key value true rb.2
      ({ r.1 with b1_ := rb.1, t2_ := rt.1, cached_bytes_ := rt.2 }, r.2))
  else if B.Find s.b2_ key then
    (divSize s.b1_.length s.b2_.length).map (fun q =>
      let delta := max 1 q
      let r := Replace kb vb (DecreaseP s delta) key evict_cb
      let rb := B.Remove kb r.1.b2_ key true r.1.cached_bytes_
      let rt := T.Insert kb vb r.1.t2_ key value true rb.2
      ({ r.1 with b2_ := rb.1, t2_ := rt.1, cached_bytes_ := rt.2 }, r.2))
  else
    let r := makeRoom kb vb s key evict_cb
    let rt := T.Insert kb vb r.1.t1_ key value true r.1.cached_bytes_
    some ({ r.1 with t1_ := rt.1, cached_bytes_ := rt.2 }, r.2)

/-- The divisors of the quotients that `Put(key, .)` evaluates in the state
`s`: the size of `b1_` in the branch of a key found in `b1_`, the size of
`b2_` in the branch of a key found in `b2_`, none in the other branches. -/
def PutDivisors (s : ARC K V) (key : K) : List Nat :=
  if (T.Find s.t1_ key).isSome then []
  else if (T.Find s.t2_ key).isSome then []
  else if B.Find s.b1_ key then [s.b1_.length]
  else if B.Find s.b2_ key then [s.b2_.length]
  else []

/-- Is the call a `Put` or a `Get`. -/
def Op.isPutOrGet : Op K V → Bool
  | Op.put _ _ _ => true
  | Op.get _ => true
  | Op.remove _ => false
  | Op.clear => false

/-- Is the call one of `Put(k, .)`, `Remove(k)` and `Clear`. -/
def Op.writes (k : K) : Op K V → Bool
  | Op.put key _ _ => key == k
  | Op.get _ => false
  | Op.remove key => key == k
  | Op.clear => true

/-- The value of a call that is a `Put`. -/
def Op.putValue : Op K V → Option V
  | Op.put _ value _ => some value
  | Op.get _ => none
  | Op.remove _ => none
  | Op.clear => none

/-- The value `v` when the most recent call among the calls `Put(k, .)`,
`Remove(k)` and `Clear` of a sequence (first call first) is a `Put(k, v)`;
`none` when there is no such call or the most recent one is not a `Put`. -/
def lastPut (k : K) (ops : List (Op K V)) : Option V :=
  ((ops.filter (Op.writes k)).getLast?).bind Op.putValue

/-- Does the call name a key other than `k`: `Put`, `Get` and `Remove` on
another key do. -/
def Op.onOtherKey (k : K) : Op K V → Bool
  | Op.put key _ _ => !(key == k)
  | Op.get key => !(key == k)
  | Op.remove key => !(key == k)
  | Op.clear => false

end Model

/-- The function `CacheTraits<int>::CountBytes`: `sizeof(int)`, which is four
on the usual platforms; the keys and values of the tests are non negative
and modelled by natural numbers. -/
def intBytes (_ : Nat) : Nat := 4

/-- The function `CacheTraits<std::string>::CountBytes`, a string being the
list of its bytes: `v.size()`. -/
def stringBytes (v : List Nat) : Nat := v.length

/-- A `Put` of the test suite without callback: key and value are equal. -/
def putInt (i : Nat) : Op Nat Nat := Op.put i i none

/-- A `Put` of the test `cache_evict` with its callback, which only reads the
value. -/
def putIntCb (i : Nat) : Op Nat Nat := Op.put i i (some (fun _ v => v))

/-- The calls of the test `cache_evict` on a cache of capacity five. -/
def evictOps : List (Op Nat Nat) :=
  [putInt 0, putInt 1, putInt 2, putInt 3, putInt 4,
   Op.get 0, Op.get 1, Op.get 2, Op.get 3, Op.get 4,
   putIntCb 5, putIntCb 6, putIntCb 7, putIntCb 8, putIntCb 9]

/-- The first five calls of the test `cache_evict` as arguments of `Put`. -/
def fivePuts : List (Nat × Nat × EvictionCB Nat Nat) :=
  [(0, 0, none), (1, 1, none), (2, 2, none), (3, 3, none), (4, 4, none)]

/-- A state of a cache of capacity three: `T1 = [3, 4]`, `T2 = [1]`,
`B1 = [2]`. -/
def demoState : ARC Nat Nat :=
  run intBytes intBytes (ARC.new 3) [putInt 1, putInt 2, putInt 3, Op.get 1, putInt 4]

/-- Calls on a cache of capacity two after which three entries are
resident. -/
def overflowOps : List (Op Nat Nat) :=
  [putInt 1, putInt 2, putInt 1, putInt 3, Op.remove 1, putInt 4, putInt 5]

/-- A callback that takes the value away: it moves from its argument and
leaves the empty string behind. -/
def takeValue : EvictionCB Nat (List Nat) := some (fun _ _ => [])

/-- A callback that writes ten bytes into its argument. -/
def growValue : EvictionCB Nat (List Nat) :=
  some (fun _ _ => [120, 120, 120, 120, 120, 120, 120, 120, 120, 120])

/-- Two `Put` calls on a cache of capacity one with integer keys and string
values; the second evicts the entry of the first through `T::RemoveLRU`. -/
def takeOps : List (Op Nat (List Nat)) :=
  [Op.put 1 [97, 98, 99] takeValue, Op.put 2 [] takeValue]

/-- The same two keys with empty values and the callback that writes into
the evicted value. -/
def growOps : List (Op Nat (List Nat)) :=
  [Op.put 1 [] growValue, Op.put 2 [] growValue]

/-- The calls of the test `cache_inspect` on a cache of capacity three. -/
def walkOps : List (Op Nat Nat) :=
  [putInt 1, putInt 2, putInt 3, Op.get 1, putInt 4, putInt 2, Op.get 4, putInt 3]

/-- Ten `Put` calls with the keys 0..9, each with a callback that only reads
the value. -/
def tenPuts : List (Nat × Nat × EvictionCB Nat Nat) :=
  (List.range 10).map (fun i => (i, i, some (fun _ v => v)))

/-- Five `Put` calls on natural number keys and values, the fourth with a
callback that leaves the value in place. -/
def demoPuts : List (Nat × Nat × EvictionCB Nat Nat) :=
  [(1, 1, none), (2, 2, none), (1, 5, none), (3, 3, some (fun _ v => v)), (2, 2, none)]

section Lemmas
variable {K V : Type} [DecidableEq K]

theorem T_Find_some {t : List (K × V)} {k : K} {e : K × V} (h : T.Find t k = some e) :
    e.1 = k ∧ e ∈ t := by
  unfold T.Find at h
  have h1 := List.find?_some h
  have h2 := List.mem_of_find?_eq_some h
  simp at h1
  exact ⟨h1, h2⟩

theorem T_Find_eq_none {t : List (K × V)} {k : K} : T.Find t k = none ↔ k ∉ keys t := by
  unfold T.Find keys
  simp [List.find?_eq_none]
  constructor
  · intro h v hv
    exact h k v hv rfl
  · intro h a b hab e
    subst e
    exact h b hab

theorem T_Find_isSome {t : List (K × V)} {k : K} :
    (T.Find t k).isSome = true ↔ k ∈ keys t := by
  cases h : T.Find t k with
  | none => simpa using T_Find_eq_none.mp h
  | some e =>
    obtain ⟨h1, h2⟩ := T_Find_some h
    simp [keys]
    exact ⟨e.2, by rw [← h1]; exact h2⟩

theorem keys_eraseP (t : List (K × V)) (k : K) :
    keys (t.eraseP (fun x => x.1 == k)) = (keys t).erase k := by
  induction t with
  | nil => rfl
  | cons e t ih =>
    by_cases h : e.1 = k
    · simp [keys, List.eraseP_cons, h]
    · have h2 : (e.1 == k) = false := by simpa using h
      simp only [keys, List.eraseP_cons, h2, List.map_cons, List.erase_cons] at ih ⊢
      simp [ih]

theorem length_keys (t : List (K × V)) : (keys t).length = t.length := by
  simp [keys]

theorem B_Find_iff {b : List K} {k : K} : B.Find b k = true ↔ k ∈ b := by
  simp [B.Find]

theorem length_eraseP_key {t : List (K × V)} {k : K} (h : k ∈ keys t) :
    (t.eraseP (fun x => x.1 == k)).length + 1 = t.length := by
  have h1 := congrArg List.length (keys_eraseP t k)
  rw [length_keys, List.length_erase_of_mem h, length_keys] at h1
  have h2 : 0 < t.length := by
    rw [← length_keys]; exact List.length_pos_of_mem h
  omega

/-! The primitives, field by field -/

@[simp] theorem IncreaseP_t1 (s : ARC K V) (d : Nat) : (IncreaseP s d).t1_ = s.t1_ := by
  unfold IncreaseP; split_ifs <;> rfl
@[simp] theorem IncreaseP_t2 (s : ARC K V) (d : Nat) : (IncreaseP s d).t2_ = s.t2_ := by
  unfold IncreaseP; split_ifs <;> rfl
@[simp] theorem IncreaseP_b1 (s : ARC K V) (d : Nat) : (IncreaseP s d).b1_ = s.b1_ := by
  unfold IncreaseP; split_ifs <;> rfl
@[simp] theorem IncreaseP_b2 (s : ARC K V) (d : Nat) : (IncreaseP s d).b2_ = s.b2_ := by
  unfold IncreaseP; split_ifs <;> rfl
@[simp] theorem IncreaseP_c (s : ARC K V) (d : Nat) : (IncreaseP s d).c_ = s.c_ := by
  unfold IncreaseP; split_ifs <;> rfl
@[simp] theorem IncreaseP_bytes (s : ARC K V) (d : Nat) :
    (IncreaseP s d).cached_bytes_ = s.cached_bytes_ := by
  unfold IncreaseP; split_ifs <;> rfl
@[simp] theorem IncreaseP_hit (s : ARC K V) (d : Nat) :
    (IncreaseP s d).cache_hit_ = s.cache_hit_ := by
  unfold IncreaseP; split_ifs <;> rfl
@[simp] theorem IncreaseP_miss (s : ARC K V) (d : Nat) :
    (IncreaseP s d).cache_miss_ = s.cache_miss_ := by
  unfold IncreaseP; split_ifs <;> rfl
@[simp] theorem DecreaseP_t1 (s : ARC K V) (d : Nat) : (DecreaseP s d).t1_ = s.t1_ := by
  unfold DecreaseP; split_ifs <;> rfl
@[simp] theorem DecreaseP_t2 (s : ARC K V) (d : Nat) : (DecreaseP s d).t2_ = s.t2_ := by
  unfold DecreaseP; split_ifs <;> rfl
@[simp] theorem DecreaseP_b1 (s : ARC K V) (d : Nat) : (DecreaseP s d).b1_ = s.b1_ := by
  unfold DecreaseP; split_ifs <;> rfl
@[simp] theorem DecreaseP_b2 (s : ARC K V) (d : Nat) : (DecreaseP s d).b2_ = s.b2_ := by
  unfold DecreaseP; split_ifs <;> rfl
@[simp] theorem DecreaseP_c (s : ARC K V) (d : Nat) : (DecreaseP s d).c_ = s.c_ := by
  unfold DecreaseP; split_ifs <;> rfl
@[simp] theorem DecreaseP_bytes (s : ARC K V) (d : Nat) :
    (DecreaseP s d).cached_bytes_ = s.cached_bytes_ := by
  unfold DecreaseP; split_ifs <;> rfl
@[simp] theorem DecreaseP_hit (s : ARC K V) (d : Nat) :
    (DecreaseP s d).cache_hit_ = s.cache_hit_ := by
  unfold DecreaseP; split_ifs <;> rfl
@[simp] theorem DecreaseP_miss (s : ARC K V) (d : Nat) :
    (DecreaseP s d).cache_miss_ = s.cache_miss_ := by
  unfold DecreaseP; split_ifs <;> rfl

@[simp] theorem IsCacheFull_IncreaseP (s : ARC K V) (d : Nat) :
    IsCacheFull (IncreaseP s d) = IsCacheFull s := by
  simp [IsCacheFull]
@[simp] theorem IsCacheFull_DecreaseP (s : ARC K V) (d : Nat) :
    IsCacheFull (DecreaseP s d) = IsCacheFull s := by
  simp [IsCacheFull]

theorem Move_T_B_first (kb : K → Nat) (vb : V → Nat) (s : ARC K V) (cb : EvictionCB K V)
    {e : K × V} {rest : List (K × V)} (h : s.t1_ = e :: rest) :
    Move_T_B kb vb s true cb =
      ({ s with t1_ := rest, b1_ := s.b1_ ++ [e.1],
                cached_bytes_ := UpdateRemoveFromCacheBytes (vb e.2) s.cached_bytes_ },
        cbCalls cb e) := by
  simp [Move_T_B, h, T.Remove, T.Find, B.Insert, cbCalls]

theorem Move_T_B_second (kb : K → Nat) (vb : V → Nat) (s : ARC K V) (cb : EvictionCB K V)
    {e : K × V} {rest : List (K × V)} (h : s.t2_ = e :: rest) :
    Move_T_B kb vb s false cb =
      ({ s with t2_ := rest, b2_ := s.b2_ ++ [e.1],
                cached_bytes_ := UpdateRemoveFromCacheBytes (vb e.2) s.cached_bytes_ },
        cbCalls cb e) := by
  simp [Move_T_B, h, T.Remove, T.Find, B.Insert, cbCalls]

/-- What `Replace` does: nothing, or it turns the least recent entry of `t1_`
or of `t2_` into the most recent ghost of `b1_` respectively `b2_`. -/
theorem Replace_spec (kb : K → Nat) (vb : V → Nat) (s : ARC K V) (k : K)
    (cb : EvictionCB K V) :
    (Replace kb vb s k cb = (s, []) ∧ (IsCacheFull s = true → s.t1_ = [] ∧ s.t2_ = []))
    ∨ (IsCacheFull s = true ∧ ∃ e rest, s.t1_ = e :: rest ∧
        Replace kb vb s k cb =
          ({ s with t1_ := rest, b1_ := s.b1_ ++ [e.1],
                    cached_bytes_ := UpdateRemoveFromCacheBytes (vb e.2) s.cached_bytes_ },
            cbCalls cb e))
    ∨ (IsCacheFull s = true ∧ ∃ e rest, s.t2_ = e :: rest ∧
        Replace kb vb s k cb =
          ({ s with t2_ := rest, b2_ := s.b2_ ++ [e.1],
                    cached_bytes_ := UpdateRemoveFromCacheBytes (vb e.2) s.cached_bytes_ },
            cbCalls cb e)) := by
  have hc : ∀ l : List (K × V), l = [] ∨ ∃ e rest, l = e :: rest := by
    intro l; cases l <;> simp
  by_cases hf : IsCacheFull s = true
  · rcases hc s.t1_ with h1 | ⟨e, rest, h1⟩
    · rcases hc s.t2_ with h2 | ⟨e, rest, h2⟩
      · left
        simp [Replace, hf, h1, h2, Move_T_B]
      · right; right
        refine ⟨hf, e, rest, h2, ?_⟩
        rw [← Move_T_B_second kb vb s cb h2]
        simp [Replace, hf, h1, h2]
    · unfold Replace
      split_ifs with h3 h4 h5
      · simp [hf] at h3
      · right; left
        exact ⟨hf, e, rest, h1, Move_T_B_first kb vb s cb h1⟩
      · rcases hc s.t2_ with h2 | ⟨e2, rest2, h2⟩
        · simp [h2] at h5
        · right; right
          exact ⟨hf, e2, rest2, h2, Move_T_B_second kb vb s cb h2⟩
      · right; left
        exact ⟨hf, e, rest, h1, Move_T_B_first kb vb s cb h1⟩
  · left
    simp [Replace, hf]

end Lemmas

section Sizes
variable {K V : Type} [DecidableEq K]

theorem T_Move_length (vb : V → Nat) (this other : List (K × V)) (k : K) (v : Option V)
    (cache : Bool) (bytes : Nat) (h : k ∈ keys other) :
    (T.Move vb this other k v cache bytes).1.length = this.length + 1 ∧
    (T.Move vb this other k v cache bytes).2.1.length + 1 = other.length := by
  have h1 := length_eraseP_key h
  unfold T.Move
  cases hf : T.Find other k with
  | none => exact absurd h (T_Find_eq_none.mp hf)
  | some e => cases v <;> simp [h1]

theorem T_Touch_length (vb : V → Nat) (t : List (K × V)) (k : K) (v : Option V)
    (cache : Bool) (bytes : Nat) :
    (T.Touch vb t k v cache bytes).1.length = t.length := by
  unfold T.Touch
  cases hf : T.Find t k with
  | none => rfl
  | some e =>
    have hk : k ∈ keys t := T_Find_isSome.mp (by simp [hf])
    have h1 := length_eraseP_key hk
    have h2 : 0 < t.length := by omega
    by_cases hn : T.isNewest t k = true
    · dsimp only
      rw [if_pos hn]
      simp only [List.length_append, List.length_dropLast, List.length_singleton]
      omega
    · dsimp only
      rw [if_neg hn]
      simpa using h1

theorem B_RemoveLRU_length (kb : K → Nat) (b : List K) (cache : Bool) (bytes : Nat) :
    (B.RemoveLRU kb b cache bytes).1.length = b.length - 1 := by
  cases b <;> simp [B.RemoveLRU]

theorem T_RemoveLRU_length (kb : K → Nat) (vb : V → Nat) (t : List (K × V))
    (cb : EvictionCB K V) (cache : Bool) (bytes : Nat) :
    (T.RemoveLRU kb vb t cb cache bytes).1.length = t.length - 1 := by
  rcases t with _ | ⟨⟨k, v⟩, rest⟩ <;> simp [T.RemoveLRU]

/-- The effect of `Replace` on the four lengths. -/
theorem Replace_sizes (kb : K → Nat) (vb : V → Nat) (s : ARC K V) (k : K)
    (cb : EvictionCB K V) :
    (Replace kb vb s k cb).1.c_ = s.c_ ∧
    (((s.t1_.length + s.t2_.length = s.c_ → s.c_ = 0) ∧
        (Replace kb vb s k cb).1.t1_.length = s.t1_.length ∧
        (Replace kb vb s k cb).1.t2_.length = s.t2_.length ∧
        (Replace kb vb s k cb).1.b1_.length = s.b1_.length ∧
        (Replace kb vb s k cb).1.b2_.length = s.b2_.length)
      ∨ (s.t1_.length + s.t2_.length = s.c_ ∧
        (Replace kb vb s k cb).1.t1_.length + 1 = s.t1_.length ∧
        (Replace kb vb s k cb).1.t2_.length = s.t2_.length ∧
        (Replace kb vb s k cb).1.b1_.length = s.b1_.length + 1 ∧
        (Replace kb vb s k cb).1.b2_.length = s.b2_.length)
      ∨ (s.t1_.length + s.t2_.length = s.c_ ∧
        (Replace kb vb s k cb).1.t1_.length = s.t1_.length ∧
        (Replace kb vb s k cb).1.t2_.length + 1 = s.t2_.length ∧
        (Replace kb vb s k cb).1.b1_.length = s.b1_.length ∧
        (Replace kb vb s k cb).1.b2_.length = s.b2_.length + 1)) := by
  rcases Replace_spec kb vb s k cb with ⟨h, hf⟩ | ⟨hf, e, rest, he, h⟩ | ⟨hf, e, rest, he, h⟩
  · rw [h]
    refine ⟨rfl, Or.inl ⟨?_, rfl, rfl, rfl, rfl⟩⟩
    intro hfull
    have := hf (by simp [IsCacheFull, hfull])
    simp [this.1, this.2] at hfull
    exact hfull.symm
  · rw [h]
    simp [IsCacheFull] at hf
    exact ⟨rfl, Or.inr (Or.inl ⟨hf, by simp [he], rfl, by simp, rfl⟩)⟩
  · rw [h]
    simp [IsCacheFull] at hf
    exact ⟨rfl, Or.inr (Or.inr ⟨hf, rfl, by simp [he], rfl, by simp⟩)⟩

theorem Replace_b1_mem (kb : K → Nat) (vb : V → Nat) (s : ARC K V) (k : K)
    (cb : EvictionCB K V) {a : K} (h : a ∈ s.b1_) : a ∈ (Replace kb vb s k cb).1.b1_ := by
  rcases Replace_spec kb vb s k cb with ⟨h1, _⟩ | ⟨_, e, rest, _, h1⟩ | ⟨_, e, rest, _, h1⟩ <;>
    rw [h1] <;> simp [h]

theorem Replace_b2_mem (kb : K → Nat) (vb : V → Nat) (s : ARC K V) (k : K)
    (cb : EvictionCB K V) {a : K} (h : a ∈ s.b2_) : a ∈ (Replace kb vb s k cb).1.b2_ := by
  rcases Replace_spec kb vb s k cb with ⟨h1, _⟩ | ⟨_, e, rest, _, h1⟩ | ⟨_, e, rest, _, h1⟩ <;>
    rw [h1] <;> simp [h]

/-- The effect of the capacity management on the four lengths, under the
size bounds. -/
theorem makeRoom_sizes (kb : K → Nat) (vb : V → Nat) (s : ARC K V) (k : K)
    (cb : EvictionCB K V) (hc : 1 ≤ s.c_) (hi : SizeInv s) :
    (makeRoom kb vb s k cb).1.c_ = s.c_ ∧
    (makeRoom kb vb s k cb).1.t1_.length + (makeRoom kb vb s k cb).1.t2_.length < s.c_ ∧
    (makeRoom kb vb s k cb).1.t1_.length + (makeRoom kb vb s k cb).1.b1_.length < s.c_ ∧
    (makeRoom kb vb s k cb).1.t1_.length + (makeRoom kb vb s k cb).1.t2_.length +
      (makeRoom kb vb s k cb).1.b1_.length + (makeRoom kb vb s k cb).1.b2_.length < 2 * s.c_ ∧
    ((makeRoom kb vb s k cb).1.t1_.length + (makeRoom kb vb s k cb).1.t2_.length + 1 < s.c_ →
      (makeRoom kb vb s k cb).1.b1_.length + (makeRoom kb vb s k cb).1.b2_.length = 0) := by
  obtain ⟨i1, i2, i3, i4⟩ := hi
  have hr1 := Replace_sizes kb vb
      { s with b1_ := (B.RemoveLRU kb s.b1_ true s.cached_bytes_).1,
               cached_bytes_ := (B.RemoveLRU kb s.b1_ true s.cached_bytes_).2 } k cb
  have hr2 := Replace_sizes kb vb
      { s with b2_ := (B.RemoveLRU kb s.b2_ true s.cached_bytes_).1,
               cached_bytes_ := (B.RemoveLRU kb s.b2_ true s.cached_bytes_).2 } k cb
  have hr3 := Replace_sizes kb vb s k cb
  simp only [B_RemoveLRU_length] at hr1 hr2
  have hf : IsCacheFull s = true ↔ s.t1_.length + s.t2_.length = s.c_ := by
    simp [IsCacheFull]
  unfold makeRoom
  dsimp only
  by_cases h0 : s.t1_.length + s.t2_.length = s.c_
  · by_cases h1 : s.t1_.length + s.b1_.length = s.c_
    · by_cases h2 : s.t1_.length < s.c_
      · simp only [hf.mpr h0, h1, h2, beq_self_eq_true, Bool.and_self, if_true]
        generalize (Replace kb vb _ k cb).1 = r at hr1 ⊢
        refine ⟨?_, ?_, ?_, ?_, ?_⟩ <;> intros <;> omega
      · simp only [hf.mpr h0, h1, h2, beq_self_eq_true, Bool.and_self, if_true, if_false,
          T_RemoveLRU_length]
        refine ⟨trivial, ?_, ?_, ?_, ?_⟩ <;> intros <;> omega
    · have h3 : s.t1_.length + s.b1_.length < s.c_ := by omega
      have h4 : s.t1_.length + s.b1_.length + s.t2_.length + s.b2_.length ≥ s.c_ := by omega
      simp only [hf.mpr h0, h1, h3, h4, beq_iff_eq, Bool.true_and, if_true, if_false]
      by_cases h5 : s.t1_.length + s.b1_.length + s.t2_.length + s.b2_.length = 2 * s.c_
      · by_cases h6 : s.b2_.length > 0
        · simp only [h5, h6, if_true]
          generalize (Replace kb vb _ k cb).1 = r at hr2 ⊢
          refine ⟨?_, ?_, ?_, ?_, ?_⟩ <;> intros <;> omega
        · simp only [h5, h6, if_true, if_false]
          generalize (Replace kb vb _ k cb).1 = r at hr1 ⊢
          refine ⟨?_, ?_, ?_, ?_, ?_⟩ <;> intros <;> omega
      · simp only [h5, if_false]
        generalize (Replace kb vb _ k cb).1 = r at hr3 ⊢
        refine ⟨?_, ?_, ?_, ?_, ?_⟩ <;> intros <;> omega
  · have hnf : IsCacheFull s = false := by
      simpa [IsCacheFull] using h0
    have h3 : s.t1_.length + s.b1_.length < s.c_ := by omega
    have h4 : ¬ s.t1_.length + s.b1_.length + s.t2_.length + s.b2_.length ≥ s.c_ := by omega
    simp only [hnf, h3, h4, Bool.false_and, Bool.false_eq_true, if_true, if_false]
    clear hr1 hr2 hr3
    refine ⟨trivial, ?_, ?_, ?_, ?_⟩ <;> intros <;> first | trivial | omega

theorem OnCacheHit_fields (s : ARC K V) :
    (OnCacheHit s).c_ = s.c_ ∧ (OnCacheHit s).p_ = s.p_ ∧ (OnCacheHit s).t1_ = s.t1_ ∧
    (OnCacheHit s).t2_ = s.t2_ ∧ (OnCacheHit s).b1_ = s.b1_ ∧ (OnCacheHit s).b2_ = s.b2_ ∧
    (OnCacheHit s).cached_bytes_ = s.cached_bytes_ := by
  simp [OnCacheHit]

/-- The method `Put` keeps the size bounds and the capacity. -/
theorem Put_SizeInv (kb : K → Nat) (vb : V → Nat) (s : ARC K V) (k : K) (v : V)
    (cb : EvictionCB K V) (hc : 1 ≤ s.c_) (hi : SizeInv s) :
    (Put kb vb s k v cb).1.c_ = s.c_ ∧ SizeInv (Put kb vb s k v cb).1 := by
  have hi0 := hi
  obtain ⟨i1, i2, i3, i4⟩ := hi
  unfold Put SizeInv
  dsimp only
  by_cases h1 : (T.Find s.t1_ k).isSome = true
  · simp only [h1, if_true, OnCacheHit]
    have hm := T_Move_length vb s.t2_ s.t1_ k (some v) true s.cached_bytes_
      (T_Find_isSome.mp h1)
    generalize T.Move vb s.t2_ s.t1_ k (some v) true s.cached_bytes_ = r at hm ⊢
    refine ⟨trivial, ?_, ?_, ?_, ?_⟩ <;> intros <;> omega
  · by_cases h2 : (T.Find s.t2_ k).isSome = true
    · simp only [h1, h2, Bool.false_eq_true, if_true, if_false, OnCacheHit]
      have hm := T_Touch_length vb s.t2_ k (some v) true s.cached_bytes_
      generalize T.Touch vb s.t2_ k (some v) true s.cached_bytes_ = r at hm ⊢
      refine ⟨trivial, ?_, ?_, ?_, ?_⟩ <;> intros <;> omega
    · by_cases h3 : B.Find s.b1_ k = true
      · simp only [h1, h2, h3, Bool.false_eq_true, if_true, if_false, B.Remove, T.Insert]
        have hk : k ∈ s.b1_ := B_Find_iff.mp h3
        have hpos : 0 < s.b1_.length := List.length_pos_of_mem hk
        have hr := Replace_sizes kb vb
          (IncreaseP s (min 1 (s.b2_.length / s.b1_.length))) k cb
        have hmem := Replace_b1_mem kb vb
          (IncreaseP s (min 1 (s.b2_.length / s.b1_.length))) k cb
          (show k ∈ (IncreaseP s (min 1 (s.b2_.length / s.b1_.length))).b1_ by simpa using hk)
        have hl := List.length_erase_of_mem hmem
        have hl2 := List.length_pos_of_mem hmem
        simp only [IncreaseP_t1, IncreaseP_t2, IncreaseP_b1, IncreaseP_b2, IncreaseP_c] at hr
        generalize (Replace kb vb (IncreaseP s (min 1 (s.b2_.length / s.b1_.length))) k cb).1 = r
          at hr hl hl2 ⊢
        simp only [List.length_append, List.length_singleton, hl]
        refine ⟨?_, ?_, ?_, ?_, ?_⟩ <;> intros <;> omega
      · by_cases h4 : B.Find s.b2_ k = true
        · simp only [h1, h2, h3, h4, Bool.false_eq_true, if_true, if_false, B.Remove, T.Insert]
          have hk : k ∈ s.b2_ := B_Find_iff.mp h4
          have hpos : 0 < s.b2_.length := List.length_pos_of_mem hk
          have hr := Replace_sizes kb vb
            (DecreaseP s (max 1 (s.b1_.length / s.b2_.length))) k cb
          have hmem := Replace_b2_mem kb vb
            (DecreaseP s (max 1 (s.b1_.length / s.b2_.length))) k cb
            (show k ∈ (DecreaseP s (max 1 (s.b1_.length / s.b2_.length))).b2_ by simpa using hk)
          have hl := List.length_erase_of_mem hmem
          have hl2 := List.length_pos_of_mem hmem
          simp only [DecreaseP_t1, DecreaseP_t2, DecreaseP_b1, DecreaseP_b2, DecreaseP_c] at hr
          generalize (Replace kb vb (DecreaseP s (max 1 (s.b1_.length / s.b2_.length))) k cb).1 = r
            at hr hl hl2 ⊢
          simp only [List.length_append, List.length_singleton, hl]
          refine ⟨?_, ?_, ?_, ?_, ?_⟩ <;> intros <;> omega
        · simp only [h1, h2, h3, h4, Bool.false_eq_true, if_false, T.Insert]
          have hr := makeRoom_sizes kb vb s k cb hc hi0
          generalize (makeRoom kb vb s k cb).1 = r at hr ⊢
          simp only [List.length_append, List.length_singleton]
          refine ⟨?_, ?_, ?_, ?_, ?_⟩ <;> intros <;> omega

theorem runPuts_SizeInv (kb : K → Nat) (vb : V → Nat)
    (ps : List (K × V × EvictionCB K V)) :
    ∀ s : ARC K V, 1 ≤ s.c_ → SizeInv s →
      (runPuts kb vb s ps).c_ = s.c_ ∧ SizeInv (runPuts kb vb s ps) := by
  induction ps with
  | nil => intro s _ hi; exact ⟨rfl, hi⟩
  | cons a rest ih =>
    intro s hc hi
    obtain ⟨h1, h2⟩ := Put_SizeInv kb vb s a.1 a.2.1 a.2.2 hc hi
    obtain ⟨h3, h4⟩ := ih (Put kb vb s a.1 a.2.1 a.2.2).1 (by omega) h2
    exact ⟨by rw [runPuts, h3, h1], h4⟩

theorem SizeInv_new (c : Nat) : SizeInv (ARC.new c : ARC K V) := by
  simp [SizeInv, ARC.new]

/-- C1. Capacity bound: for every capacity `c ≥ 1` and every finite sequence
of `Put` calls (any keys, values and callbacks) on a new cache, after each
call the two resident lists hold at most `c` entries and the four lists
together at most `2c`. -/
theorem capacity_bound_of_puts (kb : K → Nat) (vb : V → Nat) (c : Nat) (hc : 1 ≤ c)
    (ps : List (K × V × EvictionCB K V)) (n : Nat) :
    (runPuts kb vb (ARC.new c) (ps.take n)).t1_.length +
      (runPuts kb vb (ARC.new c) (ps.take n)).t2_.length ≤ c ∧
    (runPuts kb vb (ARC.new c) (ps.take n)).t1_.length +
      (runPuts kb vb (ARC.new c) (ps.take n)).t2_.length +
      (runPuts kb vb (ARC.new c) (ps.take n)).b1_.length +
      (runPuts kb vb (ARC.new c) (ps.take n)).b2_.length ≤ 2 * c := by
  obtain ⟨h1, h2, _, h3, _⟩ :=
    runPuts_SizeInv kb vb (ps.take n) (ARC.new c : ARC K V) hc (SizeInv_new c)
  have h4 : (ARC.new c : ARC K V).c_ = c := rfl
  rw [h4] at h1
  rw [h1] at h2 h3
  exact ⟨h2, h3⟩

end Sizes

section Exclusivity
variable {K V : Type} [DecidableEq K]

theorem count_append_one (l : List K) (k a : K) :
    (l ++ [k]).count a = l.count a + (if k = a then 1 else 0) := by
  simp [List.count_append, List.count_singleton]

theorem count_erase_key (l : List K) (k a : K) :
    (l.erase k).count a = l.count a - (if k = a then 1 else 0) := by
  rw [List.count_erase]
  by_cases h : k = a
  · simp [h]
  · have h2 : ¬ a = k := fun e => h e.symm
    simp [h, h2]

theorem count_cons_key (l : List K) (k a : K) :
    (k :: l).count a = l.count a + (if k = a then 1 else 0) := by
  rw [List.count_cons]
  by_cases h : k = a <;> simp [h]

theorem Exclusive_iff (s : ARC K V) : Exclusive s ↔ ∀ a, keyCount s a ≤ 1 := by
  unfold Exclusive keyCount
  rw [List.nodup_iff_count_le_one]
  simp only [List.count_append]

theorem keys_cons (e : K × V) (t : List (K × V)) : keys (e :: t) = e.1 :: keys t := rfl

theorem keys_append_one (t : List (K × V)) (e : K × V) : keys (t ++ [e]) = keys t ++ [e.1] := by
  simp [keys]

theorem T_Move_keys (vb : V → Nat) (this other : List (K × V)) (k : K) (v : Option V)
    (cache : Bool) (bytes : Nat) (h : k ∈ keys other) :
    keys (T.Move vb this other k v cache bytes).1 = keys this ++ [k] ∧
    keys (T.Move vb this other k v cache bytes).2.1 = (keys other).erase k := by
  unfold T.Move
  cases hf : T.Find other k with
  | none => exact absurd h (T_Find_eq_none.mp hf)
  | some e =>
    have he := (T_Find_some hf).1
    cases v <;> simp [keys_append_one, keys_eraseP, he]

theorem isNewest_keys {t : List (K × V)} {k : K} (h : T.isNewest t k = true) (x : K × V)
    (hx : x.1 = k) : keys (t.dropLast ++ [x]) = keys t := by
  unfold T.isNewest at h
  cases hl : t.getLast? with
  | none => simp [hl] at h
  | some l =>
    simp [hl] at h
    have h2 := List.dropLast_append_getLast? l hl
    conv_rhs => rw [← h2]
    simp [keys, hx, h]

theorem T_Touch_count (vb : V → Nat) (t : List (K × V)) (k : K) (v : Option V)
    (cache : Bool) (bytes : Nat) (a : K) :
    (keys (T.Touch vb t k v cache bytes).1).count a = (keys t).count a := by
  unfold T.Touch
  cases hf : T.Find t k with
  | none => rfl
  | some e =>
    have he := (T_Find_some hf).1
    have hk : k ∈ keys t := T_Find_isSome.mp (by simp [hf])
    by_cases hn : T.isNewest t k = true
    · dsimp only
      rw [if_pos hn]
      dsimp only
      exact congrArg (List.count a) (isNewest_keys hn _ he)
    · dsimp only
      rw [if_neg hn]
      dsimp only
      rw [keys_append_one, keys_eraseP, count_append_one, count_erase_key]
      have := List.one_le_count_iff.mpr hk
      by_cases hka : k = a
      · subst hka; simp [he]; omega
      · simp [he, hka]

theorem Replace_keyCount (kb : K → Nat) (vb : V → Nat) (s : ARC K V) (k : K)
    (cb : EvictionCB K V) (a : K) :
    keyCount (Replace kb vb s k cb).1 a = keyCount s a := by
  rcases Replace_spec kb vb s k cb with ⟨h, _⟩ | ⟨_, e, rest, he, h⟩ | ⟨_, e, rest, he, h⟩
  · rw [h]
  · rw [h]
    simp only [keyCount, he, keys_cons, count_cons_key, count_append_one]
    omega
  · rw [h]
    simp only [keyCount, he, keys_cons, count_cons_key, count_append_one]
    omega

theorem B_RemoveLRU_count (kb : K → Nat) (b : List K) (cache : Bool) (bytes : Nat) (a : K) :
    (B.RemoveLRU kb b cache bytes).1.count a ≤ b.count a := by
  cases b with
  | nil => simp [B.RemoveLRU]
  | cons x rest =>
    simp only [B.RemoveLRU, count_cons_key]
    omega

theorem T_RemoveLRU_count (kb : K → Nat) (vb : V → Nat) (t : List (K × V))
    (cb : EvictionCB K V) (cache : Bool) (bytes : Nat) (a : K) :
    (keys (T.RemoveLRU kb vb t cb cache bytes).1).count a ≤ (keys t).count a := by
  rcases t with _ | ⟨⟨k, v⟩, rest⟩
  · simp [T.RemoveLRU]
  · simp only [T.RemoveLRU, keys_cons, count_cons_key]
    omega

theorem makeRoom_keyCount (kb : K → Nat) (vb : V → Nat) (s : ARC K V) (k : K)
    (cb : EvictionCB K V) (a : K) :
    keyCount (makeRoom kb vb s k cb).1 a ≤ keyCount s a := by
  have hb1 := B_RemoveLRU_count kb s.b1_ true s.cached_bytes_ a
  have hb2 := B_RemoveLRU_count kb s.b2_ true s.cached_bytes_ a
  have ht1 := T_RemoveLRU_count kb vb s.t1_ cb true s.cached_bytes_ a
  unfold makeRoom
  dsimp only
  split_ifs
  · rw [Replace_keyCount]; simp only [keyCount]; omega
  · simp only [keyCount]; omega
  · rw [Replace_keyCount]; simp only [keyCount]; omega
  · rw [Replace_keyCount]; simp only [keyCount]; omega
  · rw [Replace_keyCount]
  · exact le_refl _
  · exact le_refl _

theorem T_Remove_keys (kb : K → Nat) (vb : V → Nat) (t : List (K × V)) (k : K)
    (cache : Bool) (bytes : Nat) :
    keys (T.Remove kb vb t k cache bytes).1 = (keys t).erase k := by
  unfold T.Remove
  cases hf : T.Find t k with
  | none =>
    have := T_Find_eq_none.mp hf
    simp [List.erase_of_not_mem this]
  | some e => simp [keys_eraseP]

theorem keyCount_eq_zero {s : ARC K V} {k : K} (h1 : ¬ (T.Find s.t1_ k).isSome = true)
    (h2 : ¬ (T.Find s.t2_ k).isSome = true) (h3 : ¬ B.Find s.b1_ k = true)
    (h4 : ¬ B.Find s.b2_ k = true) : keyCount s k = 0 := by
  rw [T_Find_isSome] at h1 h2
  rw [B_Find_iff] at h3 h4
  simp [keyCount, List.count_eq_zero_of_not_mem, h1, h2, h3, h4]

/-- The method `Put` keeps the four lists free of repeated keys. -/
theorem Put_Exclusive (kb : K → Nat) (vb : V → Nat) (s : ARC K V) (k : K) (v : V)
    (cb : EvictionCB K V) (hE : Exclusive s) : Exclusive (Put kb vb s k v cb).1 := by
  rw [Exclusive_iff] at hE ⊢
  intro a
  have hEa := hE a
  unfold Put
  dsimp only
  by_cases h1 : (T.Find s.t1_ k).isSome = true
  · simp only [h1, if_true, OnCacheHit]
    have hk := T_Find_isSome.mp h1
    obtain ⟨hm1, hm2⟩ := T_Move_keys vb s.t2_ s.t1_ k (some v) true s.cached_bytes_ hk
    have hc := List.one_le_count_iff.mpr hk
    simp only [keyCount, hm1, hm2, count_append_one, count_erase_key] at hEa ⊢
    by_cases hka : k = a
    · subst hka; simp only [if_true]; omega
    · simp only [hka, if_false]; omega
  · by_cases h2 : (T.Find s.t2_ k).isSome = true
    · simp only [h1, h2, Bool.false_eq_true, if_true, if_false, OnCacheHit]
      simp only [keyCount, T_Touch_count] at hEa ⊢
      exact hEa
    · by_cases h3 : B.Find s.b1_ k = true
      · simp only [h1, h2, h3, Bool.false_eq_true, if_true, if_false, B.Remove, T.Insert]
        have hr := Replace_keyCount kb vb
          (IncreaseP s (min 1 (s.b2_.length / s.b1_.length))) k cb a
        have hmem := Replace_b1_mem kb vb
          (IncreaseP s (min 1 (s.b2_.length / s.b1_.length))) k cb
          (show k ∈ (IncreaseP s (min 1 (s.b2_.length / s.b1_.length))).b1_ by
            simpa using B_Find_iff.mp h3)
        have hc := List.one_le_count_iff.mpr hmem
        generalize (Replace kb vb (IncreaseP s (min 1 (s.b2_.length / s.b1_.length))) k cb).1 = r
          at hr hc ⊢
        simp only [keyCount, IncreaseP_t1, IncreaseP_t2, IncreaseP_b1, IncreaseP_b2,
          keys_append_one, count_append_one, count_erase_key] at hr hEa ⊢
        by_cases hka : k = a
        · subst hka; simp only [if_true]; omega
        · simp only [hka, if_false]; omega
      · by_cases h4 : B.Find s.b2_ k = true
        · simp only [h1, h2, h3, h4, Bool.false_eq_true, if_true, if_false, B.Remove, T.Insert]
          have hr := Replace_keyCount kb vb
            (DecreaseP s (max 1 (s.b1_.length / s.b2_.length))) k cb a
          have hmem := Replace_b2_mem kb vb
            (DecreaseP s (max 1 (s.b1_.length / s.b2_.length))) k cb
            (show k ∈ (DecreaseP s (max 1 (s.b1_.length / s.b2_.length))).b2_ by
              simpa using B_Find_iff.mp h4)
          have hc := List.one_le_count_iff.mpr hmem
          generalize (Replace kb vb (DecreaseP s (max 1 (s.b1_.length / s.b2_.length))) k cb).1 = r
            at hr hc ⊢
          simp only [keyCount, DecreaseP_t1, DecreaseP_t2, DecreaseP_b1, DecreaseP_b2,
            keys_append_one, count_append_one, count_erase_key] at hr hEa ⊢
          by_cases hka : k = a
          · subst hka; simp only [if_true]; omega
          · simp only [hka, if_false]; omega
        · simp only [h1, h2, h3, h4, Bool.false_eq_true, if_false, T.Insert]
          have hr := makeRoom_keyCount kb vb s k cb a
          have hz := keyCount_eq_zero h1 h2 h3 h4
          generalize (makeRoom kb vb s k cb).1 = r at hr ⊢
          simp only [keyCount, keys_append_one, count_append_one] at hr hEa hz ⊢
          by_cases hka : k = a
          · subst hka; simp only [if_true]; omega
          · simp only [hka, if_false]; omega

/-- The method `Get` keeps the four lists free of repeated keys. -/
theorem Get_Exclusive (vb : V → Nat) (s : ARC K V) (k : K) (hE : Exclusive s) :
    Exclusive (Get vb s k).1 := by
  rw [Exclusive_iff] at hE ⊢
  intro a
  have hEa := hE a
  unfold Get
  cases h1 : T.Find s.t1_ k with
  | some e =>
    have hk : k ∈ keys s.t1_ := T_Find_isSome.mp (by simp [h1])
    obtain ⟨hm1, hm2⟩ := T_Move_keys vb s.t2_ s.t1_ k none true s.cached_bytes_ hk
    have hc := List.one_le_count_iff.mpr hk
    simp only [keyCount, OnCacheHit, hm1, hm2, count_append_one, count_erase_key] at hEa ⊢
    by_cases hka : k = a
    · subst hka; simp only [if_true]; omega
    · simp only [hka, if_false]; omega
  | none =>
    cases h2 : T.Find s.t2_ k with
    | some e =>
      simp only [keyCount, OnCacheHit, T_Touch_count] at hEa ⊢
      exact hEa
    | none => exact hEa

/-- The method `Remove` keeps the four lists free of repeated keys. -/
theorem Remove_Exclusive (kb : K → Nat) (vb : V → Nat) (s : ARC K V) (k : K)
    (hE : Exclusive s) : Exclusive (Remove kb vb s k) := by
  rw [Exclusive_iff] at hE ⊢
  intro a
  have hEa := hE a
  unfold Remove
  dsimp only
  split_ifs <;>
    simp only [keyCount, T_Remove_keys, B.Remove, count_erase_key] at hEa ⊢ <;> omega

theorem Clear_Exclusive (s : ARC K V) : Exclusive (Clear s) := by
  simp [Exclusive, Clear, keys]

theorem new_Exclusive (c : Nat) : Exclusive (ARC.new c : ARC K V) := by
  simp [Exclusive, ARC.new, keys]

theorem step_Exclusive (kb : K → Nat) (vb : V → Nat) (s : ARC K V) (op : Op K V)
    (hE : Exclusive s) : Exclusive (step kb vb s op).1 := by
  cases op with
  | put k v cb => exact Put_Exclusive kb vb s k v cb hE
  | get k => exact Get_Exclusive vb s k hE
  | remove k => exact Remove_Exclusive kb vb s k hE
  | clear => exact Clear_Exclusive s

theorem run_Exclusive (kb : K → Nat) (vb : V → Nat) (ops : List (Op K V)) :
    ∀ s : ARC K V, Exclusive s → Exclusive (run kb vb s ops) := by
  induction ops with
  | nil => intro s h; exact h
  | cons op rest ih => intro s h; exact ih _ (step_Exclusive kb vb s op h)

end Exclusivity

section Resident
variable {K V : Type} [DecidableEq K]

theorem Replace_Evicts (kb : K → Nat) (vb : V → Nat) (s : ARC K V) (k : K)
    (cb : EvictionCB K V) :
    Evicts cb s (Replace kb vb s k cb).1.t1_ (Replace kb vb s k cb).1.t2_
      (Replace kb vb s k cb).2 := by
  rcases Replace_spec kb vb s k cb with ⟨h, _⟩ | ⟨hf, e, rest, he, h⟩ | ⟨hf, e, rest, he, h⟩
  · rw [h]; exact Or.inl ⟨rfl, rfl, rfl⟩
  · rw [h]; exact Or.inr (Or.inl ⟨hf, e, rest, he, rfl, rfl, rfl⟩)
  · rw [h]; exact Or.inr (Or.inr ⟨hf, e, rest, he, rfl, rfl, rfl⟩)

theorem Replace_ghosts (kb : K → Nat) (vb : V → Nat) (s : ARC K V) (k : K)
    (cb : EvictionCB K V) :
    (Replace kb vb s k cb).1.c_ = s.c_ ∧ (Replace kb vb s k cb).1.p_ = s.p_ ∧
    (Replace kb vb s k cb).1.cache_hit_ = s.cache_hit_ ∧
    (Replace kb vb s k cb).1.cache_miss_ = s.cache_miss_ := by
  rcases Replace_spec kb vb s k cb with ⟨h, _⟩ | ⟨hf, e, rest, he, h⟩ | ⟨hf, e, rest, he, h⟩ <;>
    rw [h] <;> exact ⟨rfl, rfl, rfl, rfl⟩

theorem Evicts_of_ghost_change {cb : EvictionCB K V} {s s1 : ARC K V}
    {t1 t2 calls : List (K × V)} (h : Evicts cb s1 t1 t2 calls)
    (h1 : s1.t1_ = s.t1_) (h2 : s1.t2_ = s.t2_) (h3 : s1.c_ = s.c_) :
    Evicts cb s t1 t2 calls := by
  have hf : IsCacheFull s1 = IsCacheFull s := by simp [IsCacheFull, h1, h2, h3]
  unfold Evicts at h ⊢
  rw [h1, h2, hf] at h
  exact h

theorem makeRoom_Evicts (kb : K → Nat) (vb : V → Nat) (s : ARC K V) (k : K)
    (cb : EvictionCB K V) :
    Evicts cb s (makeRoom kb vb s k cb).1.t1_ (makeRoom kb vb s k cb).1.t2_
      (makeRoom kb vb s k cb).2 := by
  unfold makeRoom
  dsimp only
  split_ifs with h1 h2 h3 h4 h5 h6
  · exact Evicts_of_ghost_change (Replace_Evicts kb vb _ k cb) rfl rfl rfl
  · simp only [Bool.and_eq_true] at h1
    rcases ht : s.t1_ with _ | ⟨⟨k1, v1⟩, rest⟩
    · exact Or.inl ⟨by simp [T.RemoveLRU, ht], rfl, by simp [T.RemoveLRU]⟩
    · refine Or.inr (Or.inl ⟨h1.1, (k1, v1), rest, ht, ?_, rfl, ?_⟩)
      · simp [T.RemoveLRU]
      · cases cb <;> simp [T.RemoveLRU, cbCalls]
  · exact Evicts_of_ghost_change (Replace_Evicts kb vb _ k cb) rfl rfl rfl
  · exact Evicts_of_ghost_change (Replace_Evicts kb vb _ k cb) rfl rfl rfl
  · exact Replace_Evicts kb vb s k cb
  · exact Or.inl ⟨rfl, rfl, rfl⟩
  · exact Or.inl ⟨rfl, rfl, rfl⟩

/-! The branches of `Put` and `Get` -/

theorem T_Find_none_of_not_isSome {t : List (K × V)} {k : K}
    (h : ¬ (T.Find t k).isSome = true) : T.Find t k = none := by
  cases hf : T.Find t k with
  | none => rfl
  | some e => simp [hf] at h

theorem Put_of_t1 (kb : K → Nat) (vb : V → Nat) (s : ARC K V) (k : K) (v : V)
    (cb : EvictionCB K V) {e : K × V} (h : T.Find s.t1_ k = some e) :
    Put kb vb s k v cb =
      (OnCacheHit { s with t2_ := s.t2_ ++ [(e.1, v)],
                           t1_ := s.t1_.eraseP (fun x => x.1 == k),
                           cached_bytes_ := resize vb e.2 v s.cached_bytes_ }, []) := by
  simp [Put, h, T.Move]

theorem Put_of_t2 (kb : K → Nat) (vb : V → Nat) (s : ARC K V) (k : K) (v : V)
    (cb : EvictionCB K V) {e : K × V} (h1 : T.Find s.t1_ k = none)
    (h2 : T.Find s.t2_ k = some e) :
    Put kb vb s k v cb =
      (OnCacheHit { s with t2_ := (T.Touch vb s.t2_ k (some v) true s.cached_bytes_).1,
                           cached_bytes_ := resize vb e.2 v s.cached_bytes_ }, []) := by
  simp [Put, h1, h2, T.Touch]
  split_ifs <;> rfl

theorem Put_of_b1 (kb : K → Nat) (vb : V → Nat) (s : ARC K V) (k : K) (v : V)
    (cb : EvictionCB K V) (h1 : T.Find s.t1_ k = none) (h2 : T.Find s.t2_ k = none)
    (h3 : k ∈ s.b1_) :
    Put kb vb s k v cb =
      ({ (Replace kb vb (IncreaseP s (min 1 (s.b2_.length / s.b1_.length))) k cb).1 with
          b1_ := (Replace kb vb (IncreaseP s (min 1 (s.b2_.length / s.b1_.length)))
                    k cb).1.b1_.erase k,
          t2_ := (Replace kb vb (IncreaseP s (min 1 (s.b2_.length / s.b1_.length)))
                    k cb).1.t2_ ++ [(k, v)],
          cached_bytes_ := UpdateAddToCacheBytes ((kb k + vb v) % sizeMod)
            (UpdateRemoveFromCacheBytes (kb k)
              (Replace kb vb (IncreaseP s (min 1 (s.b2_.length / s.b1_.length)))
                k cb).1.cached_bytes_) },
        (Replace kb vb (IncreaseP s (min 1 (s.b2_.length / s.b1_.length))) k cb).2) := by
  simp [Put, h1, h2, B.Find, h3, B.Remove, T.Insert]

theorem Put_of_b2 (kb : K → Nat) (vb : V → Nat) (s : ARC K V) (k : K) (v : V)
    (cb : EvictionCB K V) (h1 : T.Find s.t1_ k = none) (h2 : T.Find s.t2_ k = none)
    (h3 : k ∉ s.b1_) (h4 : k ∈ s.b2_) :
    Put kb vb s k v cb =
      ({ (Replace kb vb (DecreaseP s (max 1 (s.b1_.length / s.b2_.length))) k cb).1 with
          b2_ := (Replace kb vb (DecreaseP s (max 1 (s.b1_.length / s.b2_.length)))
                    k cb).1.b2_.erase k,
          t2_ := (Replace kb vb (DecreaseP s (max 1 (s.b1_.length / s.b2_.length)))
                    k cb).1.t2_ ++ [(k, v)],
          cached_bytes_ := UpdateAddToCacheBytes ((kb k + vb v) % sizeMod)
            (UpdateRemoveFromCacheBytes (kb k)
              (Replace kb vb (DecreaseP s (max 1 (s.b1_.length / s.b2_.length)))
                k cb).1.cached_bytes_) },
        (Replace kb vb (DecreaseP s (max 1 (s.b1_.length / s.b2_.length))) k cb).2) := by
  simp [Put, h1, h2, B.Find, h3, h4, B.Remove, T.Insert]

theorem Put_of_miss (kb : K → Nat) (vb : V → Nat) (s : ARC K V) (k : K) (v : V)
    (cb : EvictionCB K V) (h1 : T.Find s.t1_ k = none) (h2 : T.Find s.t2_ k = none)
    (h3 : k ∉ s.b1_) (h4 : k ∉ s.b2_) :
    Put kb vb s k v cb =
      ({ (makeRoom kb vb s k cb).1 with
          t1_ := (makeRoom kb vb s k cb).1.t1_ ++ [(k, v)],
          cached_bytes_ := UpdateAddToCacheBytes ((kb k + vb v) % sizeMod)
            (makeRoom kb vb s k cb).1.cached_bytes_ },
        (makeRoom kb vb s k cb).2) := by
  simp [Put, h1, h2, B.Find, h3, h4, T.Insert]

theorem Get_of_t1 (vb : V → Nat) (s : ARC K V) (k : K) {e : K × V}
    (h : T.Find s.t1_ k = some e) :
    Get vb s k =
      (OnCacheHit { s with t2_ := s.t2_ ++ [e], t1_ := s.t1_.eraseP (fun x => x.1 == k) },
        some e.2) := by
  simp [Get, h, T.Move]

theorem Get_of_t2 (vb : V → Nat) (s : ARC K V) (k : K) {e : K × V}
    (h1 : T.Find s.t1_ k = none) (h2 : T.Find s.t2_ k = some e) :
    Get vb s k =
      (OnCacheHit { s with t2_ := (T.Touch vb s.t2_ k none false s.cached_bytes_).1 },
        some e.2) := by
  simp [Get, h1, h2]

theorem Get_of_miss (vb : V → Nat) (s : ARC K V) (k : K)
    (h1 : T.Find s.t1_ k = none) (h2 : T.Find s.t2_ k = none) :
    Get vb s k = (OnCacheMiss s, none) := by
  simp [Get, h1, h2]

end Resident

section Order
variable {K V : Type} [DecidableEq K]

theorem Exclusive_parts {s : ARC K V} (h : Exclusive s) :
    (keys s.t1_).Nodup ∧ (keys s.t2_).Nodup ∧ s.b1_.Nodup ∧ s.b2_.Nodup ∧
    (∀ a, a ∈ keys s.t1_ → a ∉ keys s.t2_ ∧ a ∉ s.b1_ ∧ a ∉ s.b2_) ∧
    (∀ a, a ∈ keys s.t2_ → a ∉ s.b1_ ∧ a ∉ s.b2_) ∧
    (∀ a, a ∈ s.b1_ → a ∉ s.b2_) := by
  unfold Exclusive at h
  simp only [List.nodup_append, List.Disjoint, List.mem_append] at h
  obtain ⟨⟨⟨n1, n2, d12⟩, nb1, d3⟩, nb2, d4⟩ := h
  refine ⟨n1, n2, nb1, nb2, ?_, ?_, ?_⟩
  · intro a ha
    exact ⟨fun h2 => d12 ha h2, fun h2 => d3 (Or.inl ha) h2, fun h2 => d4 (Or.inl (Or.inl ha)) h2⟩
  · intro a ha
    exact ⟨fun h2 => d3 (Or.inr ha) h2, fun h2 => d4 (Or.inl (Or.inr ha)) h2⟩
  · intro a ha h2
    exact d4 (Or.inr ha) h2

theorem eraseP_eq_filter {t : List (K × V)} (k : K) (h : (keys t).Nodup) :
    t.eraseP (fun x => x.1 == k) = t.filter (fun x => !(x.1 == k)) := by
  induction t with
  | nil => rfl
  | cons e t ih =>
    rw [keys_cons, List.nodup_cons] at h
    by_cases hk : e.1 = k
    · have hnot : ∀ x ∈ t, (!(x.1 == k)) = true := by
        intro x hx
        have : x.1 ≠ k := by
          intro hxk
          apply h.1
          rw [hk, ← hxk]
          exact List.mem_map_of_mem Prod.fst hx
        simpa using this
      simp [List.eraseP_cons, hk, List.filter_cons]
      exact (List.filter_eq_self.mpr hnot).symm
    · have h2 : (e.1 == k) = false := by simpa using hk
      simp [List.eraseP_cons, h2, List.filter_cons, ih h.2]

theorem T_Find_of_mem {t : List (K × V)} {k : K} {v : V} (h : (keys t).Nodup)
    (hm : (k, v) ∈ t) : T.Find t k = some (k, v) := by
  induction t with
  | nil => simp at hm
  | cons e t ih =>
    rw [keys_cons, List.nodup_cons] at h
    rcases List.mem_cons.mp hm with he | hmem
    · subst he
      simp [T.Find]
    · have hne : e.1 ≠ k := by
        intro hek
        apply h.1
        rw [hek]
        exact List.mem_map_of_mem Prod.fst hmem
      have h2 : (e.1 == k) = false := by simpa using hne
      have := ih h.2 hmem
      unfold T.Find at this ⊢
      rw [List.find?_cons, h2]
      exact this

theorem T_Find_mem_iff {t : List (K × V)} {k : K} {v : V} (h : (keys t).Nodup) :
    T.Find t k = some (k, v) ↔ (k, v) ∈ t :=
  ⟨fun hf => (T_Find_some hf).2, T_Find_of_mem h⟩

theorem T_Find_append_new {t : List (K × V)} {k : K} (x : K × V) (h : k ∉ keys t)
    (hx : x.1 = k) : T.Find (t ++ [x]) k = some x := by
  have hn := T_Find_eq_none.mpr h
  unfold T.Find at hn ⊢
  rw [List.find?_append, hn]
  simp [hx]

theorem T_Find_append_old {t : List (K × V)} {k : K} (x : K × V) {e : K × V}
    (h : T.Find t k = some e) : T.Find (t ++ [x]) k = some e := by
  unfold T.Find at h ⊢
  rw [List.find?_append, h]
  rfl

theorem T_Find_append_other {t : List (K × V)} {k : K} (x : K × V) (hx : x.1 ≠ k) :
    T.Find (t ++ [x]) k = T.Find t k := by
  unfold T.Find
  rw [List.find?_append]
  have : (x.1 == k) = false := by simpa using hx
  cases List.find? (fun e => e.1 == k) t <;> simp [this]

theorem not_mem_keys_eraseP {t : List (K × V)} (k : K) (h : (keys t).Nodup) :
    k ∉ keys (t.eraseP (fun x => x.1 == k)) := by
  rw [keys_eraseP]
  exact fun hm => (List.Nodup.mem_erase_iff h).mp hm |>.1 rfl

theorem dropLast_eq_eraseP {t : List (K × V)} {k : K} (h : (keys t).Nodup)
    (hn : T.isNewest t k = true) : t.dropLast = t.eraseP (fun x => x.1 == k) := by
  unfold T.isNewest at hn
  cases hl : t.getLast? with
  | none => simp [hl] at hn
  | some l =>
    simp [hl] at hn
    have h2 := List.dropLast_append_getLast? l hl
    have h3 : k ∉ keys t.dropLast := by
      rw [← h2, keys_append_one, List.nodup_append] at h
      intro hk
      exact h.2.2 hk (by simp [hn])
    conv_rhs => rw [← h2]
    rw [List.eraseP_append_right]
    · simp [List.eraseP_cons, hn]
    · intro b hb
      have : b.1 ≠ k := by
        intro hbk
        apply h3
        rw [← hbk]
        exact List.mem_map_of_mem Prod.fst hb
      simpa using this

/-- On a list without repeated keys `T::Touch` is: take the entry out and put
it back at the most recent end, with the replacement value if there is
one. -/
theorem T_Touch_fst (vb : V → Nat) {t : List (K × V)} (k : K) (v : Option V)
    (cache : Bool) (bytes : Nat) {e : K × V} (h : (keys t).Nodup)
    (hf : T.Find t k = some e) :
    (T.Touch vb t k v cache bytes).1 =
      t.eraseP (fun x => x.1 == k) ++ [(e.1, v.getD e.2)] := by
  unfold T.Touch
  rw [hf]
  by_cases hn : T.isNewest t k = true
  · have hd := dropLast_eq_eraseP h hn
    cases v <;> simp [hn, hd]
  · cases v <;> simp [hn]

end Order

section RoundTrip
variable {K V : Type} [DecidableEq K]

theorem Reachable_Exclusive {kb : K → Nat} {vb : V → Nat} {s : ARC K V}
    (h : Reachable kb vb s) : Exclusive s := by
  obtain ⟨c, ops, rfl⟩ := h
  exact run_Exclusive kb vb ops _ (new_Exclusive c)

theorem Evicts_keys {cb : EvictionCB K V} {s : ARC K V} {t1 t2 calls : List (K × V)}
    (h : Evicts cb s t1 t2 calls) {k : K} :
    (k ∉ keys s.t1_ → k ∉ keys t1) ∧ (k ∉ keys s.t2_ → k ∉ keys t2) := by
  rcases h with ⟨h1, h2, _⟩ | ⟨_, e, rest, he, h1, h2, _⟩ | ⟨_, e, rest, he, h1, h2, _⟩
  · subst h1 h2; exact ⟨id, id⟩
  · subst h1 h2
    refine ⟨fun hk hm => hk ?_, id⟩
    rw [he, keys_cons]; exact List.mem_cons_of_mem _ hm
  · subst h1 h2
    refine ⟨id, fun hk hm => hk ?_⟩
    rw [he, keys_cons]; exact List.mem_cons_of_mem _ hm

theorem Get_val_t1 (vb : V → Nat) (s : ARC K V) (k : K) {x : K} {v : V}
    (h : T.Find s.t1_ k = some (x, v)) : (Get vb s k).2 = some v := by
  rw [Get_of_t1 vb s k h]

theorem Get_val_t2 (vb : V → Nat) (s : ARC K V) (k : K) {x : K} {v : V}
    (h1 : T.Find s.t1_ k = none) (h2 : T.Find s.t2_ k = some (x, v)) :
    (Get vb s k).2 = some v := by
  rw [Get_of_t2 vb s k h1 h2]

/-- C2. Round trip: in every state a cache reaches, `Put(k, v)` (with any
callback) followed at once by `Get(k)` finds the key and yields `v`. -/
theorem put_get_roundtrip (kb : K → Nat) (vb : V → Nat) (s : ARC K V)
    (hs : Reachable kb vb s) (k : K) (v : V) (cb : EvictionCB K V) :
    (Get vb (Put kb vb s k v cb).1 k).2 = some v := by
  have hE := Reachable_Exclusive hs
  obtain ⟨n1, n2, _, _, d1, _, _⟩ := Exclusive_parts hE
  cases h1 : T.Find s.t1_ k with
  | some e =>
    have hk : k ∈ keys s.t1_ := T_Find_isSome.mp (by simp [h1])
    have he := (T_Find_some h1).1
    rw [Put_of_t1 kb vb s k v cb h1]
    have hn1 : T.Find (s.t1_.eraseP (fun x => x.1 == k)) k = none :=
      T_Find_eq_none.mpr (not_mem_keys_eraseP k n1)
    have hn2 : T.Find (s.t2_ ++ [(e.1, v)]) k = some (e.1, v) :=
      T_Find_append_new _ (d1 k hk).1 he
    exact Get_val_t2 vb _ k hn1 hn2
  | none =>
    have hk1 := T_Find_eq_none.mp h1
    cases h2 : T.Find s.t2_ k with
    | some e =>
      have he := (T_Find_some h2).1
      rw [Put_of_t2 kb vb s k v cb h1 h2]
      have ht := T_Touch_fst vb k (some v) true s.cached_bytes_ n2 h2
      have hn2 : T.Find (T.Touch vb s.t2_ k (some v) true s.cached_bytes_).1 k
          = some (e.1, v) := by
        rw [ht]
        exact T_Find_append_new _ (not_mem_keys_eraseP k n2) he
      exact Get_val_t2 vb _ k h1 hn2
    | none =>
      have hk2 := T_Find_eq_none.mp h2
      by_cases h3 : k ∈ s.b1_
      · rw [Put_of_b1 kb vb s k v cb h1 h2 h3]
        have hev := Replace_Evicts kb vb
          (IncreaseP s (min 1 (s.b2_.length / s.b1_.length))) k cb
        obtain ⟨hr1, hr2⟩ := Evicts_keys hev (k := k)
        simp only [IncreaseP_t1, IncreaseP_t2] at hr1 hr2
        have hn1 := T_Find_eq_none.mpr (hr1 hk1)
        have hn2 := T_Find_append_new (k, v) (hr2 hk2) rfl
        exact Get_val_t2 vb _ k hn1 hn2
      · by_cases h4 : k ∈ s.b2_
        · rw [Put_of_b2 kb vb s k v cb h1 h2 h3 h4]
          have hev := Replace_Evicts kb vb
            (DecreaseP s (max 1 (s.b1_.length / s.b2_.length))) k cb
          obtain ⟨hr1, hr2⟩ := Evicts_keys hev (k := k)
          simp only [DecreaseP_t1, DecreaseP_t2] at hr1 hr2
          have hn1 := T_Find_eq_none.mpr (hr1 hk1)
          have hn2 := T_Find_append_new (k, v) (hr2 hk2) rfl
          exact Get_val_t2 vb _ k hn1 hn2
        · rw [Put_of_miss kb vb s k v cb h1 h2 h3 h4]
          obtain ⟨hr1, _⟩ := Evicts_keys (makeRoom_Evicts kb vb s k cb) (k := k)
          have hn1 := T_Find_append_new (k, v) (hr1 hk1) rfl
          exact Get_val_t1 vb _ k hn1

/-- C3. Exclusivity: after every call of any sequence of `Put`, `Get`,
`Remove` (and `Clear`) calls on a new cache, the keys of `T1`, `T2`, `B1` and
`B2` written one after the other contain no key twice: every key is in at
most one of the four lists and at most once there. -/
theorem exclusivity (kb : K → Nat) (vb : V → Nat) (c : Nat) (ops : List (Op K V)) (n : Nat) :
    (keys (run kb vb (ARC.new c) (ops.take n)).t1_ ++
      keys (run kb vb (ARC.new c) (ops.take n)).t2_ ++
      (run kb vb (ARC.new c) (ops.take n)).b1_ ++
      (run kb vb (ARC.new c) (ops.take n)).b2_).Nodup :=
  run_Exclusive kb vb (ops.take n) _ (new_Exclusive c)

end RoundTrip

section GetRemove
variable {K V : Type} [DecidableEq K]

theorem filter_keys_self {t : List (K × V)} {k : K} (h : k ∉ keys t) :
    t.filter (fun x => !(x.1 == k)) = t := by
  rw [List.filter_eq_self]
  intro x hx
  have : x.1 ≠ k := by
    intro hxk
    apply h
    rw [← hxk]
    exact List.mem_map_of_mem Prod.fst hx
  simpa using this

theorem filter_self_of_not_mem {b : List K} {k : K} (h : k ∉ b) :
    b.filter (fun x => !(x == k)) = b := by
  rw [List.filter_eq_self]
  intro x hx
  have : x ≠ k := fun hxk => h (hxk ▸ hx)
  simpa using this

theorem erase_eq_filter_of_nodup {b : List K} (k : K) (h : b.Nodup) :
    b.erase k = b.filter (fun x => !(x == k)) := by
  rw [List.Nodup.erase_eq_filter h]
  congr 1

/-- C4. Promotion on re-reference by `Get`, in every state a cache reaches:
`Get(k)` finds the key iff it is in `T1` or `T2`; an entry `(k, v)` of `T1`
is returned, leaves `T1` (the other entries keep their order) and becomes the
most recent entry of `T2` with the same value; an entry `(k, v)` of `T2` is
returned and becomes the most recent entry of `T2` with the same value (the
other entries keep their order) while `T1` stays as it is; `B1`, `B2`, `p`
and the byte count never change. -/
theorem get_promotes (kb : K → Nat) (vb : V → Nat) (s : ARC K V)
    (hs : Reachable kb vb s) (k : K) :
    ((Get vb s k).2.isSome = true ↔ (k ∈ keys s.t1_ ∨ k ∈ keys s.t2_)) ∧
    (∀ v, (k, v) ∈ s.t1_ →
      (Get vb s k).2 = some v ∧
      (Get vb s k).1.t1_ = s.t1_.filter (fun e => !(e.1 == k)) ∧
      (Get vb s k).1.t2_ = s.t2_ ++ [(k, v)]) ∧
    (∀ v, (k, v) ∈ s.t2_ →
      (Get vb s k).2 = some v ∧
      (Get vb s k).1.t1_ = s.t1_ ∧
      (Get vb s k).1.t2_ = s.t2_.filter (fun e => !(e.1 == k)) ++ [(k, v)]) ∧
    (Get vb s k).1.b1_ = s.b1_ ∧ (Get vb s k).1.b2_ = s.b2_ ∧
    (Get vb s k).1.p_ = s.p_ ∧
    CachedByteCount (Get vb s k).1 = CachedByteCount s := by
  have hE := Reachable_Exclusive hs
  obtain ⟨n1, n2, _, _, d1, _, _⟩ := Exclusive_parts hE
  cases h1 : T.Find s.t1_ k with
  | some e =>
    have hk : k ∈ keys s.t1_ := T_Find_isSome.mp (by simp [h1])
    have hk2 : k ∉ keys s.t2_ := (d1 k hk).1
    rw [Get_of_t1 vb s k h1]
    refine ⟨by simp [hk], ?_, ?_, rfl, rfl, rfl, rfl⟩
    · intro v hv
      have := T_Find_of_mem n1 hv
      rw [h1] at this
      cases this
      exact ⟨rfl, by simp only [OnCacheHit]; exact eraseP_eq_filter k n1, rfl⟩
    · intro v hv
      exact absurd (List.mem_map_of_mem Prod.fst hv) hk2
  | none =>
    have hk1 := T_Find_eq_none.mp h1
    cases h2 : T.Find s.t2_ k with
    | some e =>
      have hk : k ∈ keys s.t2_ := T_Find_isSome.mp (by simp [h2])
      rw [Get_of_t2 vb s k h1 h2]
      refine ⟨by simp [hk], ?_, ?_, rfl, rfl, rfl, rfl⟩
      · intro v hv
        exact absurd (List.mem_map_of_mem Prod.fst hv) hk1
      · intro v hv
        have := T_Find_of_mem n2 hv
        rw [h2] at this
        cases this
        refine ⟨rfl, rfl, ?_⟩
        simp only [OnCacheHit]
        rw [T_Touch_fst vb k none false s.cached_bytes_ n2 h2, eraseP_eq_filter k n2]
        rfl
    | none =>
      have hk2 := T_Find_eq_none.mp h2
      rw [Get_of_miss vb s k h1 h2]
      refine ⟨by simp [hk1, hk2], ?_, ?_, rfl, rfl, rfl, rfl⟩
      · intro v hv
        exact absurd (List.mem_map_of_mem Prod.fst hv) hk1
      · intro v hv
        exact absurd (List.mem_map_of_mem Prod.fst hv) hk2

theorem Remove_of_t1 (kb : K → Nat) (vb : V → Nat) (s : ARC K V) (k : K) {e : K × V}
    (h : T.Find s.t1_ k = some e) :
    Remove kb vb s k =
      { s with t1_ := s.t1_.eraseP (fun x => x.1 == k),
               cached_bytes_ :=
                 UpdateRemoveFromCacheBytes ((kb e.1 + vb e.2) % sizeMod) s.cached_bytes_ } := by
  simp [Remove, h, T.Remove]

theorem Remove_of_t2 (kb : K → Nat) (vb : V → Nat) (s : ARC K V) (k : K) {e : K × V}
    (h1 : T.Find s.t1_ k = none) (h : T.Find s.t2_ k = some e) :
    Remove kb vb s k =
      { s with t2_ := s.t2_.eraseP (fun x => x.1 == k),
               cached_bytes_ :=
                 UpdateRemoveFromCacheBytes ((kb e.1 + vb e.2) % sizeMod) s.cached_bytes_ } := by
  simp [Remove, h1, h, T.Remove]

theorem Remove_of_b1 (kb : K → Nat) (vb : V → Nat) (s : ARC K V) (k : K)
    (h1 : T.Find s.t1_ k = none) (h2 : T.Find s.t2_ k = none) (h3 : k ∈ s.b1_) :
    Remove kb vb s k =
      { s with b1_ := s.b1_.erase k,
               cached_bytes_ := UpdateRemoveFromCacheBytes (kb k) s.cached_bytes_ } := by
  simp [Remove, h1, h2, B.Find, h3, B.Remove]

theorem Remove_of_b2 (kb : K → Nat) (vb : V → Nat) (s : ARC K V) (k : K)
    (h1 : T.Find s.t1_ k = none) (h2 : T.Find s.t2_ k = none) (h3 : k ∉ s.b1_)
    (h4 : k ∈ s.b2_) :
    Remove kb vb s k =
      { s with b2_ := s.b2_.erase k,
               cached_bytes_ := UpdateRemoveFromCacheBytes (kb k) s.cached_bytes_ } := by
  simp [Remove, h1, h2, B.Find, h3, h4, B.Remove]

theorem Remove_of_absent (kb : K → Nat) (vb : V → Nat) (s : ARC K V) (k : K)
    (h1 : T.Find s.t1_ k = none) (h2 : T.Find s.t2_ k = none) (h3 : k ∉ s.b1_)
    (h4 : k ∉ s.b2_) : Remove kb vb s k = s := by
  simp [Remove, h1, h2, B.Find, h3, h4]

theorem not_mem_filter_key (t : List (K × V)) (k : K) :
    k ∉ keys (t.filter (fun x => !(x.1 == k))) := by
  intro h
  simp only [keys, List.mem_map, List.mem_filter] at h
  obtain ⟨x, ⟨_, hx⟩, hk⟩ := h
  simp [hk] at hx

/-- The lists after `Remove` in a state without repeated keys. -/
theorem Remove_lists (kb : K → Nat) (vb : V → Nat) (s : ARC K V) (hE : Exclusive s) (k : K) :
    (Remove kb vb s k).t1_ = s.t1_.filter (fun e => !(e.1 == k)) ∧
    (Remove kb vb s k).t2_ = s.t2_.filter (fun e => !(e.1 == k)) ∧
    (Remove kb vb s k).b1_ = s.b1_.filter (fun x => !(x == k)) ∧
    (Remove kb vb s k).b2_ = s.b2_.filter (fun x => !(x == k)) ∧
    (Remove kb vb s k).p_ = s.p_ ∧ (Remove kb vb s k).c_ = s.c_ ∧
    (Remove kb vb s k).cache_hit_ = s.cache_hit_ ∧
    (Remove kb vb s k).cache_miss_ = s.cache_miss_ := by
  obtain ⟨n1, n2, n3, n4, d1, d2, d3⟩ := Exclusive_parts hE
  cases h1 : T.Find s.t1_ k with
  | some e =>
    have hk : k ∈ keys s.t1_ := T_Find_isSome.mp (by simp [h1])
    obtain ⟨a, b, c⟩ := d1 k hk
    rw [Remove_of_t1 kb vb s k h1]
    exact ⟨eraseP_eq_filter k n1, (filter_keys_self a).symm, (filter_self_of_not_mem b).symm,
      (filter_self_of_not_mem c).symm, rfl, rfl, rfl, rfl⟩
  | none =>
    have hk1 := T_Find_eq_none.mp h1
    cases h2 : T.Find s.t2_ k with
    | some e =>
      have hk : k ∈ keys s.t2_ := T_Find_isSome.mp (by simp [h2])
      obtain ⟨b, c⟩ := d2 k hk
      rw [Remove_of_t2 kb vb s k h1 h2]
      exact ⟨(filter_keys_self hk1).symm, eraseP_eq_filter k n2,
        (filter_self_of_not_mem b).symm, (filter_self_of_not_mem c).symm, rfl, rfl, rfl, rfl⟩
    | none =>
      have hk2 := T_Find_eq_none.mp h2
      by_cases h3 : k ∈ s.b1_
      · rw [Remove_of_b1 kb vb s k h1 h2 h3]
        exact ⟨(filter_keys_self hk1).symm, (filter_keys_self hk2).symm,
          erase_eq_filter_of_nodup k n3, (filter_self_of_not_mem (d3 k h3)).symm,
          rfl, rfl, rfl, rfl⟩
      · by_cases h4 : k ∈ s.b2_
        · rw [Remove_of_b2 kb vb s k h1 h2 h3 h4]
          exact ⟨(filter_keys_self hk1).symm, (filter_keys_self hk2).symm,
            (filter_self_of_not_mem h3).symm, erase_eq_filter_of_nodup k n4,
            rfl, rfl, rfl, rfl⟩
        · rw [Remove_of_absent kb vb s k h1 h2 h3 h4]
          exact ⟨(filter_keys_self hk1).symm, (filter_keys_self hk2).symm,
            (filter_self_of_not_mem h3).symm, (filter_self_of_not_mem h4).symm,
            rfl, rfl, rfl, rfl⟩

/-- C7. `Remove`, in every state a cache reaches: for a key in none of the
four lists the state stays as it is, so a second `Remove` changes nothing;
in general each list afterwards is the old list without the entry of `k`,
in the old order, hence `k` is in no list and a following `Get(k)` misses;
`p`, the capacity and the hit and miss counters stay as they are, and the
call makes no callback call. -/
theorem remove_spec (kb : K → Nat) (vb : V → Nat) (s : ARC K V)
    (hs : Reachable kb vb s) (k : K) :
    (k ∉ keys s.t1_ ∧ k ∉ keys s.t2_ ∧ k ∉ s.b1_ ∧ k ∉ s.b2_ → Remove kb vb s k = s) ∧
    Remove kb vb (Remove kb vb s k) k = Remove kb vb s k ∧
    (Remove kb vb s k).t1_ = s.t1_.filter (fun e => !(e.1 == k)) ∧
    (Remove kb vb s k).t2_ = s.t2_.filter (fun e => !(e.1 == k)) ∧
    (Remove kb vb s k).b1_ = s.b1_.filter (fun x => !(x == k)) ∧
    (Remove kb vb s k).b2_ = s.b2_.filter (fun x => !(x == k)) ∧
    (k ∉ keys (Remove kb vb s k).t1_ ∧ k ∉ keys (Remove kb vb s k).t2_ ∧
      k ∉ (Remove kb vb s k).b1_ ∧ k ∉ (Remove kb vb s k).b2_) ∧
    (Get vb (Remove kb vb s k) k).2 = none ∧
    (step kb vb s (Op.remove k)).2 = [] ∧
    (Remove kb vb s k).p_ = s.p_ ∧
    HitCount (Remove kb vb s k) = HitCount s ∧
    MissCount (Remove kb vb s k) = MissCount s := by
  have hE := Reachable_Exclusive hs
  obtain ⟨l1, l2, l3, l4, hp, _, hh, hm⟩ := Remove_lists kb vb s hE k
  have a1 : k ∉ keys (Remove kb vb s k).t1_ := by rw [l1]; exact not_mem_filter_key _ k
  have a2 : k ∉ keys (Remove kb vb s k).t2_ := by rw [l2]; exact not_mem_filter_key _ k
  have a3 : k ∉ (Remove kb vb s k).b1_ := by rw [l3]; simp [List.mem_filter]
  have a4 : k ∉ (Remove kb vb s k).b2_ := by rw [l4]; simp [List.mem_filter]
  refine ⟨?_, ?_, l1, l2, l3, l4, ⟨a1, a2, a3, a4⟩, ?_, rfl, hp, hh, hm⟩
  · rintro ⟨b1, b2, b3, b4⟩
    exact Remove_of_absent kb vb s k (T_Find_eq_none.mpr b1) (T_Find_eq_none.mpr b2) b3 b4
  · exact Remove_of_absent kb vb _ k (T_Find_eq_none.mpr a1) (T_Find_eq_none.mpr a2) a3 a4
  · rw [Get_of_miss vb _ k (T_Find_eq_none.mpr a1) (T_Find_eq_none.mpr a2)]

theorem makeRoom_counters (kb : K → Nat) (vb : V → Nat) (s : ARC K V) (k : K)
    (cb : EvictionCB K V) :
    (makeRoom kb vb s k cb).1.c_ = s.c_ ∧ (makeRoom kb vb s k cb).1.p_ = s.p_ ∧
    (makeRoom kb vb s k cb).1.cache_hit_ = s.cache_hit_ ∧
    (makeRoom kb vb s k cb).1.cache_miss_ = s.cache_miss_ := by
  unfold makeRoom
  dsimp only
  split_ifs
  · exact Replace_ghosts kb vb _ k cb
  · exact ⟨rfl, rfl, rfl, rfl⟩
  · exact Replace_ghosts kb vb _ k cb
  · exact Replace_ghosts kb vb _ k cb
  · exact Replace_ghosts kb vb _ k cb
  · exact ⟨rfl, rfl, rfl, rfl⟩
  · exact ⟨rfl, rfl, rfl, rfl⟩

/-- The hit and miss counters after `Put`. -/
theorem Put_counters (kb : K → Nat) (vb : V → Nat) (s : ARC K V) (k : K) (v : V)
    (cb : EvictionCB K V) :
    (Put kb vb s k v cb).1.cache_hit_ =
      s.cache_hit_ + (if k ∈ keys s.t1_ ∨ k ∈ keys s.t2_ then 1 else 0) ∧
    (Put kb vb s k v cb).1.cache_miss_ = s.cache_miss_ := by
  cases h1 : T.Find s.t1_ k with
  | some e =>
    have hk : k ∈ keys s.t1_ := T_Find_isSome.mp (by simp [h1])
    rw [Put_of_t1 kb vb s k v cb h1]
    simp [OnCacheHit, hk]
  | none =>
    have hk1 := T_Find_eq_none.mp h1
    cases h2 : T.Find s.t2_ k with
    | some e =>
      have hk : k ∈ keys s.t2_ := T_Find_isSome.mp (by simp [h2])
      rw [Put_of_t2 kb vb s k v cb h1 h2]
      simp [OnCacheHit, hk]
    | none =>
      have hk2 := T_Find_eq_none.mp h2
      by_cases h3 : k ∈ s.b1_
      · rw [Put_of_b1 kb vb s k v cb h1 h2 h3]
        obtain ⟨_, _, a, b⟩ := Replace_ghosts kb vb
          (IncreaseP s (min 1 (s.b2_.length / s.b1_.length))) k cb
        simp only [IncreaseP_hit, IncreaseP_miss] at a b
        simp [hk1, hk2, a, b]
      · by_cases h4 : k ∈ s.b2_
        · rw [Put_of_b2 kb vb s k v cb h1 h2 h3 h4]
          obtain ⟨_, _, a, b⟩ := Replace_ghosts kb vb
            (DecreaseP s (max 1 (s.b1_.length / s.b2_.length))) k cb
          simp only [DecreaseP_hit, DecreaseP_miss] at a b
          simp [hk1, hk2, a, b]
        · rw [Put_of_miss kb vb s k v cb h1 h2 h3 h4]
          obtain ⟨_, _, a, b⟩ := makeRoom_counters kb vb s k cb
          simp [hk1, hk2, a, b]

/-- C9. Hit and miss counting, in every state: `Get(k)` adds one to the hit
count and nothing to the miss count when `k` is in `T1` or `T2`, and one to
the miss count and nothing to the hit count otherwise (a key in a ghost list
included); `Put(k, v)` adds one to the hit count exactly when `k` is in `T1`
or `T2` and never changes the miss count; `Remove` changes neither. -/
theorem hit_miss_counting (kb : K → Nat) (vb : V → Nat) (s : ARC K V) (k : K) (v : V)
    (cb : EvictionCB K V) :
    HitCount (Get vb s k).1 =
      HitCount s + (if k ∈ keys s.t1_ ∨ k ∈ keys s.t2_ then 1 else 0) ∧
    MissCount (Get vb s k).1 =
      MissCount s + (if k ∈ keys s.t1_ ∨ k ∈ keys s.t2_ then 0 else 1) ∧
    HitCount (Put kb vb s k v cb).1 =
      HitCount s + (if k ∈ keys s.t1_ ∨ k ∈ keys s.t2_ then 1 else 0) ∧
    MissCount (Put kb vb s k v cb).1 = MissCount s ∧
    HitCount (Remove kb vb s k) = HitCount s ∧
    MissCount (Remove kb vb s k) = MissCount s := by
  refine ⟨?_, ?_, (Put_counters kb vb s k v cb).1, (Put_counters kb vb s k v cb).2, ?_, ?_⟩
  · cases h1 : T.Find s.t1_ k with
    | some e =>
      have hk : k ∈ keys s.t1_ := T_Find_isSome.mp (by simp [h1])
      rw [Get_of_t1 vb s k h1]; simp [HitCount, OnCacheHit, hk]
    | none =>
      have hk1 := T_Find_eq_none.mp h1
      cases h2 : T.Find s.t2_ k with
      | some e =>
        have hk : k ∈ keys s.t2_ := T_Find_isSome.mp (by simp [h2])
        rw [Get_of_t2 vb s k h1 h2]; simp [HitCount, OnCacheHit, hk]
      | none =>
        have hk2 := T_Find_eq_none.mp h2
        rw [Get_of_miss vb s k h1 h2]; simp [HitCount, OnCacheMiss, hk1, hk2]
  · cases h1 : T.Find s.t1_ k with
    | some e =>
      have hk : k ∈ keys s.t1_ := T_Find_isSome.mp (by simp [h1])
      rw [Get_of_t1 vb s k h1]; simp [MissCount, OnCacheHit, hk]
    | none =>
      have hk1 := T_Find_eq_none.mp h1
      cases h2 : T.Find s.t2_ k with
      | some e =>
        have hk : k ∈ keys s.t2_ := T_Find_isSome.mp (by simp [h2])
        rw [Get_of_t2 vb s k h1 h2]; simp [MissCount, OnCacheHit, hk]
      | none =>
        have hk2 := T_Find_eq_none.mp h2
        rw [Get_of_miss vb s k h1 h2]; simp [MissCount, OnCacheMiss, hk1, hk2]
  · unfold Remove HitCount
    dsimp only
    split_ifs <;> rfl
  · unfold Remove MissCount
    dsimp only
    split_ifs <;> rfl

end GetRemove

section BelowCapacity
variable {K V : Type} [DecidableEq K]

theorem Evicts_not_full {cb : EvictionCB K V} {s : ARC K V} {t1 t2 calls : List (K × V)}
    (hf : IsCacheFull s = false) (h : Evicts cb s t1 t2 calls) :
    t1 = s.t1_ ∧ t2 = s.t2_ ∧ calls = [] := by
  rcases h with h | ⟨h, _⟩ | ⟨h, _⟩
  · exact h
  · rw [hf] at h; cases h
  · rw [hf] at h; cases h

theorem not_full_of_lt {s : ARC K V} (h : s.t1_.length + s.t2_.length < s.c_) :
    IsCacheFull s = false := by
  simp [IsCacheFull]; omega

theorem mem_keys_Touch (vb : V → Nat) (t : List (K × V)) (k : K) (v : Option V)
    (cache : Bool) (bytes : Nat) (a : K) :
    a ∈ keys (T.Touch vb t k v cache bytes).1 ↔ a ∈ keys t := by
  rw [← List.count_pos_iff, ← List.count_pos_iff, T_Touch_count]

/-- A `Put` into a cache that is not full: no callback call, every resident
key stays resident, and the resident count grows by one exactly when the key
was not resident. -/
theorem Put_below_capacity (kb : K → Nat) (vb : V → Nat) (s : ARC K V) (k : K) (v : V)
    (cb : EvictionCB K V) (h : s.t1_.length + s.t2_.length < s.c_) :
    (Put kb vb s k v cb).2 = [] ∧
    (∀ a, a ∈ keys s.t1_ ∨ a ∈ keys s.t2_ →
      a ∈ keys (Put kb vb s k v cb).1.t1_ ∨ a ∈ keys (Put kb vb s k v cb).1.t2_) ∧
    Size (Put kb vb s k v cb).1 =
      Size s + (if k ∈ keys s.t1_ ∨ k ∈ keys s.t2_ then 0 else 1) := by
  have hnf := not_full_of_lt h
  cases h1 : T.Find s.t1_ k with
  | some e =>
    have hk : k ∈ keys s.t1_ := T_Find_isSome.mp (by simp [h1])
    have he := (T_Find_some h1).1
    have hl := length_eraseP_key hk
    rw [Put_of_t1 kb vb s k v cb h1]
    refine ⟨rfl, ?_, ?_⟩
    · intro a ha
      simp only [OnCacheHit, keys_append_one, keys_eraseP, List.mem_append,
        List.mem_singleton, he]
      by_cases hak : a = k
      · exact Or.inr (Or.inr hak)
      · rcases ha with ha | ha
        · exact Or.inl ((List.mem_erase_of_ne hak).mpr ha)
        · exact Or.inr (Or.inl ha)
    · simp only [Size, OnCacheHit, List.length_append, List.length_singleton, hk, true_or,
        if_true]
      omega
  | none =>
    have hk1 := T_Find_eq_none.mp h1
    cases h2 : T.Find s.t2_ k with
    | some e =>
      have hk : k ∈ keys s.t2_ := T_Find_isSome.mp (by simp [h2])
      rw [Put_of_t2 kb vb s k v cb h1 h2]
      refine ⟨rfl, ?_, ?_⟩
      · intro a ha
        simp only [OnCacheHit, mem_keys_Touch]
        exact ha
      · simp only [Size, OnCacheHit, T_Touch_length, hk, or_true, if_true]
        rfl
    | none =>
      have hk2 := T_Find_eq_none.mp h2
      have hres : ¬ (k ∈ keys s.t1_ ∨ k ∈ keys s.t2_) := fun hh => hh.elim hk1 hk2
      by_cases h3 : k ∈ s.b1_
      · rw [Put_of_b1 kb vb s k v cb h1 h2 h3]
        obtain ⟨a1, a2, a3⟩ := Evicts_not_full (by simpa using hnf)
          (Replace_Evicts kb vb (IncreaseP s (min 1 (s.b2_.length / s.b1_.length))) k cb)
        simp only [IncreaseP_t1, IncreaseP_t2] at a1 a2
        dsimp only
        refine ⟨a3, ?_, ?_⟩
        · intro a ha
          rw [a1, a2, keys_append_one]
          rcases ha with ha | ha
          · exact Or.inl ha
          · exact Or.inr (List.mem_append_left _ ha)
        · simp only [Size, a1, a2, List.length_append, List.length_singleton, hres, if_false]
          omega
      · by_cases h4 : k ∈ s.b2_
        · rw [Put_of_b2 kb vb s k v cb h1 h2 h3 h4]
          obtain ⟨a1, a2, a3⟩ := Evicts_not_full (by simpa using hnf)
            (Replace_Evicts kb vb (DecreaseP s (max 1 (s.b1_.length / s.b2_.length))) k cb)
          simp only [DecreaseP_t1, DecreaseP_t2] at a1 a2
          dsimp only
          refine ⟨a3, ?_, ?_⟩
          · intro a ha
            rw [a1, a2, keys_append_one]
            rcases ha with ha | ha
            · exact Or.inl ha
            · exact Or.inr (List.mem_append_left _ ha)
          · simp only [Size, a1, a2, List.length_append, List.length_singleton, hres, if_false]
            omega
        · rw [Put_of_miss kb vb s k v cb h1 h2 h3 h4]
          obtain ⟨a1, a2, a3⟩ := Evicts_not_full hnf (makeRoom_Evicts kb vb s k cb)
          dsimp only
          refine ⟨a3, ?_, ?_⟩
          · intro a ha
            rw [a1, a2, keys_append_one]
            rcases ha with ha | ha
            · exact Or.inl (List.mem_append_left _ ha)
            · exact Or.inr ha
          · simp only [Size, a1, a2, List.length_append, List.length_singleton, hres, if_false]
            omega

theorem makeRoom_of_room (kb : K → Nat) (vb : V → Nat) (s : ARC K V) (k : K)
    (cb : EvictionCB K V)
    (h : s.t1_.length + s.b1_.length + s.t2_.length + s.b2_.length < s.c_) :
    makeRoom kb vb s k cb = (s, []) := by
  have hnf : IsCacheFull s = false := by simp [IsCacheFull]; omega
  have h1 : s.t1_.length + s.b1_.length < s.c_ := by omega
  have h2 : ¬ s.t1_.length + s.b1_.length + s.t2_.length + s.b2_.length ≥ s.c_ := by omega
  simp only [makeRoom, hnf, h1, h2, Bool.false_and, Bool.false_eq_true, if_true, if_false]

/-- Pairwise distinct new keys put into a cache that holds `t1_` only and has
room for all of them line up in `t1_` in the order of the calls. -/
theorem runPuts_fresh (kb : K → Nat) (vb : V → Nat) (ps : List (K × V × EvictionCB K V)) :
    ∀ s : ARC K V, s.t2_ = [] → s.b1_ = [] → s.b2_ = [] →
      (keys s.t1_ ++ ps.map (fun p => p.1)).Nodup → s.t1_.length + ps.length ≤ s.c_ →
      (runPuts kb vb s ps).t1_ = s.t1_ ++ ps.map (fun p => (p.1, p.2.1)) ∧
      (runPuts kb vb s ps).t2_ = [] ∧ (runPuts kb vb s ps).b1_ = [] ∧
      (runPuts kb vb s ps).b2_ = [] := by
  induction ps with
  | nil => intro s h2 h3 h4 _ _; simp [runPuts, h2, h3, h4]
  | cons a rest ih =>
    intro s h2 h3 h4 hn hl
    have hk1 : a.1 ∉ keys s.t1_ := by
      rw [List.nodup_append] at hn
      exact fun hm => hn.2.2 hm (by simp)
    have hroom : s.t1_.length + s.b1_.length + s.t2_.length + s.b2_.length < s.c_ := by
      simp only [h2, h3, h4, List.length_nil, List.length_cons] at hl ⊢
      omega
    have hput : (Put kb vb s a.1 a.2.1 a.2.2).1 =
        { s with t1_ := s.t1_ ++ [(a.1, a.2.1)],
                 cached_bytes_ :=
                   UpdateAddToCacheBytes ((kb a.1 + vb a.2.1) % sizeMod) s.cached_bytes_ } := by
      rw [Put_of_miss kb vb s a.1 a.2.1 a.2.2 (T_Find_eq_none.mpr hk1)
        (by simp [h2, T.Find]) (by simp [h3]) (by simp [h4]),
        makeRoom_of_room kb vb s a.1 a.2.2 hroom]
    have hn2 : (keys (s.t1_ ++ [(a.1, a.2.1)]) ++ rest.map (fun p => p.1)).Nodup := by
      rw [keys_append_one, List.append_assoc]
      simpa using hn
    have hl2 : (s.t1_ ++ [(a.1, a.2.1)]).length + rest.length ≤ s.c_ := by
      simp only [List.length_append, List.length_cons, List.length_nil] at hl ⊢
      omega
    have := ih { s with t1_ := s.t1_ ++ [(a.1, a.2.1)],
                        cached_bytes_ :=
                          UpdateAddToCacheBytes ((kb a.1 + vb a.2.1) % sizeMod) s.cached_bytes_ }
      h2 h3 h4 hn2 hl2
    simp only [runPuts, hput, List.map_cons]
    simpa using this

/-- C10. No eviction below capacity.  In every state with fewer than `c`
residents a `Put` makes no callback call, keeps every resident key resident
and adds one to `Size()` exactly when the key was not resident.  Hence after
putting at most `c` pairwise distinct keys into a new cache, `Size()` is
their number and `Get` of each of them finds the value that was put. -/
theorem no_eviction_below_capacity (kb : K → Nat) (vb : V → Nat) :
    (∀ (s : ARC K V) (k : K) (v : V) (cb : EvictionCB K V),
      s.t1_.length + s.t2_.length < s.c_ →
      (Put kb vb s k v cb).2 = [] ∧
      (∀ a, a ∈ keys s.t1_ ∨ a ∈ keys s.t2_ →
        a ∈ keys (Put kb vb s k v cb).1.t1_ ∨ a ∈ keys (Put kb vb s k v cb).1.t2_) ∧
      Size (Put kb vb s k v cb).1 =
        Size s + (if k ∈ keys s.t1_ ∨ k ∈ keys s.t2_ then 0 else 1)) ∧
    (∀ (c : Nat) (ps : List (K × V × EvictionCB K V)),
      (ps.map (fun p => p.1)).Nodup → ps.length ≤ c →
      Size (runPuts kb vb (ARC.new c) ps) = ps.length ∧
      ∀ p ∈ ps, (Get vb (runPuts kb vb (ARC.new c) ps) p.1).2 = some p.2.1) := by
  refine ⟨fun s k v cb h => Put_below_capacity kb vb s k v cb h, ?_⟩
  intro c ps hn hl
  obtain ⟨h1, h2, _, _⟩ := runPuts_fresh kb vb ps (ARC.new c : ARC K V) rfl rfl rfl
    (by simpa [ARC.new, keys] using hn) (by simpa [ARC.new] using hl)
  replace h1 : (runPuts kb vb (ARC.new c) ps).t1_ = ps.map (fun p => (p.1, p.2.1)) := by
    rw [h1]; rfl
  refine ⟨by simp [Size, h1, h2], ?_⟩
  intro p hp
  have hnk : (keys (runPuts kb vb (ARC.new c) ps).t1_).Nodup := by
    rw [h1]
    simpa [keys, List.map_map, Function.comp_def] using hn
  have hmem : (p.1, p.2.1) ∈ (runPuts kb vb (ARC.new c) ps).t1_ := by
    rw [h1]
    exact List.mem_map_of_mem (fun p => (p.1, p.2.1)) hp
  exact Get_val_t1 vb _ p.1 (T_Find_of_mem hnk hmem)

end BelowCapacity

section ResidentKeys
variable {K V : Type} [DecidableEq K]

/-- What a `Put` does to the set of resident keys: either no callback call is
made and every resident key stays resident, or the cache was full, the key
was not resident, the least recent entry of `t1_` (or of `t2_`) is what the
callback is told, and the resident keys afterwards are the remaining ones and
the new key. -/
theorem Put_resident_cases (kb : K → Nat) (vb : V → Nat) (s : ARC K V) (k : K) (v : V)
    (cb : EvictionCB K V) :
    ((Put kb vb s k v cb).2 = [] ∧
      ∀ a, a ∈ keys s.t1_ ∨ a ∈ keys s.t2_ →
        a ∈ keys (Put kb vb s k v cb).1.t1_ ∨ a ∈ keys (Put kb vb s k v cb).1.t2_) ∨
    (∃ e rest, s.t1_ = e :: rest ∧ (Put kb vb s k v cb).2 = cbCalls cb e ∧
      k ∉ keys s.t1_ ∧ k ∉ keys s.t2_ ∧
      ∀ a, (a ∈ keys (Put kb vb s k v cb).1.t1_ ∨ a ∈ keys (Put kb vb s k v cb).1.t2_) ↔
        (a ∈ keys rest ∨ a ∈ keys s.t2_ ∨ a = k)) ∨
    (∃ e rest, s.t2_ = e :: rest ∧ (Put kb vb s k v cb).2 = cbCalls cb e ∧
      k ∉ keys s.t1_ ∧ k ∉ keys s.t2_ ∧
      ∀ a, (a ∈ keys (Put kb vb s k v cb).1.t1_ ∨ a ∈ keys (Put kb vb s k v cb).1.t2_) ↔
        (a ∈ keys s.t1_ ∨ a ∈ keys rest ∨ a = k)) := by
  have key : ∀ (t1 t2 calls P1 P2 : List (K × V)), Evicts cb s t1 t2 calls →
      k ∉ keys s.t1_ → k ∉ keys s.t2_ →
      (∀ a, (a ∈ keys P1 ∨ a ∈ keys P2) ↔ (a ∈ keys t1 ∨ a ∈ keys t2 ∨ a = k)) →
      ((calls = [] ∧ ∀ a, a ∈ keys s.t1_ ∨ a ∈ keys s.t2_ → a ∈ keys P1 ∨ a ∈ keys P2) ∨
      (∃ e rest, s.t1_ = e :: rest ∧ calls = cbCalls cb e ∧ k ∉ keys s.t1_ ∧ k ∉ keys s.t2_ ∧
        ∀ a, (a ∈ keys P1 ∨ a ∈ keys P2) ↔ (a ∈ keys rest ∨ a ∈ keys s.t2_ ∨ a = k)) ∨
      (∃ e rest, s.t2_ = e :: rest ∧ calls = cbCalls cb e ∧ k ∉ keys s.t1_ ∧ k ∉ keys s.t2_ ∧
        ∀ a, (a ∈ keys P1 ∨ a ∈ keys P2) ↔ (a ∈ keys s.t1_ ∨ a ∈ keys rest ∨ a = k))) := by
    intro t1 t2 calls P1 P2 hev hk1 hk2 hP
    rcases hev with ⟨a1, a2, a3⟩ | ⟨_, e, rest, he, a1, a2, a3⟩ | ⟨_, e, rest, he, a1, a2, a3⟩
    · subst a1 a2
      refine Or.inl ⟨a3, fun a ha => (hP a).mpr ?_⟩
      rcases ha with ha | ha
      · exact Or.inl ha
      · exact Or.inr (Or.inl ha)
    · subst a1 a2
      exact Or.inr (Or.inl ⟨e, t1, he, a3, hk1, hk2, hP⟩)
    · subst a1 a2
      exact Or.inr (Or.inr ⟨e, t2, he, a3, hk1, hk2, hP⟩)
  cases h1 : T.Find s.t1_ k with
  | some e =>
    have hk : k ∈ keys s.t1_ := T_Find_isSome.mp (by simp [h1])
    have he := (T_Find_some h1).1
    rw [Put_of_t1 kb vb s k v cb h1]
    refine Or.inl ⟨rfl, ?_⟩
    intro a ha
    simp only [OnCacheHit, keys_append_one, keys_eraseP, List.mem_append,
      List.mem_singleton, he]
    by_cases hak : a = k
    · exact Or.inr (Or.inr hak)
    · rcases ha with ha | ha
      · exact Or.inl ((List.mem_erase_of_ne hak).mpr ha)
      · exact Or.inr (Or.inl ha)
  | none =>
    have hk1 := T_Find_eq_none.mp h1
    cases h2 : T.Find s.t2_ k with
    | some e =>
      rw [Put_of_t2 kb vb s k v cb h1 h2]
      refine Or.inl ⟨rfl, ?_⟩
      intro a ha
      simp only [OnCacheHit, mem_keys_Touch]
      exact ha
    | none =>
      have hk2 := T_Find_eq_none.mp h2
      by_cases h3 : k ∈ s.b1_
      · rw [Put_of_b1 kb vb s k v cb h1 h2 h3]
        have hev := Evicts_of_ghost_change
          (Replace_Evicts kb vb (IncreaseP s (min 1 (s.b2_.length / s.b1_.length))) k cb)
          (IncreaseP_t1 s _) (IncreaseP_t2 s _) (IncreaseP_c s _)
        refine key _ _ _ _ _ hev hk1 hk2 ?_
        intro a
        simp only [keys_append_one, List.mem_append, List.mem_singleton]
      · by_cases h4 : k ∈ s.b2_
        · rw [Put_of_b2 kb vb s k v cb h1 h2 h3 h4]
          have hev := Evicts_of_ghost_change
            (Replace_Evicts kb vb (DecreaseP s (max 1 (s.b1_.length / s.b2_.length))) k cb)
            (DecreaseP_t1 s _) (DecreaseP_t2 s _) (DecreaseP_c s _)
          refine key _ _ _ _ _ hev hk1 hk2 ?_
          intro a
          simp only [keys_append_one, List.mem_append, List.mem_singleton]
        · rw [Put_of_miss kb vb s k v cb h1 h2 h3 h4]
          refine key _ _ _ _ _ (makeRoom_Evicts kb vb s k cb) hk1 hk2 ?_
          intro a
          simp only [keys_append_one, List.mem_append, List.mem_singleton]
          tauto

end ResidentKeys

section Callback
variable {K V : Type} [DecidableEq K]

theorem mem_cbCalls {cb : EvictionCB K V} {e x : K × V} (h : x ∈ cbCalls cb e) : x = e := by
  cases cb <;> simp [cbCalls] at h
  exact h

theorem cbCalls_length (cb : EvictionCB K V) (e : K × V) : (cbCalls cb e).length ≤ 1 := by
  cases cb <;> simp [cbCalls]

theorem mem_keys_of_mem {t : List (K × V)} {e : K × V} (h : e ∈ t) : e.1 ∈ keys t :=
  List.mem_map_of_mem Prod.fst h

/-- C5. Eviction callback, for a `Put(k, v, cb)` in a state a cache reaches.
At most one callback call is made, none when no callback is supplied.  What
the callback is told is an entry of `T1` or `T2`, key and stored value, never
a ghost key; after the `Put` that key is not resident and a `Get` of it
misses.  With a callback supplied, every resident entry whose key is not
resident after the `Put` is told to the callback, once.  `Remove` makes no
callback call.  In the test `cache_evict` (capacity 5, `Put` 0..4, `Get`
0..4, `Put` 5..9 with a callback) the callback is called five times, each
time with a value equal to the key, and each of these keys misses
afterwards. -/
theorem eviction_callback_spec (kb : K → Nat) (vb : V → Nat) (s : ARC K V)
    (hs : Reachable kb vb s) (k : K) (v : V) (cb : EvictionCB K V) :
    (Put kb vb s k v cb).2.length ≤ 1 ∧
    (cb = none → (Put kb vb s k v cb).2 = []) ∧
    (∀ e ∈ (Put kb vb s k v cb).2,
      (e ∈ s.t1_ ∨ e ∈ s.t2_) ∧ e.1 ∉ s.b1_ ∧ e.1 ∉ s.b2_ ∧
      e.1 ∉ keys (Put kb vb s k v cb).1.t1_ ∧ e.1 ∉ keys (Put kb vb s k v cb).1.t2_ ∧
      (Get vb (Put kb vb s k v cb).1 e.1).2 = none) ∧
    (cb.isSome = true → ∀ e, e ∈ s.t1_ ∨ e ∈ s.t2_ →
      e.1 ∉ keys (Put kb vb s k v cb).1.t1_ → e.1 ∉ keys (Put kb vb s k v cb).1.t2_ →
      (Put kb vb s k v cb).2 = [e]) ∧
    (step kb vb s (Op.remove k)).2 = [] ∧
    runCalls intBytes intBytes (ARC.new 5) evictOps =
      [(0, 0), (5, 5), (6, 6), (7, 7), (8, 8)] ∧
    (runCalls intBytes intBytes (ARC.new 5) evictOps).map
      (fun e => (Get intBytes (run intBytes intBytes (ARC.new 5) evictOps) e.1).2) =
      [none, none, none, none, none] := by
  have hE := Reachable_Exclusive hs
  obtain ⟨n1, n2, _, _, d1, d2, _⟩ := Exclusive_parts hE
  refine ⟨?_, ?_, ?_, ?_, rfl, by decide, by decide⟩
  · rcases Put_resident_cases kb vb s k v cb with ⟨h, _⟩ | ⟨e, rest, _, h, _⟩ | ⟨e, rest, _, h, _⟩
    · rw [h]; exact Nat.zero_le _
    · rw [h]; exact cbCalls_length cb e
    · rw [h]; exact cbCalls_length cb e
  · intro hcb
    subst hcb
    rcases Put_resident_cases kb vb s k v none with ⟨h, _⟩ | ⟨e, rest, _, h, _⟩ |
      ⟨e, rest, _, h, _⟩ <;> rw [h] <;> rfl
  · intro x hx
    rcases Put_resident_cases kb vb s k v cb with ⟨h, _⟩ | ⟨e, rest, he, h, hk1, hk2, hP⟩ |
      ⟨e, rest, he, h, hk1, hk2, hP⟩
    · rw [h] at hx; cases hx
    · rw [h] at hx
      have hxe := mem_cbCalls hx
      subst hxe
      have hmem : x ∈ s.t1_ := by rw [he]; exact List.mem_cons_self _ _
      have hkm := mem_keys_of_mem hmem
      obtain ⟨b1, b2, b3⟩ := d1 x.1 hkm
      have hnot : ¬ (x.1 ∈ keys (Put kb vb s k v cb).1.t1_ ∨
          x.1 ∈ keys (Put kb vb s k v cb).1.t2_) := by
        rw [hP]
        rintro (h1 | h1 | h1)
        · rw [he, keys_cons, List.nodup_cons] at n1
          exact n1.1 h1
        · exact b1 h1
        · exact hk1 (h1 ▸ hkm)
      have c1 : x.1 ∉ keys (Put kb vb s k v cb).1.t1_ := fun hh => hnot (Or.inl hh)
      have c2 : x.1 ∉ keys (Put kb vb s k v cb).1.t2_ := fun hh => hnot (Or.inr hh)
      refine ⟨Or.inl hmem, b2, b3, c1, c2, ?_⟩
      rw [Get_of_miss vb _ x.1 (T_Find_eq_none.mpr c1) (T_Find_eq_none.mpr c2)]
    · rw [h] at hx
      have hxe := mem_cbCalls hx
      subst hxe
      have hmem : x ∈ s.t2_ := by rw [he]; exact List.mem_cons_self _ _
      have hkm := mem_keys_of_mem hmem
      obtain ⟨b2, b3⟩ := d2 x.1 hkm
      have hnot : ¬ (x.1 ∈ keys (Put kb vb s k v cb).1.t1_ ∨
          x.1 ∈ keys (Put kb vb s k v cb).1.t2_) := by
        rw [hP]
        rintro (h1 | h1 | h1)
        · exact (d1 x.1 h1).1 hkm
        · rw [he, keys_cons, List.nodup_cons] at n2
          exact n2.1 h1
        · exact hk2 (h1 ▸ hkm)
      have c1 : x.1 ∉ keys (Put kb vb s k v cb).1.t1_ := fun hh => hnot (Or.inl hh)
      have c2 : x.1 ∉ keys (Put kb vb s k v cb).1.t2_ := fun hh => hnot (Or.inr hh)
      refine ⟨Or.inr hmem, b2, b3, c1, c2, ?_⟩
      rw [Get_of_miss vb _ x.1 (T_Find_eq_none.mpr c1) (T_Find_eq_none.mpr c2)]
  · intro hcb x hx c1 c2
    obtain ⟨f, rfl⟩ := Option.isSome_iff_exists.mp hcb
    rcases Put_resident_cases kb vb s k v (some f) with ⟨_, h⟩ | ⟨e, rest, he, h, _, _, hP⟩ |
      ⟨e, rest, he, h, _, _, hP⟩
    · exfalso
      rcases h x.1 (hx.elim (fun a => Or.inl (mem_keys_of_mem a))
        (fun a => Or.inr (mem_keys_of_mem a))) with a | a
      · exact c1 a
      · exact c2 a
    · rw [h]
      have hnot : ¬ (x.1 ∈ keys rest ∨ x.1 ∈ keys s.t2_ ∨ x.1 = k) := by
        rw [← hP]; exact fun hh => hh.elim c1 c2
      rcases hx with hx | hx
      · rw [he] at hx
        rcases List.mem_cons.mp hx with hx | hx
        · subst hx; rfl
        · exact absurd (Or.inl (mem_keys_of_mem hx)) hnot
      · exact absurd (Or.inr (Or.inl (mem_keys_of_mem hx))) hnot
    · rw [h]
      have hnot : ¬ (x.1 ∈ keys s.t1_ ∨ x.1 ∈ keys rest ∨ x.1 = k) := by
        rw [← hP]; exact fun hh => hh.elim c1 c2
      rcases hx with hx | hx
      · exact absurd (Or.inl (mem_keys_of_mem hx)) hnot
      · rw [he] at hx
        rcases List.mem_cons.mp hx with hx | hx
        · subst hx; rfl
        · exact absurd (Or.inr (Or.inl (mem_keys_of_mem hx))) hnot

end Callback

section Bytes
variable {K V : Type} [DecidableEq K]

theorem add_bytes_ok {c S : Nat} (x : Nat) (h : c = S % sizeMod) :
    UpdateAddToCacheBytes x c = (S + x) % sizeMod := by
  unfold UpdateAddToCacheBytes
  rw [h, Nat.mod_add_mod]

theorem add_bytes_mod_ok {c S : Nat} (x : Nat) (h : c = S % sizeMod) :
    UpdateAddToCacheBytes (x % sizeMod) c = (S + x) % sizeMod := by
  unfold UpdateAddToCacheBytes
  rw [h, ← Nat.add_mod]

theorem remove_bytes_ok {c S : Nat} (x : Nat) (h : c = (S + x) % sizeMod) :
    UpdateRemoveFromCacheBytes x c = S % sizeMod := by
  unfold UpdateRemoveFromCacheBytes
  rw [h]
  simp only [sizeMod]
  norm_num
  omega

theorem remove_bytes_mod_ok {c S : Nat} (x : Nat) (h : c = (S + x) % sizeMod) :
    UpdateRemoveFromCacheBytes (x % sizeMod) c = S % sizeMod := by
  unfold UpdateRemoveFromCacheBytes
  rw [h]
  simp only [sizeMod]
  norm_num
  omega

theorem resize_ok (vb : V → Nat) {c S : Nat} (old new : V) (h : c = (S + vb old) % sizeMod) :
    resize vb old new c = (S + vb new) % sizeMod := by
  unfold resize
  split_ifs with hne
  · exact add_bytes_ok _ (remove_bytes_ok _ h)
  · have : vb old = vb new := by simpa using hne
    rw [h, this]

theorem sum_map_eraseP (g : K × V → Nat) {t : List (K × V)} {k : K} {e : K × V}
    (h : T.Find t k = some e) :
    ((t.eraseP (fun x => x.1 == k)).map g).sum + g e = (t.map g).sum := by
  induction t with
  | nil => simp [T.Find] at h
  | cons a t ih =>
    by_cases hk : a.1 = k
    · have : e = a := by
        simp [T.Find, List.find?_cons, hk] at h
        exact h.symm
      subst this
      simp [List.eraseP_cons, hk]
      omega
    · have h2 : (a.1 == k) = false := by simpa using hk
      have h3 : T.Find t k = some e := by
        unfold T.Find at h ⊢
        rw [List.find?_cons, h2] at h
        exact h
      have := ih h3
      simp only [List.eraseP_cons, h2, List.map_cons, List.sum_cons]
      simp only [cond_false, List.map_cons, List.sum_cons]
      omega

theorem sum_map_erase_key (g : K → Nat) {b : List K} {k : K} (h : k ∈ b) :
    ((b.erase k).map g).sum + g k = (b.map g).sum := by
  have := List.sum_map_erase g h
  omega

theorem sum_map_append_one {α : Type} (g : α → Nat) (l : List α) (x : α) :
    ((l ++ [x]).map g).sum = (l.map g).sum + g x := by
  simp

@[simp] theorem byteSum_IncreaseP (kb : K → Nat) (vb : V → Nat) (s : ARC K V) (d : Nat) :
    byteSum kb vb (IncreaseP s d) = byteSum kb vb s := by
  simp [byteSum]

@[simp] theorem byteSum_DecreaseP (kb : K → Nat) (vb : V → Nat) (s : ARC K V) (d : Nat) :
    byteSum kb vb (DecreaseP s d) = byteSum kb vb s := by
  simp [byteSum]

theorem Replace_BytesOk (kb : K → Nat) (vb : V → Nat) (s : ARC K V) (k : K)
    (cb : EvictionCB K V) (h : BytesOk kb vb s) : BytesOk kb vb (Replace kb vb s k cb).1 := by
  unfold BytesOk at h ⊢
  rcases Replace_spec kb vb s k cb with ⟨h1, _⟩ | ⟨_, e, rest, he, h1⟩ | ⟨_, e, rest, he, h1⟩
  · rw [h1]; exact h
  · rw [h1]
    apply remove_bytes_ok
    rw [h]
    congr 1
    simp only [byteSum, he, List.map_cons, List.sum_cons, sum_map_append_one]
    omega
  · rw [h1]
    apply remove_bytes_ok
    rw [h]
    congr 1
    simp only [byteSum, he, List.map_cons, List.sum_cons, sum_map_append_one]
    omega

theorem B_RemoveLRU_bytes (kb : K → Nat) (b : List K) {c S : Nat}
    (h : c = (S + (b.map kb).sum) % sizeMod) :
    (B.RemoveLRU kb b true c).2 = (S + ((B.RemoveLRU kb b true c).1.map kb).sum) % sizeMod := by
  cases b with
  | nil => simpa [B.RemoveLRU] using h
  | cons x rest =>
    simp only [B.RemoveLRU, if_true]
    apply remove_bytes_ok
    rw [h]
    congr 1
    simp only [List.map_cons, List.sum_cons]
    omega

theorem T_RemoveLRU_bytes (kb : K → Nat) (vb : V → Nat) (t : List (K × V))
    (cb : EvictionCB K V) (hcb : ∀ f, cb = some f → ∀ k v, vb (f k v) = vb v) {c S : Nat}
    (h : c = (S + (t.map (fun e => kb e.1 + vb e.2)).sum) % sizeMod) :
    (T.RemoveLRU kb vb t cb true c).2.1 =
      (S + ((T.RemoveLRU kb vb t cb true c).1.map (fun e => kb e.1 + vb e.2)).sum) %
        sizeMod := by
  rcases t with _ | ⟨⟨k, v⟩, rest⟩
  · simpa [T.RemoveLRU] using h
  · cases cb with
    | none =>
      simp only [T.RemoveLRU, if_true]
      apply remove_bytes_mod_ok
      rw [h]
      congr 1
      simp only [List.map_cons, List.sum_cons]
      omega
    | some f =>
      simp only [T.RemoveLRU, if_true, hcb f rfl k v]
      apply remove_bytes_mod_ok
      rw [h]
      congr 1
      simp only [List.map_cons, List.sum_cons]
      omega

theorem dropB1_BytesOk (kb : K → Nat) (vb : V → Nat) (s : ARC K V) (h : BytesOk kb vb s) :
    BytesOk kb vb { s with b1_ := (B.RemoveLRU kb s.b1_ true s.cached_bytes_).1,
                           cached_bytes_ := (B.RemoveLRU kb s.b1_ true s.cached_bytes_).2 } := by
  unfold BytesOk at h ⊢
  have := B_RemoveLRU_bytes kb s.b1_ (c := s.cached_bytes_)
    (S := (s.b2_.map kb).sum + (s.t1_.map (fun e => kb e.1 + vb e.2)).sum +
      (s.t2_.map (fun e => kb e.1 + vb e.2)).sum)
    (by rw [h]; congr 1; simp only [byteSum]; omega)
  dsimp only
  rw [this]
  congr 1
  simp only [byteSum]
  omega

theorem dropB2_BytesOk (kb : K → Nat) (vb : V → Nat) (s : ARC K V) (h : BytesOk kb vb s) :
    BytesOk kb vb { s with b2_ := (B.RemoveLRU kb s.b2_ true s.cached_bytes_).1,
                           cached_bytes_ := (B.RemoveLRU kb s.b2_ true s.cached_bytes_).2 } := by
  unfold BytesOk at h ⊢
  have := B_RemoveLRU_bytes kb s.b2_ (c := s.cached_bytes_)
    (S := (s.b1_.map kb).sum + (s.t1_.map (fun e => kb e.1 + vb e.2)).sum +
      (s.t2_.map (fun e => kb e.1 + vb e.2)).sum)
    (by rw [h]; congr 1; simp only [byteSum]; omega)
  dsimp only
  rw [this]
  congr 1
  simp only [byteSum]
  omega

theorem dropT1_BytesOk (kb : K → Nat) (vb : V → Nat) (s : ARC K V) (cb : EvictionCB K V)
    (hcb : ∀ f, cb = some f → ∀ k v, vb (f k v) = vb v) (h : BytesOk kb vb s) :
    BytesOk kb vb
      { s with t1_ := (T.RemoveLRU kb vb s.t1_ cb true s.cached_bytes_).1,
               cached_bytes_ := (T.RemoveLRU kb vb s.t1_ cb true s.cached_bytes_).2.1 } := by
  unfold BytesOk at h ⊢
  have := T_RemoveLRU_bytes kb vb s.t1_ cb hcb (c := s.cached_bytes_)
    (S := (s.b1_.map kb).sum + (s.b2_.map kb).sum +
      (s.t2_.map (fun e => kb e.1 + vb e.2)).sum)
    (by rw [h]; congr 1; simp only [byteSum]; omega)
  dsimp only
  rw [this]
  congr 1
  simp only [byteSum]
  omega

theorem makeRoom_BytesOk (kb : K → Nat) (vb : V → Nat) (s : ARC K V) (k : K)
    (cb : EvictionCB K V) (hcb : ∀ f, cb = some f → ∀ k v, vb (f k v) = vb v)
    (h : BytesOk kb vb s) : BytesOk kb vb (makeRoom kb vb s k cb).1 := by
  unfold makeRoom
  dsimp only
  split_ifs
  · exact Replace_BytesOk kb vb _ k cb (dropB1_BytesOk kb vb s h)
  · exact dropT1_BytesOk kb vb s cb hcb h
  · exact Replace_BytesOk kb vb _ k cb (dropB2_BytesOk kb vb s h)
  · exact Replace_BytesOk kb vb _ k cb (dropB1_BytesOk kb vb s h)
  · exact Replace_BytesOk kb vb _ k cb h
  · exact h
  · exact h

theorem Put_BytesOk (kb : K → Nat) (vb : V → Nat) (s : ARC K V) (k : K) (v : V)
    (cb : EvictionCB K V) (hcb : ∀ f, cb = some f → ∀ k v, vb (f k v) = vb v)
    (hE : Exclusive s) (h : BytesOk kb vb s) : BytesOk kb vb (Put kb vb s k v cb).1 := by
  obtain ⟨_, n2, _, _, _, _, _⟩ := Exclusive_parts hE
  cases h1 : T.Find s.t1_ k with
  | some e =>
    have hsum := sum_map_eraseP (fun e => kb e.1 + vb e.2) h1
    dsimp only at hsum
    rw [Put_of_t1 kb vb s k v cb h1]
    unfold BytesOk at h ⊢
    simp only [OnCacheHit]
    rw [resize_ok vb e.2 v (S := byteSum kb vb s - vb e.2)
      (by rw [h]; congr 1; simp only [byteSum]; omega)]
    congr 1
    simp only [byteSum, sum_map_append_one]
    omega
  | none =>
    have hk1 := T_Find_eq_none.mp h1
    cases h2 : T.Find s.t2_ k with
    | some e =>
      have hsum := sum_map_eraseP (fun e => kb e.1 + vb e.2) h2
      dsimp only at hsum
      rw [Put_of_t2 kb vb s k v cb h1 h2]
      unfold BytesOk at h ⊢
      simp only [OnCacheHit]
      rw [resize_ok vb e.2 v (S := byteSum kb vb s - vb e.2)
        (by rw [h]; congr 1; simp only [byteSum]; omega),
        T_Touch_fst vb k (some v) true s.cached_bytes_ n2 h2]
      congr 1
      simp only [byteSum, sum_map_append_one, Option.getD_some]
      omega
    | none =>
      by_cases h3 : k ∈ s.b1_
      · rw [Put_of_b1 kb vb s k v cb h1 h2 h3]
        have hr := Replace_BytesOk kb vb
          (IncreaseP s (min 1 (s.b2_.length / s.b1_.length))) k cb
          (by unfold BytesOk at h ⊢; simpa using h)
        have hmem := Replace_b1_mem kb vb
          (IncreaseP s (min 1 (s.b2_.length / s.b1_.length))) k cb
          (show k ∈ (IncreaseP s (min 1 (s.b2_.length / s.b1_.length))).b1_ by simpa using h3)
        have hsum := sum_map_erase_key kb hmem
        generalize (Replace kb vb (IncreaseP s (min 1 (s.b2_.length / s.b1_.length))) k cb).1 = r
          at hr hsum ⊢
        unfold BytesOk at hr ⊢
        dsimp only
        rw [add_bytes_mod_ok (kb k + vb v) (remove_bytes_ok (S := byteSum kb vb r - kb k) (kb k)
          (by rw [hr]; congr 1; simp only [byteSum]; omega))]
        congr 1
        simp only [byteSum, sum_map_append_one]
        omega
      · by_cases h4 : k ∈ s.b2_
        · rw [Put_of_b2 kb vb s k v cb h1 h2 h3 h4]
          have hr := Replace_BytesOk kb vb
            (DecreaseP s (max 1 (s.b1_.length / s.b2_.length))) k cb
            (by unfold BytesOk at h ⊢; simpa using h)
          have hmem := Replace_b2_mem kb vb
            (DecreaseP s (max 1 (s.b1_.length / s.b2_.length))) k cb
            (show k ∈ (DecreaseP s (max 1 (s.b1_.length / s.b2_.length))).b2_ by
              simpa using h4)
          have hsum := sum_map_erase_key kb hmem
          generalize (Replace kb vb (DecreaseP s (max 1 (s.b1_.length / s.b2_.length))) k cb).1 = r
            at hr hsum ⊢
          unfold BytesOk at hr ⊢
          dsimp only
          rw [add_bytes_mod_ok (kb k + vb v) (remove_bytes_ok (S := byteSum kb vb r - kb k)
            (kb k) (by rw [hr]; congr 1; simp only [byteSum]; omega))]
          congr 1
          simp only [byteSum, sum_map_append_one]
          omega
        · rw [Put_of_miss kb vb s k v cb h1 h2 h3 h4]
          have hr := makeRoom_BytesOk kb vb s k cb hcb h
          generalize (makeRoom kb vb s k cb).1 = r at hr ⊢
          unfold BytesOk at hr ⊢
          dsimp only
          rw [add_bytes_mod_ok (kb k + vb v) hr]
          congr 1
          simp only [byteSum, sum_map_append_one]
          omega

theorem Get_BytesOk (kb : K → Nat) (vb : V → Nat) (s : ARC K V) (k : K)
    (hE : Exclusive s) (h : BytesOk kb vb s) : BytesOk kb vb (Get vb s k).1 := by
  obtain ⟨_, n2, _, _, _, _, _⟩ := Exclusive_parts hE
  unfold BytesOk at h ⊢
  cases h1 : T.Find s.t1_ k with
  | some e =>
    have hsum := sum_map_eraseP (fun e => kb e.1 + vb e.2) h1
    dsimp only at hsum
    rw [Get_of_t1 vb s k h1]
    simp only [OnCacheHit]
    rw [h]
    congr 1
    simp only [byteSum, sum_map_append_one]
    omega
  | none =>
    cases h2 : T.Find s.t2_ k with
    | some e =>
      have hsum := sum_map_eraseP (fun e => kb e.1 + vb e.2) h2
      dsimp only at hsum
      rw [Get_of_t2 vb s k h1 h2]
      simp only [OnCacheHit]
      rw [T_Touch_fst vb k none false s.cached_bytes_ n2 h2, h]
      congr 1
      simp only [byteSum, sum_map_append_one, Option.getD_none]
      omega
    | none =>
      rw [Get_of_miss vb s k h1 h2]
      exact h

theorem Remove_BytesOk (kb : K → Nat) (vb : V → Nat) (s : ARC K V) (k : K)
    (h : BytesOk kb vb s) : BytesOk kb vb (Remove kb vb s k) := by
  unfold BytesOk at h ⊢
  cases h1 : T.Find s.t1_ k with
  | some e =>
    have hsum := sum_map_eraseP (fun e => kb e.1 + vb e.2) h1
    dsimp only at hsum
    rw [Remove_of_t1 kb vb s k h1]
    dsimp only
    rw [remove_bytes_mod_ok (S := byteSum kb vb s - (kb e.1 + vb e.2)) (kb e.1 + vb e.2)
      (by rw [h]; congr 1; simp only [byteSum]; omega)]
    congr 1
    simp only [byteSum]
    omega
  | none =>
    cases h2 : T.Find s.t2_ k with
    | some e =>
      have hsum := sum_map_eraseP (fun e => kb e.1 + vb e.2) h2
      dsimp only at hsum
      rw [Remove_of_t2 kb vb s k h1 h2]
      dsimp only
      rw [remove_bytes_mod_ok (S := byteSum kb vb s - (kb e.1 + vb e.2)) (kb e.1 + vb e.2)
        (by rw [h]; congr 1; simp only [byteSum]; omega)]
      congr 1
      simp only [byteSum]
      omega
    | none =>
      by_cases h3 : k ∈ s.b1_
      · have hsum := sum_map_erase_key kb h3
        rw [Remove_of_b1 kb vb s k h1 h2 h3]
        dsimp only
        rw [remove_bytes_ok (S := byteSum kb vb s - kb k) (kb k)
          (by rw [h]; congr 1; simp only [byteSum]; omega)]
        congr 1
        simp only [byteSum]
        omega
      · by_cases h4 : k ∈ s.b2_
        · have hsum := sum_map_erase_key kb h4
          rw [Remove_of_b2 kb vb s k h1 h2 h3 h4]
          dsimp only
          rw [remove_bytes_ok (S := byteSum kb vb s - kb k) (kb k)
            (by rw [h]; congr 1; simp only [byteSum]; omega)]
          congr 1
          simp only [byteSum]
          omega
        · rw [Remove_of_absent kb vb s k h1 h2 h3 h4]
          exact h

theorem step_BytesOk (kb : K → Nat) (vb : V → Nat) (s : ARC K V) (op : Op K V)
    (hop : sizeKeeping vb op) (hE : Exclusive s) (h : BytesOk kb vb s) :
    BytesOk kb vb (step kb vb s op).1 := by
  cases op with
  | put k v cb =>
    refine Put_BytesOk kb vb s k v cb ?_ hE h
    intro f hf
    subst hf
    exact hop
  | get k => exact Get_BytesOk kb vb s k hE h
  | remove k => exact Remove_BytesOk kb vb s k h
  | clear => simp [step, Clear, BytesOk, byteSum]

/-- Byte accounting holds along every sequence of calls whose callbacks leave
the size of the value they are handed as it is (in particular along every
sequence without callbacks): the counter is the byte footprint of the four
lists in `size_t` arithmetic. -/
theorem run_BytesOk (kb : K → Nat) (vb : V → Nat) (ops : List (Op K V)) :
    ∀ s : ARC K V, (∀ op ∈ ops, sizeKeeping vb op) → Exclusive s → BytesOk kb vb s →
      BytesOk kb vb (run kb vb s ops) := by
  induction ops with
  | nil => intro s _ _ h; exact h
  | cons op rest ih =>
    intro s hops hE h
    exact ih _ (fun o ho => hops o (List.mem_cons_of_mem _ ho))
      (step_Exclusive kb vb s op hE)
      (step_BytesOk kb vb s op (hops op (List.mem_cons_self _ _)) hE h)

/-- Byte accounting on a new cache: along every sequence of calls whose
callbacks leave the size of the value they are handed as it is,
`CachedByteCount()` is the byte footprint of the four lists modulo
`2 ^ 64`. -/
theorem byte_accounting_of_sizeKeeping (kb : K → Nat) (vb : V → Nat) (c : Nat)
    (ops : List (Op K V)) (h : ∀ op ∈ ops, sizeKeeping vb op) :
    CachedByteCount (run kb vb (ARC.new c) ops) =
      byteSum kb vb (run kb vb (ARC.new c) ops) % sizeMod :=
  run_BytesOk kb vb ops _ h (new_Exclusive c) (by simp [BytesOk, byteSum, ARC.new])

end Bytes

section Concrete

theorem demoState_reachable : Reachable intBytes intBytes demoState :=
  ⟨3, [putInt 1, putInt 2, putInt 3, Op.get 1, putInt 4], rfl⟩

/-- Witness for C1: capacity 2 and five `Put` calls, one of them with a
callback. -/
theorem capacity_bound_of_puts_witness :
    1 ≤ 2 ∧
    (runPuts intBytes intBytes (ARC.new 2) (demoPuts.take 5)).t1_.length +
      (runPuts intBytes intBytes (ARC.new 2) (demoPuts.take 5)).t2_.length ≤ 2 ∧
    (runPuts intBytes intBytes (ARC.new 2) (demoPuts.take 5)).t1_.length +
      (runPuts intBytes intBytes (ARC.new 2) (demoPuts.take 5)).t2_.length +
      (runPuts intBytes intBytes (ARC.new 2) (demoPuts.take 5)).b1_.length +
      (runPuts intBytes intBytes (ARC.new 2) (demoPuts.take 5)).b2_.length ≤ 2 * 2 :=
  ⟨by decide, capacity_bound_of_puts intBytes intBytes 2 (by decide) demoPuts 5⟩

/-- Witness for C2: in the state `T1 = [3, 4]`, `T2 = [1]`, `B1 = [2]` of a
cache of capacity three, `Put(2, 7)` then `Get(2)` yields 7. -/
theorem put_get_roundtrip_witness :
    Reachable intBytes intBytes demoState ∧
    (Get intBytes (Put intBytes intBytes demoState 2 7 none).1 2).2 = some 7 :=
  ⟨demoState_reachable,
    put_get_roundtrip intBytes intBytes demoState demoState_reachable 2 7 none⟩

/-- Witness for C4: in the same state `Get(3)` moves the entry of 3 from `T1`
to the most recent end of `T2`. -/
theorem get_promotes_witness :
    Reachable intBytes intBytes demoState ∧ (3, 3) ∈ demoState.t1_ ∧
    (Get intBytes demoState 3).2 = some 3 ∧
    (Get intBytes demoState 3).1.t1_ = demoState.t1_.filter (fun e => !(e.1 == 3)) ∧
    (Get intBytes demoState 3).1.t2_ = demoState.t2_ ++ [(3, 3)] :=
  ⟨demoState_reachable, by decide,
    (get_promotes intBytes intBytes demoState demoState_reachable 3).2.1 3 (by decide)⟩

/-- Witness for C5: in the same state, a full cache, `Put(9, 9)` with a
callback makes at most one callback call, and `Remove(9)` makes none. -/
theorem eviction_callback_spec_witness :
    Reachable intBytes intBytes demoState ∧
    (Put intBytes intBytes demoState 9 9 (some (fun _ v => v))).2.length ≤ 1 ∧
    (step intBytes intBytes demoState (Op.remove 9)).2 = [] :=
  ⟨demoState_reachable,
    (eviction_callback_spec intBytes intBytes demoState demoState_reachable 9 9
      (some (fun _ v => v))).1,
    (eviction_callback_spec intBytes intBytes demoState demoState_reachable 9 9
      (some (fun _ v => v))).2.2.2.2.1⟩

/-- Witness for C7: in the same state `Remove(3)` takes 3 out of `T1`, and
`Remove(8)` of an absent key changes nothing. -/
theorem remove_spec_witness :
    Reachable intBytes intBytes demoState ∧
    (8 ∉ keys demoState.t1_ ∧ 8 ∉ keys demoState.t2_ ∧ 8 ∉ demoState.b1_ ∧
      8 ∉ demoState.b2_) ∧
    Remove intBytes intBytes demoState 8 = demoState ∧
    (Remove intBytes intBytes demoState 3).t1_ = demoState.t1_.filter (fun e => !(e.1 == 3)) ∧
    (Get intBytes (Remove intBytes intBytes demoState 3) 3).2 = none :=
  ⟨demoState_reachable, by decide,
    (remove_spec intBytes intBytes demoState demoState_reachable 8).1 (by decide),
    (remove_spec intBytes intBytes demoState demoState_reachable 3).2.2.1,
    (remove_spec intBytes intBytes demoState demoState_reachable 3).2.2.2.2.2.2.2.1⟩

/-- Witness for C10: the test `cache_evict`, capacity 5 and `Put(i, i)` for
`i = 0..4`: no callback call on the way into the empty cache, `Size()` is 5
afterwards and `Get(i)` yields `i` for each of the five keys. -/
theorem no_eviction_below_capacity_witness :
    ((ARC.new 5 : ARC Nat Nat).t1_.length + (ARC.new 5 : ARC Nat Nat).t2_.length <
        (ARC.new 5 : ARC Nat Nat).c_ ∧
      (Put intBytes intBytes (ARC.new 5) 0 0 none).2 = []) ∧
    ((fivePuts.map (fun p => p.1)).Nodup ∧ fivePuts.length ≤ 5 ∧
      Size (runPuts intBytes intBytes (ARC.new 5) fivePuts) = fivePuts.length ∧
      ((3, 3, none) ∈ fivePuts ∧
        (Get intBytes (runPuts intBytes intBytes (ARC.new 5) fivePuts) 3).2 = some 3)) ∧
    Size (runPuts intBytes intBytes (ARC.new 5) fivePuts) = 5 ∧
    fivePuts.map
        (fun p => (Get intBytes (runPuts intBytes intBytes (ARC.new 5) fivePuts) p.1).2) =
      [some 0, some 1, some 2, some 3, some 4] :=
  ⟨⟨by decide,
      ((no_eviction_below_capacity intBytes intBytes).1 (ARC.new 5) 0 0 none (by decide)).1⟩,
    ⟨by decide, by decide,
      ((no_eviction_below_capacity intBytes intBytes).2 5 fivePuts (by decide) (by decide)).1,
      by simp [fivePuts],
      ((no_eviction_below_capacity intBytes intBytes).2 5 fivePuts (by decide) (by decide)).2
        (3, 3, none) (by simp [fivePuts])⟩,
    by decide, by decide⟩

/-- C6 at its failing input: after `Put(1)`, `Put(2)`, `Put(1)`, `Put(3)`,
`Remove(1)`, `Put(4)`, `Put(5)` a cache of capacity two holds three resident
entries. -/
theorem resident_bound_broken_by_remove :
    Capacity (run intBytes intBytes (ARC.new 2) overflowOps) = 2 ∧
    Size (run intBytes intBytes (ARC.new 2) overflowOps) = 3 ∧
    (run intBytes intBytes (ARC.new 2) overflowOps).t1_ = [(3, 3), (4, 4), (5, 5)] ∧
    (run intBytes intBytes (ARC.new 2) overflowOps).t2_ = [] ∧
    (run intBytes intBytes (ARC.new 2) overflowOps).b1_ = [2] ∧
    (run intBytes intBytes (ARC.new 2) (overflowOps.take 5)).t1_ = [(3, 3)] ∧
    (run intBytes intBytes (ARC.new 2) (overflowOps.take 5)).t2_ = [] ∧
    (run intBytes intBytes (ARC.new 2) (overflowOps.take 5)).b1_ = [2] := by
  decide

/-- C8 at its failing input: capacity one, integer keys, string values and a
callback that takes the evicted value away.  After `Put(1, "abc")` and
`Put(2, "")` the counter reads 7 while the lists hold 4 bytes; with a callback
that writes ten bytes into the evicted value the counter wraps below zero. -/
theorem byte_count_broken_by_callback :
    CachedByteCount (run intBytes stringBytes (ARC.new 1) takeOps) = 7 ∧
    byteSum intBytes stringBytes (run intBytes stringBytes (ARC.new 1) takeOps) = 4 ∧
    CachedByteCount (run intBytes stringBytes (ARC.new 1) growOps) = 2 ^ 64 - 6 ∧
    byteSum intBytes stringBytes (run intBytes stringBytes (ARC.new 1) growOps) = 4 := by
  decide

end Concrete

section Construction
variable {K V : Type} [DecidableEq K]

theorem Put_new_zero (kb : K → Nat) (vb : V → Nat) (k : K) (v : V) (cb : EvictionCB K V) :
    (Put kb vb (ARC.new 0) k v cb).1.t1_ = [(k, v)] ∧
    (Put kb vb (ARC.new 0) k v cb).1.t2_ = [] := by
  have h := Put_of_miss kb vb (ARC.new 0 : ARC K V) k v cb (by simp [ARC.new, T.Find])
    (by simp [ARC.new, T.Find]) (by simp [ARC.new]) (by simp [ARC.new])
  rw [h]
  simp [makeRoom, ARC.new, IsCacheFull, T.RemoveLRU]

/-- C11, as amended.  The constructor makes no check: for every `max_count`,
zero included, it yields the empty cache with `Capacity() = max_count`, `p`
and all counters zero; and the cache of capacity zero is usable: `Put(k, v)`
stores the entry, `Size()` becomes 1, and `Get(k)` yields `v`. -/
theorem constructor_accepts_every_capacity (kb : K → Nat) (vb : V → Nat) (max_count : Nat)
    (k : K) (v : V) (cb : EvictionCB K V) :
    Capacity (ARC.new max_count : ARC K V) = max_count ∧
    Size (ARC.new max_count : ARC K V) = 0 ∧
    ARCSize (ARC.new max_count : ARC K V) = { b1 := 0, t1 := 0, b2 := 0, t2 := 0 } ∧
    (ARC.new max_count : ARC K V).p_ = 0 ∧
    CachedByteCount (ARC.new max_count : ARC K V) = 0 ∧
    HitCount (ARC.new max_count : ARC K V) = 0 ∧
    MissCount (ARC.new max_count : ARC K V) = 0 ∧
    Size (Put kb vb (ARC.new 0) k v cb).1 = 1 ∧
    (Get vb (Put kb vb (ARC.new 0) k v cb).1 k).2 = some v := by
  obtain ⟨h1, h2⟩ := Put_new_zero kb vb k v cb
  refine ⟨rfl, rfl, rfl, rfl, rfl, rfl, rfl, ?_, ?_⟩
  · simp [Size, h1, h2]
  · exact Get_val_t1 vb _ k (x := k) (by rw [h1]; simp [T.Find])

/-- C12. The body of `Clear`, with its four calls resolved to the declared
`Clear()` members, resets every state to the new cache of the same
capacity: all four lists empty, `p`, byte count, hit count and miss count
zero, capacity kept. -/
theorem clear_as_declared_resets (s : ARC K V) :
    Clear s = ARC.new (Capacity s) ∧
    Size (Clear s) = 0 ∧
    ARCSize (Clear s) = { b1 := 0, t1 := 0, b2 := 0, t2 := 0 } ∧
    (Clear s).t1_ = [] ∧ (Clear s).t2_ = [] ∧ (Clear s).b1_ = [] ∧ (Clear s).b2_ = [] ∧
    (Clear s).p_ = 0 ∧ CachedByteCount (Clear s) = 0 ∧ HitCount (Clear s) = 0 ∧
    MissCount (Clear s) = 0 ∧ Capacity (Clear s) = Capacity s :=
  ⟨rfl, rfl, rfl, rfl, rfl, rfl, rfl, rfl, rfl, rfl, rfl, rfl⟩

end Construction

/-- C11 as stated fails: the constructor accepts capacity zero and the cache
it yields is usable. -/
theorem capacity_zero_is_accepted :
    Capacity (ARC.new 0 : ARC Nat Nat) = 0 ∧
    Size (Put intBytes intBytes (ARC.new 0) 1 1 none).1 = 1 ∧
    (Get intBytes (Put intBytes intBytes (ARC.new 0) 1 1 none).1 1).2 = some 1 := by
  decide

/-- C13. The walkthrough of the test `cache_inspect` on a new cache of
capacity three, lists least recent first, entries as `(key, value)`: after
`Put` 1, 2, 3; then `Get(1)`; then `Put(4, 4)`; then `Put(2, 2)`; then
`Get(4)`; then `Put(3, 3)`.  Every resident value equals its key and the
final byte count is one key and three key and value pairs of four bytes
each. -/
theorem walkthrough :
    ((run intBytes intBytes (ARC.new 3) (walkOps.take 3)).t1_ = [(1, 1), (2, 2), (3, 3)] ∧
      (run intBytes intBytes (ARC.new 3) (walkOps.take 3)).t2_ = [] ∧
      (run intBytes intBytes (ARC.new 3) (walkOps.take 3)).b1_ = [] ∧
      (run intBytes intBytes (ARC.new 3) (walkOps.take 3)).b2_ = []) ∧
    ((run intBytes intBytes (ARC.new 3) (walkOps.take 4)).t1_ = [(2, 2), (3, 3)] ∧
      (run intBytes intBytes (ARC.new 3) (walkOps.take 4)).t2_ = [(1, 1)] ∧
      (run intBytes intBytes (ARC.new 3) (walkOps.take 4)).b1_ = [] ∧
      (run intBytes intBytes (ARC.new 3) (walkOps.take 4)).b2_ = []) ∧
    ((run intBytes intBytes (ARC.new 3) (walkOps.take 5)).b1_ = [2] ∧
      (run intBytes intBytes (ARC.new 3) (walkOps.take 5)).t1_ = [(3, 3), (4, 4)] ∧
      (run intBytes intBytes (ARC.new 3) (walkOps.take 5)).t2_ = [(1, 1)] ∧
      (run intBytes intBytes (ARC.new 3) (walkOps.take 5)).b2_ = []) ∧
    ((run intBytes intBytes (ARC.new 3) (walkOps.take 6)).b1_ = [3] ∧
      (run intBytes intBytes (ARC.new 3) (walkOps.take 6)).t1_ = [(4, 4)] ∧
      (run intBytes intBytes (ARC.new 3) (walkOps.take 6)).t2_ = [(1, 1), (2, 2)] ∧
      (run intBytes intBytes (ARC.new 3) (walkOps.take 6)).b2_ = []) ∧
    ((run intBytes intBytes (ARC.new 3) (walkOps.take 7)).b1_ = [3] ∧
      (run intBytes intBytes (ARC.new 3) (walkOps.take 7)).t1_ = [] ∧
      (run intBytes intBytes (ARC.new 3) (walkOps.take 7)).t2_ = [(1, 1), (2, 2), (4, 4)] ∧
      (run intBytes intBytes (ARC.new 3) (walkOps.take 7)).b2_ = []) ∧
    ((run intBytes intBytes (ARC.new 3) walkOps).b1_ = [] ∧
      (run intBytes intBytes (ARC.new 3) walkOps).t1_ = [] ∧
      (run intBytes intBytes (ARC.new 3) walkOps).t2_ = [(2, 2), (4, 4), (3, 3)] ∧
      (run intBytes intBytes (ARC.new 3) walkOps).b2_ = [1]) ∧
    GetKeysOfQ (run intBytes intBytes (ARC.new 3) walkOps) ARCQId.T2 = [2, 4, 3] ∧
    GetValuesOfQ (run intBytes intBytes (ARC.new 3) walkOps) ARCQId.T2 = [2, 4, 3] ∧
    CachedByteCount (run intBytes intBytes (ARC.new 3) walkOps) = 1 * 4 + 3 * (4 + 4) := by
  decide

section Target
variable {K V : Type} [DecidableEq K]

theorem IncreaseP_p (s : ARC K V) (d : Nat) :
    (IncreaseP s d).p_ =
      if s.t1_.length + s.t2_.length = s.c_ then
        (if d > s.c_ - s.p_ then s.c_ else s.p_ + d)
      else s.p_ := by
  unfold IncreaseP IsCacheFull
  by_cases h : s.t1_.length + s.t2_.length = s.c_
  · by_cases h2 : d > s.c_ - s.p_ <;> simp [h, h2]
  · simp [h]

theorem DecreaseP_p (s : ARC K V) (d : Nat) :
    (DecreaseP s d).p_ =
      if s.t1_.length + s.t2_.length = s.c_ then s.p_ - d else s.p_ := by
  unfold DecreaseP IsCacheFull
  by_cases h : s.t1_.length + s.t2_.length = s.c_
  · by_cases h2 : d > s.p_
    · simp [h, h2]; omega
    · simp [h, h2]
  · simp [h]

/-- The target and the capacity after `Put`, in every state. -/
theorem Put_p (kb : K → Nat) (vb : V → Nat) (s : ARC K V) (k : K) (v : V)
    (cb : EvictionCB K V) :
    (Put kb vb s k v cb).1.c_ = s.c_ ∧
    (Put kb vb s k v cb).1.p_ =
      if k ∈ keys s.t1_ ∨ k ∈ keys s.t2_ then s.p_
      else if k ∈ s.b1_ then (IncreaseP s (min 1 (s.b2_.length / s.b1_.length))).p_
      else if k ∈ s.b2_ then (DecreaseP s (max 1 (s.b1_.length / s.b2_.length))).p_
      else s.p_ := by
  cases h1 : T.Find s.t1_ k with
  | some e =>
    have hk : k ∈ keys s.t1_ := T_Find_isSome.mp (by simp [h1])
    rw [Put_of_t1 kb vb s k v cb h1]
    simp [OnCacheHit, hk]
  | none =>
    have hk1 := T_Find_eq_none.mp h1
    cases h2 : T.Find s.t2_ k with
    | some e =>
      have hk : k ∈ keys s.t2_ := T_Find_isSome.mp (by simp [h2])
      rw [Put_of_t2 kb vb s k v cb h1 h2]
      simp [OnCacheHit, hk]
    | none =>
      have hk2 := T_Find_eq_none.mp h2
      by_cases h3 : k ∈ s.b1_
      · rw [Put_of_b1 kb vb s k v cb h1 h2 h3]
        obtain ⟨a, b, _, _⟩ := Replace_ghosts kb vb
          (IncreaseP s (min 1 (s.b2_.length / s.b1_.length))) k cb
        simp only [IncreaseP_c] at a
        simp [hk1, hk2, h3, a, b]
      · by_cases h4 : k ∈ s.b2_
        · rw [Put_of_b2 kb vb s k v cb h1 h2 h3 h4]
          obtain ⟨a, b, _, _⟩ := Replace_ghosts kb vb
            (DecreaseP s (max 1 (s.b1_.length / s.b2_.length))) k cb
          simp only [DecreaseP_c] at a
          simp [hk1, hk2, h3, h4, a, b]
        · rw [Put_of_miss kb vb s k v cb h1 h2 h3 h4]
          obtain ⟨a, b, _, _⟩ := makeRoom_counters kb vb s k cb
          simp [hk1, hk2, h3, h4, a, b]

theorem Get_p (vb : V → Nat) (s : ARC K V) (k : K) :
    (Get vb s k).1.c_ = s.c_ ∧ (Get vb s k).1.p_ = s.p_ := by
  cases h1 : T.Find s.t1_ k with
  | some e => rw [Get_of_t1 vb s k h1]; exact ⟨rfl, rfl⟩
  | none =>
    cases h2 : T.Find s.t2_ k with
    | some e => rw [Get_of_t2 vb s k h1 h2]; exact ⟨rfl, rfl⟩
    | none => rw [Get_of_miss vb s k h1 h2]; exact ⟨rfl, rfl⟩

theorem Remove_p (kb : K → Nat) (vb : V → Nat) (s : ARC K V) (k : K) :
    (Remove kb vb s k).c_ = s.c_ ∧ (Remove kb vb s k).p_ = s.p_ := by
  unfold Remove
  dsimp only
  split_ifs <;> exact ⟨rfl, rfl⟩

theorem step_p_le (kb : K → Nat) (vb : V → Nat) (s : ARC K V) (op : Op K V)
    (h : s.p_ ≤ s.c_) :
    (step kb vb s op).1.c_ = s.c_ ∧ (step kb vb s op).1.p_ ≤ s.c_ := by
  cases op with
  | put k v cb =>
    obtain ⟨a, b⟩ := Put_p kb vb s k v cb
    refine ⟨a, ?_⟩
    simp only [step]
    rw [b, IncreaseP_p, DecreaseP_p]
    split_ifs <;> omega
  | get k =>
    obtain ⟨a, b⟩ := Get_p vb s k
    exact ⟨a, by simp only [step]; rw [b]; exact h⟩
  | remove k =>
    obtain ⟨a, b⟩ := Remove_p kb vb s k
    exact ⟨a, by simp only [step]; rw [b]; exact h⟩
  | clear => exact ⟨rfl, Nat.zero_le _⟩

theorem run_p_le (kb : K → Nat) (vb : V → Nat) (ops : List (Op K V)) :
    ∀ s : ARC K V, s.p_ ≤ s.c_ →
      (run kb vb s ops).c_ = s.c_ ∧ (run kb vb s ops).p_ ≤ s.c_ := by
  induction ops with
  | nil => intro s h; exact ⟨rfl, h⟩
  | cons op rest ih =>
    intro s h
    obtain ⟨a, b⟩ := step_p_le kb vb s op h
    obtain ⟨c, d⟩ := ih (step kb vb s op).1 (by rw [a]; exact b)
    exact ⟨by rw [run, c, a], by rw [run]; rw [a] at d; exact d⟩

theorem Reachable_p_le {kb : K → Nat} {vb : V → Nat} {s : ARC K V}
    (h : Reachable kb vb s) : s.p_ ≤ s.c_ := by
  obtain ⟨c, ops, rfl⟩ := h
  obtain ⟨a, b⟩ := run_p_le kb vb ops (ARC.new c : ARC K V) (Nat.zero_le _)
  rw [a]; exact b

/-- C14. Target size invariant.  After every call of every sequence of
`Put`, `Get`, `Remove` and `Clear` calls on a new cache of any capacity `c`
the target satisfies `0 ≤ p ≤ c`; and in every state whose resident count
differs from the capacity, `Put`, `Get` and `Remove` leave `p` as it is. -/
theorem target_size_invariant (kb : K → Nat) (vb : V → Nat) :
    (∀ (c : Nat) (ops : List (Op K V)) (n : Nat),
      0 ≤ (run kb vb (ARC.new c) (ops.take n)).p_ ∧
      (run kb vb (ARC.new c) (ops.take n)).p_ ≤ c) ∧
    (∀ (s : ARC K V) (k : K) (v : V) (cb : EvictionCB K V),
      s.t1_.length + s.t2_.length ≠ s.c_ →
      (Put kb vb s k v cb).1.p_ = s.p_ ∧ (Get vb s k).1.p_ = s.p_ ∧
      (Remove kb vb s k).p_ = s.p_) := by
  constructor
  · intro c ops n
    exact ⟨Nat.zero_le _, (run_p_le kb vb (ops.take n) (ARC.new c : ARC K V) (Nat.zero_le _)).2⟩
  · intro s k v cb h
    refine ⟨?_, (Get_p vb s k).2, (Remove_p kb vb s k).2⟩
    rw [(Put_p kb vb s k v cb).2, IncreaseP_p, DecreaseP_p]
    simp [h]

/-- C16. Adaptation formulas, in every state a cache reaches with
`|T1| + |T2| = c`, list sizes taken before the call and with floor division:
a `Put` of a key in `B1` sets `p` to `min(c, p + min(1, |B2| / |B1|))`, a
`Put` of a key in `B2` sets `p` to `max(0, p - max(1, |B1| / |B2|))`, and a
`Put` of a key that is resident or in no list, every `Get` and every `Remove`
leave `p` as it is. -/
theorem adaptation_formulas (kb : K → Nat) (vb : V → Nat) (s : ARC K V)
    (hs : Reachable kb vb s) (hfull : s.t1_.length + s.t2_.length = s.c_)
    (k : K) (v : V) (cb : EvictionCB K V) :
    (k ∈ s.b1_ →
      (Put kb vb s k v cb).1.p_ = min s.c_ (s.p_ + min 1 (s.b2_.length / s.b1_.length))) ∧
    (k ∈ s.b2_ →
      ((Put kb vb s k v cb).1.p_ : Int) =
        max 0 ((s.p_ : Int) - ((max 1 (s.b1_.length / s.b2_.length) : Nat) : Int))) ∧
    ((k ∈ keys s.t1_ ∨ k ∈ keys s.t2_) ∨
        (k ∉ keys s.t1_ ∧ k ∉ keys s.t2_ ∧ k ∉ s.b1_ ∧ k ∉ s.b2_) →
      (Put kb vb s k v cb).1.p_ = s.p_) ∧
    (Get vb s k).1.p_ = s.p_ ∧
    (Remove kb vb s k).p_ = s.p_ := by
  have hp := Reachable_p_le hs
  obtain ⟨_, _, _, _, d1, d2, d3⟩ := Exclusive_parts (Reachable_Exclusive hs)
  have hput := (Put_p kb vb s k v cb).2
  refine ⟨?_, ?_, ?_, (Get_p vb s k).2, (Remove_p kb vb s k).2⟩
  · intro hb
    have hres : ¬ (k ∈ keys s.t1_ ∨ k ∈ keys s.t2_) := by
      rintro (h | h)
      · exact (d1 k h).2.1 hb
      · exact (d2 k h).1 hb
    rw [hput, if_neg hres, if_pos hb, IncreaseP_p, if_pos hfull]
    generalize min 1 (s.b2_.length / s.b1_.length) = d
    split_ifs <;> omega
  · intro hb
    have hres : ¬ (k ∈ keys s.t1_ ∨ k ∈ keys s.t2_) := by
      rintro (h | h)
      · exact (d1 k h).2.2 hb
      · exact (d2 k h).2 hb
    have hb1 : k ∉ s.b1_ := fun h => d3 k h hb
    rw [hput, if_neg hres, if_neg hb1, if_pos hb, DecreaseP_p, if_pos hfull]
    generalize max 1 (s.b1_.length / s.b2_.length) = d
    omega
  · rintro (h | ⟨h1, h2, h3, h4⟩)
    · rw [hput, if_pos h]
    · rw [hput, if_neg (fun hh => hh.elim h1 h2), if_neg h3, if_neg h4]

/-- The effect of a `B1` hit on the target in a full cache: `p` never
shrinks, and it grows exactly when it is below the capacity and `B2` is at
least as long as `B1`. -/
theorem b1_hit_target (kb : K → Nat) (vb : V → Nat) (s : ARC K V)
    (hs : Reachable kb vb s) (hfull : s.t1_.length + s.t2_.length = s.c_)
    (k : K) (v : V) (cb : EvictionCB K V) (hb : k ∈ s.b1_) :
    s.p_ ≤ (Put kb vb s k v cb).1.p_ ∧
    (s.p_ < (Put kb vb s k v cb).1.p_ ↔ s.p_ < s.c_ ∧ s.b1_.length ≤ s.b2_.length) := by
  have hp := Reachable_p_le hs
  obtain ⟨_, _, _, _, d1, d2, _⟩ := Exclusive_parts (Reachable_Exclusive hs)
  have hres : ¬ (k ∈ keys s.t1_ ∨ k ∈ keys s.t2_) := by
    rintro (h | h)
    · exact (d1 k h).2.1 hb
    · exact (d2 k h).1 hb
  have hpos : 0 < s.b1_.length := List.length_pos_of_mem hb
  have hdiv : s.b2_.length / s.b1_.length = 0 ↔ s.b2_.length < s.b1_.length :=
    Nat.div_eq_zero_iff hpos
  rw [(Put_p kb vb s k v cb).2, if_neg hres, if_pos hb, IncreaseP_p, if_pos hfull]
  generalize s.b2_.length / s.b1_.length = q at hdiv
  have hmin : min 1 q = if q = 0 then 0 else 1 := by
    split_ifs with h0 <;> omega
  rw [hmin]
  constructor
  · split_ifs <;> omega
  · split_ifs <;> omega

end Target

section ReplaceRule
variable {K V : Type} [DecidableEq K]

theorem list_nil_or_cons {α : Type} (l : List α) : l = [] ∨ ∃ e rest, l = e :: rest := by
  cases l <;> simp

/-- C18. The decision rule of `Replace`, in every state and for every
incoming key `k`.  With `c ≥ 1` and `|T1| + |T2| = c` exactly one resident
entry leaves and its key becomes the most recent ghost of a ghost list, all
else in the four lists staying as it is (its value bytes leave the counter
and a supplied callback is told the entry): if `|T1| ≠ 0` and (`|T1| > p` or
(`|T1| = p` and `k` is in `B2`)) it is the least recent entry of `T1`, going
to `B1`; otherwise, if `|T2| > 0`, the least recent entry of `T2`, going to
`B2`; otherwise the least recent entry of `T1`, going to `B1`.  With
`|T1| + |T2| ≠ c` nothing changes. -/
theorem replace_decision_rule (kb : K → Nat) (vb : V → Nat) (s : ARC K V) (k : K)
    (cb : EvictionCB K V) :
    (s.t1_.length + s.t2_.length = s.c_ → 1 ≤ s.c_ →
      ((s.t1_.length ≠ 0 ∧ (s.t1_.length > s.p_ ∨ (s.t1_.length = s.p_ ∧ k ∈ s.b2_))) →
        ∃ e rest, s.t1_ = e :: rest ∧
          Replace kb vb s k cb =
            ({ s with t1_ := rest, b1_ := s.b1_ ++ [e.1],
                      cached_bytes_ := UpdateRemoveFromCacheBytes (vb e.2) s.cached_bytes_ },
              cbCalls cb e)) ∧
      (¬ (s.t1_.length ≠ 0 ∧ (s.t1_.length > s.p_ ∨ (s.t1_.length = s.p_ ∧ k ∈ s.b2_))) →
        0 < s.t2_.length →
        ∃ e rest, s.t2_ = e :: rest ∧
          Replace kb vb s k cb =
            ({ s with t2_ := rest, b2_ := s.b2_ ++ [e.1],
                      cached_bytes_ := UpdateRemoveFromCacheBytes (vb e.2) s.cached_bytes_ },
              cbCalls cb e)) ∧
      (¬ (s.t1_.length ≠ 0 ∧ (s.t1_.length > s.p_ ∨ (s.t1_.length = s.p_ ∧ k ∈ s.b2_))) →
        s.t2_.length = 0 →
        ∃ e rest, s.t1_ = e :: rest ∧
          Replace kb vb s k cb =
            ({ s with t1_ := rest, b1_ := s.b1_ ++ [e.1],
                      cached_bytes_ := UpdateRemoveFromCacheBytes (vb e.2) s.cached_bytes_ },
              cbCalls cb e))) ∧
    (s.t1_.length + s.t2_.length ≠ s.c_ → Replace kb vb s k cb = (s, [])) := by
  constructor
  · intro hfull hc
    have hf : IsCacheFull s = true := by simp [IsCacheFull, hfull]
    refine ⟨?_, ?_, ?_⟩
    · intro hcond
      rcases list_nil_or_cons s.t1_ with h1 | ⟨e, rest, h1⟩
      · exact absurd (by simp [h1]) hcond.1
      · refine ⟨e, rest, h1, ?_⟩
        rw [← Move_T_B_first kb vb s cb h1]
        have hc2 : (s.t1_.length != 0 &&
            (decide (s.t1_.length > s.p_) || (B.Find s.b2_ k && s.t1_.length == s.p_))) = true := by
          simp only [Bool.and_eq_true, Bool.or_eq_true, decide_eq_true_eq, bne_iff_ne,
            beq_iff_eq, B_Find_iff]
          exact ⟨hcond.1, hcond.2.imp id (fun h => ⟨h.2, h.1⟩)⟩
        simp only [Replace, hf, hc2, Bool.not_true, Bool.false_eq_true, if_false, if_true]
    · intro hcond ht2
      rcases list_nil_or_cons s.t2_ with h2 | ⟨e, rest, h2⟩
      · simp [h2] at ht2
      · refine ⟨e, rest, h2, ?_⟩
        rw [← Move_T_B_second kb vb s cb h2]
        have hc2 : ¬ (s.t1_.length != 0 &&
            (decide (s.t1_.length > s.p_) || (B.Find s.b2_ k && s.t1_.length == s.p_))) = true := by
          simp only [Bool.and_eq_true, Bool.or_eq_true, decide_eq_true_eq, bne_iff_ne,
            beq_iff_eq, B_Find_iff]
          exact fun h => hcond ⟨h.1, h.2.imp id (fun h => ⟨h.2, h.1⟩)⟩
        have hc3 : decide (s.t2_.length > 0) = true := by simpa using ht2
        simp only [Replace, hf, hc2, hc3, Bool.not_true, Bool.false_eq_true, if_false, if_true]
    · intro hcond ht2
      rcases list_nil_or_cons s.t1_ with h1 | ⟨e, rest, h1⟩
      · simp [h1] at hfull; omega
      · refine ⟨e, rest, h1, ?_⟩
        rw [← Move_T_B_first kb vb s cb h1]
        have hc2 : ¬ (s.t1_.length != 0 &&
            (decide (s.t1_.length > s.p_) || (B.Find s.b2_ k && s.t1_.length == s.p_))) = true := by
          simp only [Bool.and_eq_true, Bool.or_eq_true, decide_eq_true_eq, bne_iff_ne,
            beq_iff_eq, B_Find_iff]
          exact fun h => hcond ⟨h.1, h.2.imp id (fun h => ⟨h.2, h.1⟩)⟩
        have hc3 : ¬ decide (s.t2_.length > 0) = true := by simp [ht2]
        simp only [Replace, hf, hc2, hc3, Bool.not_true, Bool.false_eq_true, if_false, if_true]
  · intro hne
    have hf : IsCacheFull s = false := by simpa [IsCacheFull] using hne
    simp [Replace, hf]

end ReplaceRule

section GhostHit
variable {K V : Type} [DecidableEq K]

/-- The lists after a ghost hit, from the lists `r1 r2 g1 g2` that `Replace`
leaves: the key is the most recent entry of `T2`, it is in no ghost list, a
full cache stays full with one least recent resident entry turned into the
most recent ghost of its list, and nothing is displaced from a cache that is
not full. -/
theorem ghost_hit_lists (kb : K → Nat) (vb : V → Nat) (s a : ARC K V) (k : K) (v : V)
    (cb : EvictionCB K V) (hE : Exclusive s)
    (h1 : a.t1_ = s.t1_) (h2 : a.t2_ = s.t2_) (h3 : a.b1_ = s.b1_) (h4 : a.b2_ = s.b2_)
    (h5 : a.c_ = s.c_) (hk1 : k ∉ keys s.t1_) (hk2 : k ∉ keys s.t2_)
    (p1 p2 : List (K × V)) (q1 q2 : List K)
    (e1 : p1 = (Replace kb vb a k cb).1.t1_)
    (e2 : p2 = (Replace kb vb a k cb).1.t2_ ++ [(k, v)])
    (e3 : q1 = (Replace kb vb a k cb).1.b1_.erase k)
    (e4 : q2 = (Replace kb vb a k cb).1.b2_.erase k) :
    p2.getLast? = some (k, v) ∧ k ∉ q1 ∧ k ∉ q2 ∧
    (s.t1_.length + s.t2_.length = s.c_ → 1 ≤ s.c_ →
      p1.length + p2.length = s.c_ ∧
      ((∃ e rest, s.t1_ = e :: rest ∧ p1 = rest ∧ p2 = s.t2_ ++ [(k, v)] ∧
          q1 = s.b1_.erase k ++ [e.1] ∧ q2 = s.b2_.erase k) ∨
        (∃ e rest, s.t2_ = e :: rest ∧ p1 = s.t1_ ∧ p2 = rest ++ [(k, v)] ∧
          q1 = s.b1_.erase k ∧ q2 = s.b2_.erase k ++ [e.1]))) ∧
    (s.t1_.length + s.t2_.length ≠ s.c_ →
      p1 = s.t1_ ∧ p2 = s.t2_ ++ [(k, v)] ∧ q1 = s.b1_.erase k ∧ q2 = s.b2_.erase k) := by
  obtain ⟨n1, n2, n3, n4, d1, d2, d3⟩ := Exclusive_parts hE
  have hfa : IsCacheFull a = true ↔ s.t1_.length + s.t2_.length = s.c_ := by
    simp [IsCacheFull, h1, h2, h5]
  have erase_snoc : ∀ (l : List K) (x : K), x ≠ k → (l ++ [x]).erase k = l.erase k ++ [x] := by
    intro l x hx
    by_cases hm : k ∈ l
    · exact List.erase_append_left _ hm
    · rw [List.erase_append_right _ hm, List.erase_of_not_mem hm]
      congr 1
      exact List.erase_of_not_mem (by simpa using fun h => hx h.symm)
  rcases Replace_spec kb vb a k cb with ⟨hr, hemp⟩ | ⟨hf, e, rest, he, hr⟩ | ⟨hf, e, rest, he, hr⟩
  · rw [hr] at e1 e2 e3 e4
    simp only [h1, h2, h3, h4] at e1 e2 e3 e4
    rw [e1, e2, e3, e4]
    refine ⟨by simp, ?_, ?_, ?_, ?_⟩
    · exact fun h => (List.Nodup.mem_erase_iff n3).mp h |>.1 rfl
    · exact fun h => (List.Nodup.mem_erase_iff n4).mp h |>.1 rfl
    · intro hfull hc
      have := hemp (hfa.mpr hfull)
      rw [h1, h2] at this
      rw [this.1, this.2] at hfull
      simp at hfull
      omega
    · intro _
      exact ⟨rfl, rfl, rfl, rfl⟩
  · rw [hr] at e1 e2 e3 e4
    simp only [h1, h2, h3, h4] at e1 e2 e3 e4 he
    have hem : e.1 ∈ keys s.t1_ := by rw [he, keys_cons]; exact List.mem_cons_self _ _
    have hek : e.1 ≠ k := fun h => hk1 (h ▸ hem)
    have hnd : (s.b1_ ++ [e.1]).Nodup := by
      rw [List.nodup_append]
      refine ⟨n3, List.nodup_singleton _, ?_⟩
      intro x hx hx2
      rw [List.mem_singleton] at hx2
      exact (d1 e.1 hem).2.1 (hx2 ▸ hx)
    rw [e1, e2, e3, e4]
    refine ⟨by simp, ?_, ?_, ?_, ?_⟩
    · exact fun h => (List.Nodup.mem_erase_iff hnd).mp h |>.1 rfl
    · exact fun h => (List.Nodup.mem_erase_iff n4).mp h |>.1 rfl
    · intro hfull hc
      refine ⟨?_, Or.inl ⟨e, rest, he, rfl, rfl, erase_snoc _ _ hek, rfl⟩⟩
      rw [he] at hfull
      simp only [List.length_append, List.length_cons, List.length_nil] at hfull ⊢
      omega
    · intro hne
      exact absurd (hfa.mp hf) hne
  · rw [hr] at e1 e2 e3 e4
    simp only [h1, h2, h3, h4] at e1 e2 e3 e4 he
    have hem : e.1 ∈ keys s.t2_ := by rw [he, keys_cons]; exact List.mem_cons_self _ _
    have hek : e.1 ≠ k := fun h => hk2 (h ▸ hem)
    have hnd : (s.b2_ ++ [e.1]).Nodup := by
      rw [List.nodup_append]
      refine ⟨n4, List.nodup_singleton _, ?_⟩
      intro x hx hx2
      rw [List.mem_singleton] at hx2
      exact (d2 e.1 hem).2 (hx2 ▸ hx)
    rw [e1, e2, e3, e4]
    refine ⟨by simp, ?_, ?_, ?_, ?_⟩
    · exact fun h => (List.Nodup.mem_erase_iff n3).mp h |>.1 rfl
    · exact fun h => (List.Nodup.mem_erase_iff hnd).mp h |>.1 rfl
    · intro hfull hc
      refine ⟨?_, Or.inr ⟨e, rest, he, rfl, rfl, rfl, erase_snoc _ _ hek⟩⟩
      rw [he] at hfull
      simp only [List.length_append, List.length_cons, List.length_nil] at hfull ⊢
      omega
    · intro hne
      exact absurd (hfa.mp hf) hne

theorem Replace_b1_not_mem (kb : K → Nat) (vb : V → Nat) (a : ARC K V) (k : K)
    (cb : EvictionCB K V) {x : K} (h1 : x ∉ a.b1_) (h2 : x ∉ keys a.t1_) :
    x ∉ (Replace kb vb a k cb).1.b1_ := by
  rcases Replace_spec kb vb a k cb with ⟨hr, _⟩ | ⟨_, e, rest, he, hr⟩ | ⟨_, e, rest, he, hr⟩
  · rw [hr]; exact h1
  · rw [hr]
    simp only [List.mem_append, List.mem_singleton, not_or]
    refine ⟨h1, fun hx => h2 ?_⟩
    rw [he, keys_cons, hx]; exact List.mem_cons_self _ _
  · rw [hr]; exact h1

theorem Replace_b2_not_mem (kb : K → Nat) (vb : V → Nat) (a : ARC K V) (k : K)
    (cb : EvictionCB K V) {x : K} (h1 : x ∉ a.b2_) (h2 : x ∉ keys a.t2_) :
    x ∉ (Replace kb vb a k cb).1.b2_ := by
  rcases Replace_spec kb vb a k cb with ⟨hr, _⟩ | ⟨_, e, rest, he, hr⟩ | ⟨_, e, rest, he, hr⟩
  · rw [hr]; exact h1
  · rw [hr]; exact h1
  · rw [hr]
    simp only [List.mem_append, List.mem_singleton, not_or]
    refine ⟨h1, fun hx => h2 ?_⟩
    rw [he, keys_cons, hx]; exact List.mem_cons_self _ _

/-- C15. Ghost hit, in every state a cache reaches, for a key `k` in `B1` or
in `B2`: after `Put(k, v)` the key is the most recent entry of `T2` with
value `v` and is in no ghost list, the hit and miss counts are as before,
and the resident lists are those left by `Replace` (run after the
adaptation of `p`) with `(k, v)` appended to `T2`.  If the cache was full and
`c ≥ 1`, one resident entry, the least recent one of `T1` or of `T2`, became
the most recent ghost of `B1` respectively `B2` and `Size()` is still `c`;
if it was not full the resident lists only gained `(k, v)`. -/
theorem ghost_hit (kb : K → Nat) (vb : V → Nat) (s : ARC K V) (hs : Reachable kb vb s)
    (k : K) (v : V) (cb : EvictionCB K V) (hk : k ∈ s.b1_ ∨ k ∈ s.b2_) :
    (Put kb vb s k v cb).1.t2_.getLast? = some (k, v) ∧
    k ∉ (Put kb vb s k v cb).1.b1_ ∧ k ∉ (Put kb vb s k v cb).1.b2_ ∧
    HitCount (Put kb vb s k v cb).1 = HitCount s ∧
    MissCount (Put kb vb s k v cb).1 = MissCount s ∧
    (k ∈ s.b1_ →
      (Put kb vb s k v cb).1.t1_ =
        (Replace kb vb (IncreaseP s (min 1 (s.b2_.length / s.b1_.length))) k cb).1.t1_ ∧
      (Put kb vb s k v cb).1.t2_ =
        (Replace kb vb (IncreaseP s (min 1 (s.b2_.length / s.b1_.length))) k cb).1.t2_ ++
          [(k, v)]) ∧
    (k ∈ s.b2_ →
      (Put kb vb s k v cb).1.t1_ =
        (Replace kb vb (DecreaseP s (max 1 (s.b1_.length / s.b2_.length))) k cb).1.t1_ ∧
      (Put kb vb s k v cb).1.t2_ =
        (Replace kb vb (DecreaseP s (max 1 (s.b1_.length / s.b2_.length))) k cb).1.t2_ ++
          [(k, v)]) ∧
    (s.t1_.length + s.t2_.length = s.c_ → 1 ≤ s.c_ →
      (Put kb vb s k v cb).1.t1_.length + (Put kb vb s k v cb).1.t2_.length = s.c_ ∧
      ((∃ e rest, s.t1_ = e :: rest ∧ (Put kb vb s k v cb).1.t1_ = rest ∧
          (Put kb vb s k v cb).1.t2_ = s.t2_ ++ [(k, v)] ∧
          (Put kb vb s k v cb).1.b1_ = s.b1_.erase k ++ [e.1] ∧
          (Put kb vb s k v cb).1.b2_ = s.b2_.erase k) ∨
        (∃ e rest, s.t2_ = e :: rest ∧ (Put kb vb s k v cb).1.t1_ = s.t1_ ∧
          (Put kb vb s k v cb).1.t2_ = rest ++ [(k, v)] ∧
          (Put kb vb s k v cb).1.b1_ = s.b1_.erase k ∧
          (Put kb vb s k v cb).1.b2_ = s.b2_.erase k ++ [e.1]))) ∧
    (s.t1_.length + s.t2_.length ≠ s.c_ →
      (Put kb vb s k v cb).1.t1_ = s.t1_ ∧
      (Put kb vb s k v cb).1.t2_ = s.t2_ ++ [(k, v)] ∧
      (Put kb vb s k v cb).1.b1_ = s.b1_.erase k ∧
      (Put kb vb s k v cb).1.b2_ = s.b2_.erase k) := by
  have hE := Reachable_Exclusive hs
  obtain ⟨_, _, _, _, d1, d2, d3⟩ := Exclusive_parts hE
  have hk1 : k ∉ keys s.t1_ := by
    intro h
    rcases hk with hb | hb
    · exact (d1 k h).2.1 hb
    · exact (d1 k h).2.2 hb
  have hk2 : k ∉ keys s.t2_ := by
    intro h
    rcases hk with hb | hb
    · exact (d2 k h).1 hb
    · exact (d2 k h).2 hb
  have hres : ¬ (k ∈ keys s.t1_ ∨ k ∈ keys s.t2_) := fun h => h.elim hk1 hk2
  obtain ⟨hh, hm⟩ := Put_counters kb vb s k v cb
  rw [if_neg hres] at hh
  have f1 := T_Find_eq_none.mpr hk1
  have f2 := T_Find_eq_none.mpr hk2
  by_cases hb1 : k ∈ s.b1_
  · have hb2 : k ∉ s.b2_ := d3 k hb1
    have hput := Put_of_b1 kb vb s k v cb f1 f2 hb1
    have hnot := Replace_b2_not_mem kb vb
      (IncreaseP s (min 1 (s.b2_.length / s.b1_.length))) k cb
      (show k ∉ (IncreaseP s (min 1 (s.b2_.length / s.b1_.length))).b2_ by simpa using hb2)
      (show k ∉ keys (IncreaseP s (min 1 (s.b2_.length / s.b1_.length))).t2_ by simpa using hk2)
    obtain ⟨a, b, c, d, e⟩ := ghost_hit_lists kb vb s
      (IncreaseP s (min 1 (s.b2_.length / s.b1_.length))) k v cb hE
      (IncreaseP_t1 s _) (IncreaseP_t2 s _) (IncreaseP_b1 s _) (IncreaseP_b2 s _)
      (IncreaseP_c s _) hk1 hk2
      (Put kb vb s k v cb).1.t1_ (Put kb vb s k v cb).1.t2_
      (Put kb vb s k v cb).1.b1_ (Put kb vb s k v cb).1.b2_
      (by rw [hput]) (by rw [hput]) (by rw [hput])
      (by rw [hput]; exact (List.erase_of_not_mem hnot).symm)
    exact ⟨a, b, c, hh, hm, fun _ => ⟨by rw [hput], by rw [hput]⟩,
      fun h => absurd h hb2, d, e⟩
  · have hb2 : k ∈ s.b2_ := hk.resolve_left hb1
    have hput := Put_of_b2 kb vb s k v cb f1 f2 hb1 hb2
    have hnot := Replace_b1_not_mem kb vb
      (DecreaseP s (max 1 (s.b1_.length / s.b2_.length))) k cb
      (show k ∉ (DecreaseP s (max 1 (s.b1_.length / s.b2_.length))).b1_ by simpa using hb1)
      (show k ∉ keys (DecreaseP s (max 1 (s.b1_.length / s.b2_.length))).t1_ by simpa using hk1)
    obtain ⟨a, b, c, d, e⟩ := ghost_hit_lists kb vb s
      (DecreaseP s (max 1 (s.b1_.length / s.b2_.length))) k v cb hE
      (DecreaseP_t1 s _) (DecreaseP_t2 s _) (DecreaseP_b1 s _) (DecreaseP_b2 s _)
      (DecreaseP_c s _) hk1 hk2
      (Put kb vb s k v cb).1.t1_ (Put kb vb s k v cb).1.t2_
      (Put kb vb s k v cb).1.b1_ (Put kb vb s k v cb).1.b2_
      (by rw [hput]) (by rw [hput])
      (by rw [hput]; exact (List.erase_of_not_mem hnot).symm) (by rw [hput])
    exact ⟨a, b, c, hh, hm, fun h => absurd h hb1,
      fun _ => ⟨by rw [hput], by rw [hput]⟩, d, e⟩

end GhostHit

section ResidentPut
variable {K V : Type} [DecidableEq K]

theorem sizeMod_pos : 0 < sizeMod := by simp [sizeMod]

theorem UpdateAdd_lt (x c : Nat) : UpdateAddToCacheBytes x c < sizeMod :=
  Nat.mod_lt _ sizeMod_pos

theorem UpdateRemove_lt (x c : Nat) : UpdateRemoveFromCacheBytes x c < sizeMod :=
  Nat.mod_lt _ sizeMod_pos

theorem resize_lt (vb : V → Nat) (old new : V) {c : Nat} (h : c < sizeMod) :
    resize vb old new c < sizeMod := by
  unfold resize
  split_ifs
  · exact UpdateAdd_lt _ _
  · exact h

theorem Put_bytes_lt (kb : K → Nat) (vb : V → Nat) (s : ARC K V) (k : K) (v : V)
    (cb : EvictionCB K V) (h : s.cached_bytes_ < sizeMod) :
    (Put kb vb s k v cb).1.cached_bytes_ < sizeMod := by
  cases h1 : T.Find s.t1_ k with
  | some e => rw [Put_of_t1 kb vb s k v cb h1]; exact resize_lt vb _ _ h
  | none =>
    cases h2 : T.Find s.t2_ k with
    | some e => rw [Put_of_t2 kb vb s k v cb h1 h2]; exact resize_lt vb _ _ h
    | none =>
      by_cases h3 : k ∈ s.b1_
      · rw [Put_of_b1 kb vb s k v cb h1 h2 h3]; exact UpdateAdd_lt _ _
      · by_cases h4 : k ∈ s.b2_
        · rw [Put_of_b2 kb vb s k v cb h1 h2 h3 h4]; exact UpdateAdd_lt _ _
        · rw [Put_of_miss kb vb s k v cb h1 h2 h3 h4]; exact UpdateAdd_lt _ _

theorem Get_bytes (vb : V → Nat) (s : ARC K V) (k : K) :
    (Get vb s k).1.cached_bytes_ = s.cached_bytes_ := by
  cases h1 : T.Find s.t1_ k with
  | some e => rw [Get_of_t1 vb s k h1]; rfl
  | none =>
    cases h2 : T.Find s.t2_ k with
    | some e => rw [Get_of_t2 vb s k h1 h2]; rfl
    | none => rw [Get_of_miss vb s k h1 h2]; rfl

theorem Remove_bytes_lt (kb : K → Nat) (vb : V → Nat) (s : ARC K V) (k : K)
    (h : s.cached_bytes_ < sizeMod) : (Remove kb vb s k).cached_bytes_ < sizeMod := by
  cases h1 : T.Find s.t1_ k with
  | some e => rw [Remove_of_t1 kb vb s k h1]; exact UpdateRemove_lt _ _
  | none =>
    cases h2 : T.Find s.t2_ k with
    | some e => rw [Remove_of_t2 kb vb s k h1 h2]; exact UpdateRemove_lt _ _
    | none =>
      by_cases h3 : k ∈ s.b1_
      · rw [Remove_of_b1 kb vb s k h1 h2 h3]; exact UpdateRemove_lt _ _
      · by_cases h4 : k ∈ s.b2_
        · rw [Remove_of_b2 kb vb s k h1 h2 h3 h4]; exact UpdateRemove_lt _ _
        · rw [Remove_of_absent kb vb s k h1 h2 h3 h4]; exact h

theorem run_bytes_lt (kb : K → Nat) (vb : V → Nat) (ops : List (Op K V)) :
    ∀ s : ARC K V, s.cached_bytes_ < sizeMod → (run kb vb s ops).cached_bytes_ < sizeMod := by
  induction ops with
  | nil => intro s h; exact h
  | cons op rest ih =>
    intro s h
    apply ih
    cases op with
    | put k v cb => exact Put_bytes_lt kb vb s k v cb h
    | get k => simp only [step]; rw [Get_bytes]; exact h
    | remove k => exact Remove_bytes_lt kb vb s k h
    | clear => exact sizeMod_pos

theorem Reachable_bytes_lt {kb : K → Nat} {vb : V → Nat} {s : ARC K V}
    (h : Reachable kb vb s) : s.cached_bytes_ < sizeMod := by
  obtain ⟨c, ops, rfl⟩ := h
  exact run_bytes_lt kb vb ops _ sizeMod_pos

/-- The counter after the byte adjustment for a replacement value: the old
value bytes leave and the new ones enter, in `size_t` arithmetic; this is the
plain difference when nothing wraps. -/
theorem resize_value (vb : V → Nat) (old new : V) {c : Nat} (h : c < sizeMod) :
    resize vb old new c = (c + (sizeMod - vb old % sizeMod) + vb new) % sizeMod ∧
    (vb old ≤ c → c - vb old + vb new < sizeMod →
      (resize vb old new c : Int) = (c : Int) + (vb new : Int) - (vb old : Int)) := by
  have hM : sizeMod = 18446744073709551616 := by simp [sizeMod]
  rw [hM] at h
  by_cases hab : vb old = vb new
  · have hr : resize vb old new c = c := by simp [resize, hab]
    rw [hr, hM, hab]
    generalize vb new = b
    constructor
    · omega
    · intro _ _; omega
  · have hr : resize vb old new c =
        ((c + (sizeMod - vb old % sizeMod)) % sizeMod + vb new) % sizeMod := by
      simp [resize, hab, UpdateAddToCacheBytes, UpdateRemoveFromCacheBytes]
    rw [hr, hM]
    generalize vb old = a
    generalize vb new = b
    constructor
    · omega
    · intro _ _; omega

/-- C20. `Put` on a resident key, in every state a cache reaches (full or
not).  For an entry `(k, old)` of `T1`: `T1` loses it, its other entries
keeping order and values, and `T2` gains `(k, v)` at the most recent end.
For an entry `(k, old)` of `T2`: `T1` stays as it is and in `T2` the entry
moves to the most recent end with value `v`, the others keeping order and
values.  In both cases the byte count changes by the size of `v` minus the
size of `old` in `size_t` arithmetic, which is the plain difference when
nothing wraps; no callback call is made and `B1`, `B2`, `p` and `Size()`
stay as they are. -/
theorem put_on_resident_key (kb : K → Nat) (vb : V → Nat) (s : ARC K V)
    (hs : Reachable kb vb s) (k : K) (v : V) (cb : EvictionCB K V) :
    (∀ old, (k, old) ∈ s.t1_ →
      (Put kb vb s k v cb).1.t1_ = s.t1_.filter (fun e => !(e.1 == k)) ∧
      (Put kb vb s k v cb).1.t2_ = s.t2_ ++ [(k, v)] ∧
      CachedByteCount (Put kb vb s k v cb).1 =
        (CachedByteCount s + (sizeMod - vb old % sizeMod) + vb v) % sizeMod ∧
      (vb old ≤ CachedByteCount s → CachedByteCount s - vb old + vb v < sizeMod →
        (CachedByteCount (Put kb vb s k v cb).1 : Int) =
          (CachedByteCount s : Int) + (vb v : Int) - (vb old : Int))) ∧
    (∀ old, (k, old) ∈ s.t2_ →
      (Put kb vb s k v cb).1.t1_ = s.t1_ ∧
      (Put kb vb s k v cb).1.t2_ = s.t2_.filter (fun e => !(e.1 == k)) ++ [(k, v)] ∧
      CachedByteCount (Put kb vb s k v cb).1 =
        (CachedByteCount s + (sizeMod - vb old % sizeMod) + vb v) % sizeMod ∧
      (vb old ≤ CachedByteCount s → CachedByteCount s - vb old + vb v < sizeMod →
        (CachedByteCount (Put kb vb s k v cb).1 : Int) =
          (CachedByteCount s : Int) + (vb v : Int) - (vb old : Int))) ∧
    (k ∈ keys s.t1_ ∨ k ∈ keys s.t2_ →
      (Put kb vb s k v cb).1.t2_.getLast? = some (k, v) ∧
      k ∉ keys (Put kb vb s k v cb).1.t1_ ∧
      (Put kb vb s k v cb).2 = [] ∧
      (Put kb vb s k v cb).1.b1_ = s.b1_ ∧ (Put kb vb s k v cb).1.b2_ = s.b2_ ∧
      (Put kb vb s k v cb).1.p_ = s.p_ ∧
      Size (Put kb vb s k v cb).1 = Size s) := by
  have hE := Reachable_Exclusive hs
  have hlt := Reachable_bytes_lt hs
  obtain ⟨n1, n2, _, _, d1, _, _⟩ := Exclusive_parts hE
  cases h1 : T.Find s.t1_ k with
  | some e =>
    have hk : k ∈ keys s.t1_ := T_Find_isSome.mp (by simp [h1])
    have hk2 : k ∉ keys s.t2_ := (d1 k hk).1
    have he := (T_Find_some h1).1
    have hl := length_eraseP_key hk
    rw [Put_of_t1 kb vb s k v cb h1]
    refine ⟨?_, ?_, ?_⟩
    · intro old hold
      have := T_Find_of_mem n1 hold
      rw [h1] at this
      cases this
      exact ⟨eraseP_eq_filter k n1, rfl, (resize_value vb old v hlt).1,
        (resize_value vb old v hlt).2⟩
    · intro old hold
      exact absurd (mem_keys_of_mem hold) hk2
    · intro _
      refine ⟨by simp [OnCacheHit, he], ?_, rfl, rfl, rfl, rfl, ?_⟩
      · exact not_mem_keys_eraseP k n1
      · simp only [Size, OnCacheHit, List.length_append, List.length_singleton]
        omega
  | none =>
    have hk1 := T_Find_eq_none.mp h1
    cases h2 : T.Find s.t2_ k with
    | some e =>
      have he := (T_Find_some h2).1
      have ht := T_Touch_fst vb k (some v) true s.cached_bytes_ n2 h2
      rw [Put_of_t2 kb vb s k v cb h1 h2]
      refine ⟨?_, ?_, ?_⟩
      · intro old hold
        exact absurd (mem_keys_of_mem hold) hk1
      · intro old hold
        have := T_Find_of_mem n2 hold
        rw [h2] at this
        cases this
        refine ⟨rfl, ?_, (resize_value vb old v hlt).1, (resize_value vb old v hlt).2⟩
        simp only [OnCacheHit]
        rw [ht, eraseP_eq_filter k n2]
        rfl
      · intro _
        refine ⟨?_, hk1, rfl, rfl, rfl, rfl, ?_⟩
        · simp only [OnCacheHit]
          rw [ht]
          simp [he]
        · simp only [Size, OnCacheHit, T_Touch_length]
    | none =>
      have hk2 := T_Find_eq_none.mp h2
      refine ⟨?_, ?_, ?_⟩
      · intro old hold
        exact absurd (mem_keys_of_mem hold) hk1
      · intro old hold
        exact absurd (mem_keys_of_mem hold) hk2
      · intro h
        exact absurd h (fun hh => hh.elim hk1 hk2)

end ResidentPut

section Scan
variable {K V : Type} [DecidableEq K]

/-- A `Put` of a new key into a cache that holds `t1_` only: below capacity
the entry is appended, at capacity the least recent entry is dropped first
and told to the callback. -/
theorem Put_scan_step (kb : K → Nat) (vb : V → Nat) (s : ARC K V) (k : K) (v : V)
    (cb : EvictionCB K V) (h2 : s.t2_ = []) (h3 : s.b1_ = []) (h4 : s.b2_ = [])
    (hc : 1 ≤ s.c_) (hl : s.t1_.length ≤ s.c_) (hk : k ∉ keys s.t1_) :
    (Put kb vb s k v cb).1.t2_ = [] ∧ (Put kb vb s k v cb).1.b1_ = [] ∧
    (Put kb vb s k v cb).1.b2_ = [] ∧ (Put kb vb s k v cb).1.c_ = s.c_ ∧
    (Put kb vb s k v cb).1.p_ = s.p_ ∧
    (s.t1_.length < s.c_ →
      (Put kb vb s k v cb).1.t1_ = s.t1_ ++ [(k, v)] ∧ (Put kb vb s k v cb).2 = []) ∧
    (s.t1_.length = s.c_ →
      ∃ e rest, s.t1_ = e :: rest ∧ (Put kb vb s k v cb).1.t1_ = rest ++ [(k, v)] ∧
        (Put kb vb s k v cb).2 = cbCalls cb e) := by
  have hput := Put_of_miss kb vb s k v cb (T_Find_eq_none.mpr hk)
    (by simp [h2, T.Find]) (by simp [h3]) (by simp [h4])
  by_cases hlt : s.t1_.length < s.c_
  · have hroom := makeRoom_of_room kb vb s k cb
      (by simp only [h2, h3, h4, List.length_nil]; omega)
    rw [hroom] at hput
    rw [hput]
    exact ⟨h2, h3, h4, rfl, rfl, fun _ => ⟨rfl, rfl⟩, fun h => by omega⟩
  · have heq : s.t1_.length = s.c_ := by omega
    rcases list_nil_or_cons s.t1_ with h1 | ⟨e, rest, h1⟩
    · rw [h1] at heq; simp at heq; omega
    · have hf : IsCacheFull s = true := by simp [IsCacheFull, h2, heq]
      have hm : makeRoom kb vb s k cb =
          ({ s with t1_ := rest,
                    cached_bytes_ := (T.RemoveLRU kb vb s.t1_ cb true s.cached_bytes_).2.1 },
            cbCalls cb e) := by
        have hcond : (IsCacheFull s && s.t1_.length + s.b1_.length == s.c_) = true := by
          simp [hf, h3, heq]
        have hnl : ¬ s.t1_.length < s.c_ := hlt
        simp only [makeRoom, hcond, hnl, if_true, if_false]
        cases cb <;> simp [h1, T.RemoveLRU, cbCalls]
      rw [hm] at hput
      rw [hput]
      exact ⟨h2, h3, h4, rfl, rfl, fun h => absurd h hlt, fun _ => ⟨e, rest, h1, rfl, rfl⟩⟩

theorem runPuts_scan (kb : K → Nat) (vb : V → Nat) (ps : List (K × V × EvictionCB K V)) :
    ∀ s : ARC K V, s.t2_ = [] → s.b1_ = [] → s.b2_ = [] → 1 ≤ s.c_ →
      s.t1_.length ≤ s.c_ → (keys s.t1_ ++ ps.map (fun p => p.1)).Nodup →
      (runPuts kb vb s ps).t1_ =
        (s.t1_ ++ ps.map (fun p => (p.1, p.2.1))).drop (s.t1_.length + ps.length - s.c_) ∧
      (runPuts kb vb s ps).t2_ = [] ∧ (runPuts kb vb s ps).b1_ = [] ∧
      (runPuts kb vb s ps).b2_ = [] ∧ (runPuts kb vb s ps).p_ = s.p_ ∧
      ((∀ a ∈ ps, a.2.2.isSome = true) →
        runPutsCalls kb vb s ps =
          (s.t1_ ++ ps.map (fun p => (p.1, p.2.1))).take
            (s.t1_.length + ps.length - s.c_)) := by
  induction ps with
  | nil =>
    intro s h2 h3 h4 hc hl _
    have hz : s.t1_.length - s.c_ = 0 := by omega
    simp [runPuts, runPutsCalls, h2, h3, h4, hz]
  | cons a rest ih =>
    intro s h2 h3 h4 hc hl hn
    have hk1 : a.1 ∉ keys s.t1_ := by
      rw [List.nodup_append] at hn
      exact fun hm => hn.2.2 hm (by simp)
    obtain ⟨p2, p3, p4, pc, pp, plt, peq⟩ :=
      Put_scan_step kb vb s a.1 a.2.1 a.2.2 h2 h3 h4 hc hl hk1
    by_cases hlt : s.t1_.length < s.c_
    · obtain ⟨q1, q2⟩ := plt hlt
      have hn2 : (keys (Put kb vb s a.1 a.2.1 a.2.2).1.t1_ ++ rest.map (fun p => p.1)).Nodup := by
        rw [q1, keys_append_one, List.append_assoc]
        simpa using hn
      obtain ⟨r1, r2, r3, r4, r5, r6⟩ := ih (Put kb vb s a.1 a.2.1 a.2.2).1 p2 p3 p4
        (by rw [pc]; exact hc)
        (by rw [pc, q1]; simp only [List.length_append, List.length_cons, List.length_nil]; omega)
        hn2
      rw [pc, q1] at r1 r6
      simp only [List.length_append, List.length_cons, List.length_nil, List.append_assoc,
        List.singleton_append] at r1 r6
      have hd : s.t1_.length + (0 + 1) + rest.length - s.c_ =
          s.t1_.length + (rest.length + 1) - s.c_ := by omega
      rw [hd] at r1 r6
      refine ⟨?_, r2, r3, r4, by rw [runPuts, r5, pp], ?_⟩
      · simpa [runPuts] using r1
      · intro hall
        have := r6 (fun x hx => hall x (List.mem_cons_of_mem _ hx))
        simp only [runPutsCalls, q2, List.nil_append, List.map_cons, List.length_cons]
        exact this
    · have heq : s.t1_.length = s.c_ := by omega
      obtain ⟨e, t, he, q1, q2⟩ := peq heq
      have hn2 : (keys (Put kb vb s a.1 a.2.1 a.2.2).1.t1_ ++ rest.map (fun p => p.1)).Nodup := by
        rw [q1, keys_append_one, List.append_assoc]
        rw [he, keys_cons] at hn
        simp only [List.cons_append, List.nodup_cons, List.map_cons] at hn
        simpa using hn.2
      have hlen : (t ++ [(a.1, a.2.1)]).length = s.c_ := by
        rw [he] at heq
        simp only [List.length_append, List.length_cons, List.length_nil] at heq ⊢
        omega
      obtain ⟨r1, r2, r3, r4, r5, r6⟩ := ih (Put kb vb s a.1 a.2.1 a.2.2).1 p2 p3 p4
        (by rw [pc]; exact hc) (by rw [pc, q1, hlen]) hn2
      rw [pc, q1, hlen] at r1 r6
      have hd1 : s.c_ + rest.length - s.c_ = rest.length := by omega
      have hd2 : s.t1_.length + (a :: rest).length - s.c_ = rest.length + 1 := by
        simp only [List.length_cons]; omega
      rw [hd1] at r1 r6
      refine ⟨?_, r2, r3, r4, by rw [runPuts, r5, pp], ?_⟩
      · rw [runPuts, r1, hd2, he]
        simp
      · intro hall
        have := r6 (fun x hx => hall x (List.mem_cons_of_mem _ hx))
        obtain ⟨f, hf⟩ := Option.isSome_iff_exists.mp (hall a (List.mem_cons_self _ _))
        rw [runPutsCalls, q2, this, hd2, he]
        simp [hf, cbCalls]

/-- C19. Scan of keys never seen before: for every capacity `c ≥ 1` and
every sequence of `Put` calls with `n` pairwise distinct keys on a new cache,
afterwards `T1` holds the last `min(n, c)` entries in the order of the calls,
`T2`, `B1` and `B2` are empty and `p` is zero; when every call carries a
callback, it was called `max(0, n - c)` times, on the first `n - c` entries
in the order of the calls. -/
theorem scan_of_new_keys (kb : K → Nat) (vb : V → Nat) (c : Nat) (hc : 1 ≤ c)
    (ps : List (K × V × EvictionCB K V)) (hn : (ps.map (fun p => p.1)).Nodup) :
    (runPuts kb vb (ARC.new c) ps).t1_ =
      (ps.map (fun p => (p.1, p.2.1))).drop (ps.length - c) ∧
    (runPuts kb vb (ARC.new c) ps).t1_.length = min ps.length c ∧
    (runPuts kb vb (ARC.new c) ps).t2_ = [] ∧
    (runPuts kb vb (ARC.new c) ps).b1_ = [] ∧
    (runPuts kb vb (ARC.new c) ps).b2_ = [] ∧
    (runPuts kb vb (ARC.new c) ps).p_ = 0 ∧
    ((∀ a ∈ ps, a.2.2.isSome = true) →
      runPutsCalls kb vb (ARC.new c) ps =
        (ps.map (fun p => (p.1, p.2.1))).take (ps.length - c) ∧
      (runPutsCalls kb vb (ARC.new c) ps).length = ps.length - c) := by
  obtain ⟨r1, r2, r3, r4, r5, r6⟩ := runPuts_scan kb vb ps (ARC.new c : ARC K V) rfl rfl rfl hc
    (Nat.zero_le _) (by simpa [ARC.new, keys] using hn)
  have e1 : (ARC.new c : ARC K V).t1_ = [] := rfl
  have e2 : (ARC.new c : ARC K V).c_ = c := rfl
  rw [e1, e2] at r1 r6
  simp only [List.nil_append, List.length_nil, Nat.zero_add] at r1 r6
  refine ⟨r1, ?_, r2, r3, r4, r5, ?_⟩
  · rw [r1]
    simp only [List.length_drop, List.length_map]
    omega
  · intro hall
    have := r6 hall
    refine ⟨this, ?_⟩
    rw [this]
    simp only [List.length_take, List.length_map]
    omega

end Scan

section Concrete2

/-- Witness for C14: on a cache of capacity three, `p` is within bounds after
the calls of the test `cache_inspect`, and a `Put` into the new, empty cache
leaves `p` as it is. -/
theorem target_size_invariant_witness :
    (0 ≤ (run intBytes intBytes (ARC.new 3) (walkOps.take 8)).p_ ∧
      (run intBytes intBytes (ARC.new 3) (walkOps.take 8)).p_ ≤ 3) ∧
    ((ARC.new 3 : ARC Nat Nat).t1_.length + (ARC.new 3 : ARC Nat Nat).t2_.length ≠
        (ARC.new 3 : ARC Nat Nat).c_ ∧
      (Put intBytes intBytes (ARC.new 3) 1 1 none).1.p_ = (ARC.new 3 : ARC Nat Nat).p_) :=
  ⟨(target_size_invariant intBytes intBytes).1 3 walkOps 8,
    by decide,
    ((target_size_invariant intBytes intBytes).2 (ARC.new 3) 1 1 none (by decide)).1⟩

/-- Witness for C15: in the state `T1 = [3, 4]`, `T2 = [1]`, `B1 = [2]` of a
full cache of capacity three, `Put(2, 7)` makes `(2, 7)` the most recent entry
of `T2` and takes 2 out of `B1`. -/
theorem ghost_hit_witness :
    Reachable intBytes intBytes demoState ∧ (2 ∈ demoState.b1_ ∨ 2 ∈ demoState.b2_) ∧
    (Put intBytes intBytes demoState 2 7 none).1.t2_.getLast? = some (2, 7) ∧
    2 ∉ (Put intBytes intBytes demoState 2 7 none).1.b1_ :=
  ⟨demoState_reachable, by decide,
    (ghost_hit intBytes intBytes demoState demoState_reachable 2 7 none (by decide)).1,
    (ghost_hit intBytes intBytes demoState demoState_reachable 2 7 none (by decide)).2.1⟩

/-- Witness for C16: in the same state, a `Put` of the key 2 of `B1`. -/
theorem adaptation_formulas_witness :
    Reachable intBytes intBytes demoState ∧
    demoState.t1_.length + demoState.t2_.length = demoState.c_ ∧ 2 ∈ demoState.b1_ ∧
    (Put intBytes intBytes demoState 2 7 none).1.p_ =
      min demoState.c_ (demoState.p_ + min 1 (demoState.b2_.length / demoState.b1_.length)) :=
  ⟨demoState_reachable, by decide, by decide,
    (adaptation_formulas intBytes intBytes demoState demoState_reachable (by decide)
      2 7 none).1 (by decide)⟩

/-- C17 at its failing input: in the state `T1 = [3, 4]`, `T2 = [1]`,
`B1 = [2]`, `B2 = []`, `p = 0` of a full cache of capacity three, the `Put` of
the key 2 of `B1` leaves `p` at zero. -/
theorem b1_hit_leaves_target :
    demoState.t1_.length + demoState.t2_.length = demoState.c_ ∧
    demoState.c_ = 3 ∧ demoState.p_ = 0 ∧ demoState.b1_ = [2] ∧ demoState.b2_ = [] ∧
    (Put intBytes intBytes demoState 2 2 none).1.p_ = 0 := by
  decide

/-- Witness for C18: in the same state `|T1| = 2 > p = 0`, so `Replace` moves
the least recent entry of `T1`; on the new cache it does nothing. -/
theorem replace_decision_rule_witness :
    (demoState.t1_.length + demoState.t2_.length = demoState.c_ ∧ 1 ≤ demoState.c_ ∧
      (demoState.t1_.length ≠ 0 ∧
        (demoState.t1_.length > demoState.p_ ∨
          (demoState.t1_.length = demoState.p_ ∧ 9 ∈ demoState.b2_))) ∧
      ∃ e rest, demoState.t1_ = e :: rest ∧
        Replace intBytes intBytes demoState 9 none =
          ({ demoState with
              t1_ := rest, b1_ := demoState.b1_ ++ [e.1],
              cached_bytes_ :=
                UpdateRemoveFromCacheBytes (intBytes e.2) demoState.cached_bytes_ },
            cbCalls none e)) ∧
    ((ARC.new 3 : ARC Nat Nat).t1_.length + (ARC.new 3 : ARC Nat Nat).t2_.length ≠
        (ARC.new 3 : ARC Nat Nat).c_ ∧
      Replace intBytes intBytes (ARC.new 3) 9 none = (ARC.new 3, [])) :=
  ⟨⟨by decide, by decide, by decide,
      ((replace_decision_rule intBytes intBytes demoState 9 none).1 (by decide)
        (by decide)).1 (by decide)⟩,
    by decide,
    (replace_decision_rule intBytes intBytes (ARC.new 3) 9 none).2 (by decide)⟩

/-- Witness for C19: capacity 5 and `Put` of the keys 0..9, each with a
callback: the callback is called exactly five times, on the keys 0..4 in
this order, and `T1` holds the keys 5..9. -/
theorem scan_of_new_keys_witness :
    1 ≤ 5 ∧ (tenPuts.map (fun p => p.1)).Nodup ∧
    (runPuts intBytes intBytes (ARC.new 5) tenPuts).t1_ =
      (tenPuts.map (fun p => (p.1, p.2.1))).drop (tenPuts.length - 5) ∧
    (runPutsCalls intBytes intBytes (ARC.new 5) tenPuts).length = 5 ∧
    runPutsCalls intBytes intBytes (ARC.new 5) tenPuts =
      [(0, 0), (1, 1), (2, 2), (3, 3), (4, 4)] ∧
    (runPuts intBytes intBytes (ARC.new 5) tenPuts).t1_ =
      [(5, 5), (6, 6), (7, 7), (8, 8), (9, 9)] :=
  ⟨by decide, by decide,
    (scan_of_new_keys intBytes intBytes 5 (by decide) tenPuts (by decide)).1,
    by decide, by decide, by decide⟩

/-- Witness for C20: in the state `T1 = [3, 4]`, `T2 = [1]`, `B1 = [2]`,
`Put(1, 9)` on the entry `(1, 1)` of `T2`. -/
theorem put_on_resident_key_witness :
    Reachable intBytes intBytes demoState ∧ (1, 1) ∈ demoState.t2_ ∧
    (Put intBytes intBytes demoState 1 9 none).1.t1_ = demoState.t1_ ∧
    (Put intBytes intBytes demoState 1 9 none).1.t2_ =
      demoState.t2_.filter (fun e => !(e.1 == 1)) ++ [(1, 9)] :=
  ⟨demoState_reachable, by decide,
    ((put_on_resident_key intBytes intBytes demoState demoState_reachable 1 9 none).2.1 1
      (by decide)).1,
    ((put_on_resident_key intBytes intBytes demoState demoState_reachable 1 9 none).2.1 1
      (by decide)).2.1⟩

end Concrete2

section GetMiss
variable {K V : Type} [DecidableEq K]

/-- C23. A `Get` miss, in every state: for a key that is in neither `T1` nor
`T2` (a key of `B1` or `B2` included) `Get` returns not found and leaves the
four lists, `p`, the capacity, the byte count and the hit count as they are;
the miss count grows by one and nothing else changes. -/
theorem get_miss_frame (vb : V → Nat) (s : ARC K V) (k : K)
    (h1 : k ∉ keys s.t1_) (h2 : k ∉ keys s.t2_) :
    (Get vb s k).2 = none ∧
    (Get vb s k).1.t1_ = s.t1_ ∧ (Get vb s k).1.t2_ = s.t2_ ∧
    (Get vb s k).1.b1_ = s.b1_ ∧ (Get vb s k).1.b2_ = s.b2_ ∧
    (Get vb s k).1.p_ = s.p_ ∧ Capacity (Get vb s k).1 = Capacity s ∧
    CachedByteCount (Get vb s k).1 = CachedByteCount s ∧
    HitCount (Get vb s k).1 = HitCount s ∧
    MissCount (Get vb s k).1 = MissCount s + 1 ∧
    (Get vb s k).1 = { s with cache_miss_ := s.cache_miss_ + 1 } := by
  rw [Get_of_miss vb s k (T_Find_eq_none.mpr h1) (T_Find_eq_none.mpr h2)]
  exact ⟨rfl, rfl, rfl, rfl, rfl, rfl, rfl, rfl, rfl, rfl, rfl⟩

end GetMiss

section Division
variable {K V : Type} [DecidableEq K]

theorem divSize_pos {a b : Nat} (h : 0 < b) : divSize a b = some (a / b) := by
  unfold divSize
  rw [if_neg (by omega)]

/-- C24. The adaptation deltas never divide by zero, in every state and for
every key: every divisor of a quotient that `Put` evaluates is positive, being
the size of `B1` for a key found in `B1` or the size of `B2` for a key found
in `B2`; so both quotients have a value where they are evaluated and `Put`
with checked divisions always has a result, the one of `Put`. -/
theorem adaptation_division_defined (kb : K → Nat) (vb : V → Nat) (s : ARC K V) (k : K)
    (v : V) (cb : EvictionCB K V) :
    (∀ d ∈ PutDivisors s k,
      0 < d ∧ ((d = s.b1_.length ∧ k ∈ s.b1_ ∧ s.b1_ ≠ []) ∨
        (d = s.b2_.length ∧ k ∈ s.b2_ ∧ s.b2_ ≠ []))) ∧
    (B.Find s.b1_ k = true → divSize s.b2_.length s.b1_.length =
      some (s.b2_.length / s.b1_.length)) ∧
    (B.Find s.b2_ k = true → divSize s.b1_.length s.b2_.length =
      some (s.b1_.length / s.b2_.length)) ∧
    PutChecked kb vb s k v cb = some (Put kb vb s k v cb) := by
  have p1 : B.Find s.b1_ k = true → 0 < s.b1_.length := fun h =>
    List.length_pos_of_mem (B_Find_iff.mp h)
  have p2 : B.Find s.b2_ k = true → 0 < s.b2_.length := fun h =>
    List.length_pos_of_mem (B_Find_iff.mp h)
  refine ⟨?_, fun h => divSize_pos (p1 h), fun h => divSize_pos (p2 h), ?_⟩
  · intro d hd
    unfold PutDivisors at hd
    split_ifs at hd with h1 h2 h3 h4 <;> simp at hd
    · rw [hd]
      exact ⟨p1 h3, Or.inl ⟨rfl, B_Find_iff.mp h3, List.ne_nil_of_length_pos (p1 h3)⟩⟩
    · rw [hd]
      exact ⟨p2 h4, Or.inr ⟨rfl, B_Find_iff.mp h4, List.ne_nil_of_length_pos (p2 h4)⟩⟩
  · unfold PutChecked Put
    split_ifs with h1 h2 h3 h4
    · rfl
    · rfl
    · rw [divSize_pos (p1 h3)]; rfl
    · rw [divSize_pos (p2 h4)]; rfl
    · rfl

end Division

section Directory
variable {K V : Type} [DecidableEq K]

theorem Get_lengths (vb : V → Nat) (s : ARC K V) (k : K) :
    (Get vb s k).1.c_ = s.c_ ∧ (Get vb s k).1.b1_ = s.b1_ ∧ (Get vb s k).1.b2_ = s.b2_ ∧
    (Get vb s k).1.t1_.length + (Get vb s k).1.t2_.length = s.t1_.length + s.t2_.length ∧
    (Get vb s k).1.t1_.length ≤ s.t1_.length := by
  cases h1 : T.Find s.t1_ k with
  | some e =>
    rw [Get_of_t1 vb s k h1]
    have hk : k ∈ keys s.t1_ := T_Find_isSome.mp (by rw [h1]; rfl)
    have hl := length_eraseP_key hk
    simp only [OnCacheHit, List.length_append, List.length_singleton]
    refine ⟨?_, ?_, ?_, ?_, ?_⟩ <;> first | trivial | omega
  | none =>
    cases h2 : T.Find s.t2_ k with
    | some e =>
      rw [Get_of_t2 vb s k h1 h2]
      simp only [OnCacheHit, T_Touch_length]
      refine ⟨?_, ?_, ?_, ?_, ?_⟩ <;> trivial
    | none =>
      rw [Get_of_miss vb s k h1 h2]
      exact ⟨rfl, rfl, rfl, rfl, le_refl _⟩

theorem Get_SizeInv (vb : V → Nat) (s : ARC K V) (k : K) (hi : SizeInv s) :
    SizeInv (Get vb s k).1 := by
  obtain ⟨i1, i2, i3, i4⟩ := hi
  obtain ⟨g1, g2, g3, g4, g5⟩ := Get_lengths vb s k
  unfold SizeInv
  rw [g1, g2, g3]
  refine ⟨?_, ?_, ?_, ?_⟩ <;> intros <;> omega

theorem Evicts_length {cb : EvictionCB K V} {s : ARC K V} {t1 t2 calls : List (K × V)}
    (h : Evicts cb s t1 t2 calls) :
    s.t1_.length + s.t2_.length ≤ t1.length + t2.length + 1 := by
  rcases h with ⟨h1, h2, _⟩ | ⟨_, e, rest, h1, h2, h3, _⟩ | ⟨_, e, rest, h1, h2, h3, _⟩
  · rw [h1, h2]; omega
  · rw [h1, h2, h3]; simp; omega
  · rw [h1, h2, h3]; simp; omega

theorem Put_Size_le (kb : K → Nat) (vb : V → Nat) (s : ARC K V) (k : K) (v : V)
    (cb : EvictionCB K V) :
    s.t1_.length + s.t2_.length ≤
      (Put kb vb s k v cb).1.t1_.length + (Put kb vb s k v cb).1.t2_.length := by
  cases h1 : T.Find s.t1_ k with
  | some e =>
    rw [Put_of_t1 kb vb s k v cb h1]
    have hk : k ∈ keys s.t1_ := T_Find_isSome.mp (by rw [h1]; rfl)
    have hl := length_eraseP_key hk
    simp only [OnCacheHit, List.length_append, List.length_singleton]
    omega
  | none =>
    cases h2 : T.Find s.t2_ k with
    | some e =>
      rw [Put_of_t2 kb vb s k v cb h1 h2]
      simp only [OnCacheHit, T_Touch_length]
      exact le_refl _
    | none =>
      by_cases h3 : k ∈ s.b1_
      · rw [Put_of_b1 kb vb s k v cb h1 h2 h3]
        have he := Evicts_length (Replace_Evicts kb vb
          (IncreaseP s (min 1 (s.b2_.length / s.b1_.length))) k cb)
        simp only [IncreaseP_t1, IncreaseP_t2] at he
        simp only [List.length_append, List.length_singleton]
        omega
      · by_cases h4 : k ∈ s.b2_
        · rw [Put_of_b2 kb vb s k v cb h1 h2 h3 h4]
          have he := Evicts_length (Replace_Evicts kb vb
            (DecreaseP s (max 1 (s.b1_.length / s.b2_.length))) k cb)
          simp only [DecreaseP_t1, DecreaseP_t2] at he
          simp only [List.length_append, List.length_singleton]
          omega
        · rw [Put_of_miss kb vb s k v cb h1 h2 h3 h4]
          have he := Evicts_length (makeRoom_Evicts kb vb s k cb)
          simp only [List.length_append, List.length_singleton]
          omega

/-- A sequence of `Put` and `Get` calls keeps the capacity and the size
bounds and never lowers the number of resident entries. -/
theorem run_PutGet (kb : K → Nat) (vb : V → Nat) (ops : List (Op K V))
    (hops : ∀ op ∈ ops, Op.isPutOrGet op = true) :
    ∀ s : ARC K V, 1 ≤ s.c_ → SizeInv s →
      (run kb vb s ops).c_ = s.c_ ∧ SizeInv (run kb vb s ops) ∧
      s.t1_.length + s.t2_.length ≤
        (run kb vb s ops).t1_.length + (run kb vb s ops).t2_.length := by
  induction ops with
  | nil => intro s _ hi; exact ⟨rfl, hi, le_refl _⟩
  | cons op rest ih =>
    intro s hc hi
    have hop := hops op (List.mem_cons_self _ _)
    have hrest : ∀ o ∈ rest, Op.isPutOrGet o = true := fun o ho =>
      hops o (List.mem_cons_of_mem _ ho)
    have key : (step kb vb s op).1.c_ = s.c_ ∧ SizeInv (step kb vb s op).1 ∧
        s.t1_.length + s.t2_.length ≤
          (step kb vb s op).1.t1_.length + (step kb vb s op).1.t2_.length := by
      cases op with
      | put k v cb =>
        obtain ⟨a, b⟩ := Put_SizeInv kb vb s k v cb hc hi
        exact ⟨a, b, Put_Size_le kb vb s k v cb⟩
      | get k =>
        obtain ⟨g1, _, _, g4, _⟩ := Get_lengths vb s k
        exact ⟨g1, Get_SizeInv vb s k hi, by simp only [step]; omega⟩
      | remove k => simp [Op.isPutOrGet] at hop
      | clear => simp [Op.isPutOrGet] at hop
    obtain ⟨k1, k2, k3⟩ := key
    obtain ⟨r1, r2, r3⟩ := ih hrest (step kb vb s op).1 (by omega) k2
    simp only [run]
    exact ⟨by omega, r2, by omega⟩

theorem run_take_drop (kb : K → Nat) (vb : V → Nat) (ops : List (Op K V)) (m : Nat) :
    ∀ s : ARC K V, run kb vb s ops = run kb vb (run kb vb s (ops.take m)) (ops.drop m) := by
  induction ops generalizing m with
  | nil => intro s; simp [run]
  | cons op rest ih =>
    intro s
    cases m with
    | zero => simp [run]
    | succ m => simp only [List.take_succ_cons, List.drop_succ_cons, run]; exact ih m _

/-- C22. Directory invariant without `Remove`: for every capacity `c ≥ 1` and
every sequence of `Put` and `Get` calls on a new cache, after each call
`|T1| + |B1| ≤ c` and `|T1| + |T2| ≤ c`, and while `|T1| + |T2| < c` both
ghost lists are empty; a cache that was full after some call is full after
every later call. -/
theorem directory_invariant (kb : K → Nat) (vb : V → Nat) (c : Nat) (hc : 1 ≤ c)
    (ops : List (Op K V)) (hops : ∀ op ∈ ops, Op.isPutOrGet op = true) (n : Nat) :
    (run kb vb (ARC.new c) (ops.take n)).t1_.length +
      (run kb vb (ARC.new c) (ops.take n)).b1_.length ≤ c ∧
    (run kb vb (ARC.new c) (ops.take n)).t1_.length +
      (run kb vb (ARC.new c) (ops.take n)).t2_.length ≤ c ∧
    ((run kb vb (ARC.new c) (ops.take n)).t1_.length +
        (run kb vb (ARC.new c) (ops.take n)).t2_.length < c →
      (run kb vb (ARC.new c) (ops.take n)).b1_ = [] ∧
      (run kb vb (ARC.new c) (ops.take n)).b2_ = []) ∧
    (∀ m, m ≤ n →
      (run kb vb (ARC.new c) (ops.take m)).t1_.length +
        (run kb vb (ARC.new c) (ops.take m)).t2_.length = c →
      (run kb vb (ARC.new c) (ops.take n)).t1_.length +
        (run kb vb (ARC.new c) (ops.take n)).t2_.length = c) := by
  have htake : ∀ j, ∀ op ∈ ops.take j, Op.isPutOrGet op = true := fun j op ho =>
    hops op (List.mem_of_mem_take ho)
  obtain ⟨r1, ⟨i1, i2, i3, i4⟩, _⟩ :=
    run_PutGet kb vb (ops.take n) (htake n) (ARC.new c : ARC K V) hc (SizeInv_new c)
  have hcc : (ARC.new c : ARC K V).c_ = c := rfl
  rw [hcc] at r1
  rw [r1] at i1 i2 i4
  refine ⟨i2, i1, ?_, ?_⟩
  · intro hlt
    have := i4 hlt
    constructor
    · exact List.length_eq_zero.mp (by omega)
    · exact List.length_eq_zero.mp (by omega)
  · intro m hm hfull
    obtain ⟨q1, q2, _⟩ :=
      run_PutGet kb vb (ops.take m) (htake m) (ARC.new c : ARC K V) hc (SizeInv_new c)
    rw [hcc] at q1
    have hsplit := run_take_drop kb vb (ops.take n) m (ARC.new c : ARC K V)
    have htm : (ops.take n).take m = ops.take m := by
      rw [List.take_take, min_eq_left hm]
    rw [htm] at hsplit
    have hdrop : ∀ op ∈ (ops.take n).drop m, Op.isPutOrGet op = true := fun op ho =>
      htake n op (List.mem_of_mem_drop ho)
    obtain ⟨_, _, w3⟩ := run_PutGet kb vb ((ops.take n).drop m) hdrop
      (run kb vb (ARC.new c) (ops.take m)) (by omega) q2
    rw [← hsplit] at w3
    omega

end Directory

section Coherence
variable {K V : Type} [DecidableEq K]

theorem run_snoc (kb : K → Nat) (vb : V → Nat) (ops : List (Op K V)) (op : Op K V) :
    ∀ s : ARC K V, run kb vb s (ops ++ [op]) = (step kb vb (run kb vb s ops) op).1 := by
  induction ops with
  | nil => intro s; rfl
  | cons o rest ih => intro s; simp only [List.cons_append, run]; exact ih _

theorem lastPut_snoc_writes (k : K) (ops : List (Op K V)) (op : Op K V)
    (h : Op.writes k op = true) : lastPut k (ops ++ [op]) = Op.putValue op := by
  simp [lastPut, List.filter_append, h]

theorem lastPut_snoc_other (k : K) (ops : List (Op K V)) (op : Op K V)
    (h : Op.writes k op = false) : lastPut k (ops ++ [op]) = lastPut k ops := by
  simp [lastPut, List.filter_append, h]

/-- What `lastPut` says in terms of the sequence: the call `Put(k, v)` occurs
and no `Put(k, .)`, `Remove(k)` or `Clear` comes after it. -/
theorem lastPut_some (k : K) (v : V) (ops : List (Op K V)) (h : lastPut k ops = some v) :
    ∃ pre cb post, ops = pre ++ Op.put k v cb :: post ∧
      ∀ o ∈ post, Op.writes k o = false := by
  induction ops using List.reverseRecOn with
  | nil => simp [lastPut] at h
  | append_singleton ops op ih =>
    by_cases hw : Op.writes k op = true
    · rw [lastPut_snoc_writes k ops op hw] at h
      cases op with
      | put key value cb =>
        simp only [Op.putValue, Option.some.injEq] at h
        simp only [Op.writes, beq_iff_eq] at hw
        exact ⟨ops, cb, [], by rw [hw, h], by simp⟩
      | get key => simp [Op.putValue] at h
      | remove key => simp [Op.putValue] at h
      | clear => simp [Op.putValue] at h
    · have hw2 : Op.writes k op = false := by simpa using hw
      rw [lastPut_snoc_other k ops op hw2] at h
      obtain ⟨pre, cb, post, e, hp⟩ := ih h
      refine ⟨pre, cb, post ++ [op], by rw [e]; simp, ?_⟩
      intro o ho
      rcases List.mem_append.mp ho with ho | ho
      · exact hp o ho
      · rw [List.mem_singleton.mp ho]; exact hw2

theorem Evicts_mem {cb : EvictionCB K V} {s : ARC K V} {t1 t2 calls : List (K × V)}
    (h : Evicts cb s t1 t2 calls) :
    (∀ e ∈ t1, e ∈ s.t1_) ∧ (∀ e ∈ t2, e ∈ s.t2_) := by
  rcases h with ⟨h1, h2, _⟩ | ⟨_, e, rest, h1, h2, h3, _⟩ | ⟨_, e, rest, h1, h2, h3, _⟩
  · rw [h1, h2]; exact ⟨fun _ h => h, fun _ h => h⟩
  · rw [h1, h2, h3]; exact ⟨fun _ h => List.mem_cons_of_mem _ h, fun _ h => h⟩
  · rw [h1, h2, h3]; exact ⟨fun _ h => h, fun _ h => List.mem_cons_of_mem _ h⟩

theorem mem_eraseP_key {t : List (K × V)} (k : K) (h : (keys t).Nodup) {e : K × V}
    (he : e ∈ t.eraseP (fun x => x.1 == k)) : e.1 ≠ k ∧ e ∈ t := by
  rw [eraseP_eq_filter k h] at he
  obtain ⟨h1, h2⟩ := List.mem_filter.mp he
  exact ⟨by simpa using h2, h1⟩

theorem ne_key_of_mem {t : List (K × V)} {k : K} (h : k ∉ keys t) {e : K × V}
    (he : e ∈ t) : e.1 ≠ k := fun hk => h (hk ▸ mem_keys_of_mem he)

/-- The resident entries after `Put(k, v)`: the entry `(k, v)` and entries
with another key that were resident before. -/
theorem Put_mem (kb : K → Nat) (vb : V → Nat) (s : ARC K V) (hE : Exclusive s) (k : K)
    (v : V) (cb : EvictionCB K V) (e : K × V)
    (he : e ∈ (Put kb vb s k v cb).1.t1_ ∨ e ∈ (Put kb vb s k v cb).1.t2_) :
    e = (k, v) ∨ (e.1 ≠ k ∧ (e ∈ s.t1_ ∨ e ∈ s.t2_)) := by
  obtain ⟨n1, n2, _, _, d1, _, _⟩ := Exclusive_parts hE
  cases h1 : T.Find s.t1_ k with
  | some e0 =>
    obtain ⟨hk0, hm0⟩ := T_Find_some h1
    have hk2 : k ∉ keys s.t2_ := (d1 k (hk0 ▸ mem_keys_of_mem hm0)).1
    rw [Put_of_t1 kb vb s k v cb h1] at he
    simp only [OnCacheHit, List.mem_append, List.mem_singleton] at he
    rcases he with he | he | he
    · obtain ⟨a, b⟩ := mem_eraseP_key k n1 he
      exact Or.inr ⟨a, Or.inl b⟩
    · exact Or.inr ⟨ne_key_of_mem hk2 he, Or.inr he⟩
    · exact Or.inl (by rw [he, hk0])
  | none =>
    have hk1 : k ∉ keys s.t1_ := T_Find_eq_none.mp h1
    cases h2 : T.Find s.t2_ k with
    | some e0 =>
      obtain ⟨hk0, hm0⟩ := T_Find_some h2
      rw [Put_of_t2 kb vb s k v cb h1 h2] at he
      simp only [OnCacheHit, T_Touch_fst vb k (some v) true s.cached_bytes_ n2 h2,
        List.mem_append, List.mem_singleton, Option.getD_some] at he
      rcases he with he | he | he
      · exact Or.inr ⟨ne_key_of_mem hk1 he, Or.inl he⟩
      · obtain ⟨a, b⟩ := mem_eraseP_key k n2 he
        exact Or.inr ⟨a, Or.inr b⟩
      · exact Or.inl (by rw [he, hk0])
    | none =>
      have hk2 : k ∉ keys s.t2_ := T_Find_eq_none.mp h2
      by_cases h3 : k ∈ s.b1_
      · rw [Put_of_b1 kb vb s k v cb h1 h2 h3] at he
        obtain ⟨m1, m2⟩ := Evicts_mem (Replace_Evicts kb vb
          (IncreaseP s (min 1 (s.b2_.length / s.b1_.length))) k cb)
        simp only [IncreaseP_t1, IncreaseP_t2] at m1 m2
        simp only [List.mem_append, List.mem_singleton] at he
        rcases he with he | he | he
        · exact Or.inr ⟨ne_key_of_mem hk1 (m1 e he), Or.inl (m1 e he)⟩
        · exact Or.inr ⟨ne_key_of_mem hk2 (m2 e he), Or.inr (m2 e he)⟩
        · exact Or.inl he
      · by_cases h4 : k ∈ s.b2_
        · rw [Put_of_b2 kb vb s k v cb h1 h2 h3 h4] at he
          obtain ⟨m1, m2⟩ := Evicts_mem (Replace_Evicts kb vb
            (DecreaseP s (max 1 (s.b1_.length / s.b2_.length))) k cb)
          simp only [DecreaseP_t1, DecreaseP_t2] at m1 m2
          simp only [List.mem_append, List.mem_singleton] at he
          rcases he with he | he | he
          · exact Or.inr ⟨ne_key_of_mem hk1 (m1 e he), Or.inl (m1 e he)⟩
          · exact Or.inr ⟨ne_key_of_mem hk2 (m2 e he), Or.inr (m2 e he)⟩
          · exact Or.inl he
        · rw [Put_of_miss kb vb s k v cb h1 h2 h3 h4] at he
          obtain ⟨m1, m2⟩ := Evicts_mem (makeRoom_Evicts kb vb s k cb)
          simp only [List.mem_append, List.mem_singleton] at he
          rcases he with (he | he) | he
          · exact Or.inr ⟨ne_key_of_mem hk1 (m1 e he), Or.inl (m1 e he)⟩
          · exact Or.inl he
          · exact Or.inr ⟨ne_key_of_mem hk2 (m2 e he), Or.inr (m2 e he)⟩

/-- The resident entries after `Get` were resident before it. -/
theorem Get_mem (vb : V → Nat) (s : ARC K V) (hE : Exclusive s) (k : K) (e : K × V)
    (he : e ∈ (Get vb s k).1.t1_ ∨ e ∈ (Get vb s k).1.t2_) : e ∈ s.t1_ ∨ e ∈ s.t2_ := by
  obtain ⟨n1, n2, _, _, _, _, _⟩ := Exclusive_parts hE
  cases h1 : T.Find s.t1_ k with
  | some e0 =>
    obtain ⟨hk0, hm0⟩ := T_Find_some h1
    rw [Get_of_t1 vb s k h1] at he
    simp only [OnCacheHit, List.mem_append, List.mem_singleton] at he
    rcases he with he | he | he
    · exact Or.inl (mem_eraseP_key k n1 he).2
    · exact Or.inr he
    · exact Or.inl (he ▸ hm0)
  | none =>
    cases h2 : T.Find s.t2_ k with
    | some e0 =>
      obtain ⟨hk0, hm0⟩ := T_Find_some h2
      rw [Get_of_t2 vb s k h1 h2] at he
      simp only [OnCacheHit, T_Touch_fst vb k none false s.cached_bytes_ n2 h2,
        List.mem_append, List.mem_singleton, Option.getD_none] at he
      rcases he with he | he | he
      · exact Or.inl he
      · exact Or.inr (mem_eraseP_key k n2 he).2
      · exact Or.inr (he ▸ hm0)
    | none =>
      rw [Get_of_miss vb s k h1 h2] at he
      exact he

/-- The resident entries after `Remove(k)` have another key and were resident
before it. -/
theorem Remove_mem (kb : K → Nat) (vb : V → Nat) (s : ARC K V) (hE : Exclusive s) (k : K)
    (e : K × V) (he : e ∈ (Remove kb vb s k).t1_ ∨ e ∈ (Remove kb vb s k).t2_) :
    e.1 ≠ k ∧ (e ∈ s.t1_ ∨ e ∈ s.t2_) := by
  obtain ⟨r1, r2, _⟩ := Remove_lists kb vb s hE k
  rw [r1, r2] at he
  rcases he with he | he
  · obtain ⟨a, b⟩ := List.mem_filter.mp he
    exact ⟨by simpa using b, Or.inl a⟩
  · obtain ⟨a, b⟩ := List.mem_filter.mp he
    exact ⟨by simpa using b, Or.inr a⟩

/-- What a found `Get` returns is the value of a resident entry under the
key. -/
theorem Get_found (vb : V → Nat) (s : ARC K V) (k : K) (v : V)
    (h : (Get vb s k).2 = some v) : (k, v) ∈ s.t1_ ∨ (k, v) ∈ s.t2_ := by
  cases h1 : T.Find s.t1_ k with
  | some e0 =>
    obtain ⟨hk0, hm0⟩ := T_Find_some h1
    rw [Get_of_t1 vb s k h1] at h
    simp only [Option.some.injEq] at h
    left
    rw [← hk0, ← h]
    exact hm0
  | none =>
    cases h2 : T.Find s.t2_ k with
    | some e0 =>
      obtain ⟨hk0, hm0⟩ := T_Find_some h2
      rw [Get_of_t2 vb s k h1 h2] at h
      simp only [Option.some.injEq] at h
      right
      rw [← hk0, ← h]
      exact hm0
    | none =>
      rw [Get_of_miss vb s k h1 h2] at h
      simp at h

/-- In a state without repeated keys `Get` returns the value of the resident
entry under the key. -/
theorem Get_of_resident (vb : V → Nat) (s : ARC K V) (hE : Exclusive s) (k : K) (v : V)
    (h : (k, v) ∈ s.t1_ ∨ (k, v) ∈ s.t2_) : (Get vb s k).2 = some v := by
  obtain ⟨n1, n2, _, _, d1, _, _⟩ := Exclusive_parts hE
  rcases h with h | h
  · exact Get_val_t1 vb s k (x := k) (T_Find_of_mem n1 h)
  · have hk1 : k ∉ keys s.t1_ := fun hk => (d1 k hk).1 (mem_keys_of_mem h)
    exact Get_val_t2 vb s k (x := k) (T_Find_eq_none.mpr hk1) (T_Find_of_mem n2 h)

/-- Every resident entry carries the value of the most recent `Put` of its
key, and that `Put` is more recent than every `Remove` of the key and every
`Clear`. -/
theorem run_lastPut (kb : K → Nat) (vb : V → Nat) (c : Nat) (ops : List (Op K V)) :
    ∀ e, e ∈ (run kb vb (ARC.new c) ops).t1_ ∨ e ∈ (run kb vb (ARC.new c) ops).t2_ →
      lastPut e.1 ops = some e.2 := by
  induction ops using List.reverseRecOn with
  | nil => intro e he; simp [run, ARC.new] at he
  | append_singleton ops op ih =>
    intro e he
    have hE : Exclusive (run kb vb (ARC.new c : ARC K V) ops) :=
      run_Exclusive kb vb ops _ (new_Exclusive c)
    rw [run_snoc] at he
    cases op with
    | put k v cb =>
      rcases Put_mem kb vb _ hE k v cb e he with h | ⟨h1, h2⟩
      · rw [h]
        rw [lastPut_snoc_writes k ops _ (by simp [Op.writes])]
        rfl
      · rw [lastPut_snoc_other e.1 ops _ (by simpa [Op.writes] using fun h => h1 h.symm)]
        exact ih e h2
    | get k =>
      rw [lastPut_snoc_other e.1 ops _ (by simp [Op.writes])]
      exact ih e (Get_mem vb _ hE k e he)
    | remove k =>
      obtain ⟨h1, h2⟩ := Remove_mem kb vb _ hE k e he
      rw [lastPut_snoc_other e.1 ops _ (by simpa [Op.writes] using fun h => h1 h.symm)]
      exact ih e h2
    | clear => simp [step, Clear] at he

/-- C21. Cache coherence.  For every sequence of `Put`, `Get`, `Remove` and
`Clear` calls on a new cache and every key `k`: when `Get(k)` after the
sequence returns found with value `v`, the most recent call of the sequence
among `Put(k, .)`, `Remove(k)` and `Clear` is a `Put(k, v)`, that is, the
sequence is `pre`, `Put(k, v)`, `post` with no such call in `post`.  And in
every state a cache reaches a `Put`, `Get` or `Remove` on another key never
alters the value stored for `k`: what `Get(k)` finds after the call it found
before the call. -/
theorem cache_coherence (kb : K → Nat) (vb : V → Nat) :
    (∀ (c : Nat) (ops : List (Op K V)) (k : K) (v : V),
      (Get vb (run kb vb (ARC.new c) ops) k).2 = some v →
      lastPut k ops = some v ∧
      ∃ pre cb post, ops = pre ++ Op.put k v cb :: post ∧
        ∀ o ∈ post, Op.writes k o = false) ∧
    (∀ (s : ARC K V), Reachable kb vb s → ∀ (op : Op K V) (k : K) (v : V),
      Op.onOtherKey k op = true →
      (Get vb (step kb vb s op).1 k).2 = some v → (Get vb s k).2 = some v) := by
  constructor
  · intro c ops k v h
    have hl := run_lastPut kb vb c ops (k, v) (Get_found vb _ k v h)
    exact ⟨hl, lastPut_some k v ops hl⟩
  · intro s hs op k v hop h
    have hE := Reachable_Exclusive hs
    have hm := Get_found vb _ k v h
    apply Get_of_resident vb s hE k v
    cases op with
    | put k1 v1 cb =>
      simp only [Op.onOtherKey, Bool.not_eq_true', beq_eq_false_iff_ne, ne_eq] at hop
      rcases Put_mem kb vb s hE k1 v1 cb (k, v) hm with h1 | ⟨_, h2⟩
      · exact absurd (congrArg Prod.fst h1).symm hop
      · exact h2
    | get k1 => exact Get_mem vb s hE k1 (k, v) hm
    | remove k1 => exact (Remove_mem kb vb s hE k1 (k, v) hm).2
    | clear => simp [Op.onOtherKey] at hop

end Coherence

section Concrete3

/-- Witness for C21: after the first five calls of the test `cache_inspect`
`Get(1)` finds the value 1, the value of the `Put(1, 1)` that opens the
sequence; and in the state these calls lead to, `Put(9, 9)` leaves what
`Get(1)` finds as it was. -/
theorem cache_coherence_witness :
    ((Get intBytes (run intBytes intBytes (ARC.new 3) (walkOps.take 5)) 1).2 = some 1 ∧
      lastPut 1 (walkOps.take 5) = some 1) ∧
    (Reachable intBytes intBytes demoState ∧ Op.onOtherKey 1 (putInt 9) = true ∧
      (Get intBytes (step intBytes intBytes demoState (putInt 9)).1 1).2 = some 1 ∧
      (Get intBytes demoState 1).2 = some 1) :=
  ⟨⟨by decide,
      ((cache_coherence intBytes intBytes).1 3 (walkOps.take 5) 1 1 (by decide)).1⟩,
    demoState_reachable, by decide, by decide,
    (cache_coherence intBytes intBytes).2 demoState demoState_reachable (putInt 9) 1 1
      (by decide) (by decide)⟩

/-- Witness for C22: the eight calls of the test `cache_inspect` on a cache
of capacity three; the cache is full after the third call and after the
eighth. -/
theorem directory_invariant_witness :
    1 ≤ 3 ∧ (∀ op ∈ walkOps, Op.isPutOrGet op = true) ∧
    (run intBytes intBytes (ARC.new 3) (walkOps.take 8)).t1_.length +
      (run intBytes intBytes (ARC.new 3) (walkOps.take 8)).b1_.length ≤ 3 ∧
    (run intBytes intBytes (ARC.new 3) (walkOps.take 8)).t1_.length +
      (run intBytes intBytes (ARC.new 3) (walkOps.take 8)).t2_.length ≤ 3 ∧
    (3 ≤ 8 ∧
      (run intBytes intBytes (ARC.new 3) (walkOps.take 3)).t1_.length +
        (run intBytes intBytes (ARC.new 3) (walkOps.take 3)).t2_.length = 3 ∧
      (run intBytes intBytes (ARC.new 3) (walkOps.take 8)).t1_.length +
        (run intBytes intBytes (ARC.new 3) (walkOps.take 8)).t2_.length = 3) :=
  ⟨by decide, by decide,
    (directory_invariant intBytes intBytes 3 (by decide) walkOps (by decide) 8).1,
    (directory_invariant intBytes intBytes 3 (by decide) walkOps (by decide) 8).2.1,
    by decide, by decide,
    (directory_invariant intBytes intBytes 3 (by decide) walkOps (by decide) 8).2.2.2 3
      (by decide) (by decide)⟩

/-- Witness for C23: in the state `T1 = [3, 4]`, `T2 = [1]`, `B1 = [2]`,
`Get(2)` on the ghost key 2. -/
theorem get_miss_frame_witness :
    2 ∉ keys demoState.t1_ ∧ 2 ∉ keys demoState.t2_ ∧ 2 ∈ demoState.b1_ ∧
    (Get intBytes demoState 2).2 = none ∧
    (Get intBytes demoState 2).1.b1_ = demoState.b1_ ∧
    MissCount (Get intBytes demoState 2).1 = MissCount demoState + 1 :=
  ⟨by decide, by decide, by decide,
    (get_miss_frame intBytes demoState 2 (by decide) (by decide)).1,
    (get_miss_frame intBytes demoState 2 (by decide) (by decide)).2.2.2.1,
    (get_miss_frame intBytes demoState 2 (by decide) (by decide)).2.2.2.2.2.2.2.2.2.1⟩

/-- Witness for C24: in the same state `Put(2, 2)` evaluates `|B2| / |B1|`
with the divisor `|B1| = 1`. -/
theorem adaptation_division_defined_witness :
    demoState.b1_.length ∈ PutDivisors demoState 2 ∧ 0 < demoState.b1_.length ∧
    B.Find demoState.b1_ 2 = true ∧
    divSize demoState.b2_.length demoState.b1_.length =
      some (demoState.b2_.length / demoState.b1_.length) ∧
    PutChecked intBytes intBytes demoState 2 2 none =
      some (Put intBytes intBytes demoState 2 2 none) :=
  ⟨by decide,
    ((adaptation_division_defined intBytes intBytes demoState 2 2 none).1
      demoState.b1_.length (by decide)).1,
    by decide,
    (adaptation_division_defined intBytes intBytes demoState 2 2 none).2.1 (by decide),
    (adaptation_division_defined intBytes intBytes demoState 2 2 none).2.2.2⟩

end Concrete3

end fengge
